import Mathlib

/-!
# Multiplicación de matrices cuadradas: hilos, procesos, MPI y referencia secuencial

Shallow embedding of the C programs `matrices_hilos.c`, `matrices_procesos.c`,
`matrices_mpi.c` and `matrices_secuencial.c`.

Conventions of the embedding:

* a C `int` variable is a Lean `Int`; `/` and `%` on `int` are `Int.tdiv` and
  `Int.tmod` (truncation toward zero, as in C99);
* an `int **` matrix is a function `Int → Int → α` (row, column), a flat buffer
  is a function `Int → α`; the element arithmetic (`0`, `+`, `*` on the element
  type) is a parameter `Aritmetica α`, instantiated by exact integer arithmetic
  and by 32-bit two's complement arithmetic;
* `int` arithmetic on sizes and offsets (`N * N`, `filas * N`, `i * n`, the running
  displacement, `int total_size`) is reduced to the 32-bit range by `wrap32`;
  `size_t` has 64 bits, `sizeof(int)` is 4, a pointer and a `double` take 8 bytes;
* a `for (int i = a; i < b; i++)` loop whose body does not assign `i`, `a` or `b`
  is `bucle a b`, a fold over the successive values of `i`.
-/

namespace Matrices

/-! ## Loops -/

/-- The loop `for (int i = desde; i < hasta; i++) cuerpo` run from state `s`: the
body is applied to `i = desde, desde+1, …, hasta-1` in this order (no iteration
at all when `hasta ≤ desde`). -/
def bucle {σ : Type} (desde hasta : Int) (cuerpo : Int → σ → σ) (s : σ) : σ :=
  (List.range (hasta - desde).toNat).foldl (fun st (t : Nat) => cuerpo (desde + (t : Int)) st) s

/-! ## Element arithmetic and memory -/

/-- The arithmetic of the element type used by the kernels: the constant `0`, `+`
and `*`. -/
structure Aritmetica (α : Type) where
  cero : α
  suma : α → α → α
  prod : α → α → α

/-- Exact arithmetic of a type with `0`, `+`, `*` (mathematical integers, rationals…). -/
def aritExacta (α : Type) [Zero α] [Add α] [Mul α] : Aritmetica α :=
  ⟨0, fun a b => a + b, fun a b => a * b⟩

/-- Reduction of an integer to the 32-bit two's complement range `[-2^31, 2^31)`. -/
def wrap32 (x : Int) : Int := (x + 2147483648) % 4294967296 - 2147483648

/-- 32-bit `int` arithmetic with wrap-around: every `+` and `*` is reduced mod 2^32. -/
def aritInt32 : Aritmetica Int :=
  ⟨0, fun a b => wrap32 (a + b), fun a b => wrap32 (a * b)⟩

/-- The `size_t` value of `cuenta * sizeof(T)`, where `cuenta` is an `int` and
`sizeof(T)` is `tam`: the conversion of `cuenta` to `size_t` and the product are
taken modulo 2^64. -/
def bytes (cuenta tam : Int) : Int :=
  (cuenta % 18446744073709551616 * tam) % 18446744073709551616

/-- An `int **` (or `double **`) matrix: the cell at (row, column). -/
abbrev Matriz (α : Type) := Int → Int → α

/-- The assignment `M[i][j] = v`. -/
def escribir {α : Type} (M : Matriz α) (i j : Int) (v : α) : Matriz α :=
  fun i' j' => if i' = i ∧ j' = j then v else M i' j'

/-- The three matrices `A`, `B`, `C` the multiplication works on (distinct
allocations). -/
structure Memoria (α : Type) where
  A : Matriz α
  B : Matriz α
  C : Matriz α

/-! ## Row partition (`multiplicar_matrices`, thread and process versions) -/

/-- The fields `fila_inicio`, `fila_fin`, `n` of `DatosHilo` (the fields `A`, `B`,
`C` point to the three matrices of the memory). -/
structure DatosHilo where
  fila_inicio : Int
  fila_fin : Int
  n : Int
deriving DecidableEq, Repr

/-- Variables of the partition loop: `filas_restantes`, `fila_actual`, and the
assignments made so far, in the order of the worker index. -/
structure EstadoReparto (ρ : Type) where
  filas_restantes : Int
  fila_actual : Int
  asignados : List ρ

namespace Hilos

/-- One iteration of the loop of `multiplicar_matrices` (matrices_hilos.c, lines
128-145): fills `datos_hilos[i]`. -/
def paso_reparto (n filas_por_hilo : Int) (st : EstadoReparto DatosHilo) :
    EstadoReparto DatosHilo :=
  let fila_inicio := st.fila_actual
  let filas_este_hilo := filas_por_hilo
  if st.filas_restantes > 0 then
    let filas_este_hilo := filas_este_hilo + 1
    let filas_restantes := st.filas_restantes - 1
    let fila_actual := st.fila_actual + filas_este_hilo
    ⟨filas_restantes, fila_actual, st.asignados ++ [⟨fila_inicio, fila_actual, n⟩]⟩
  else
    let fila_actual := st.fila_actual + filas_este_hilo
    ⟨st.filas_restantes, fila_actual, st.asignados ++ [⟨fila_inicio, fila_actual, n⟩]⟩

/-- The array `datos_hilos` built by `multiplicar_matrices(A, B, C, n, num_hilos)`
(matrices_hilos.c, lines 123-145). Requires `num_hilos ≠ 0` (division). -/
def particion (n num_hilos : Int) : List DatosHilo :=
  let filas_por_hilo := Int.tdiv n num_hilos
  let filas_restantes := Int.tmod n num_hilos
  let fila_actual := 0
  (bucle 0 num_hilos (fun _ st => paso_reparto n filas_por_hilo st)
    ⟨filas_restantes, fila_actual, []⟩).asignados

end Hilos

namespace Procesos

/-- One iteration of the loop of `multiplicar_matrices` (matrices_procesos.c,
lines 128-140): the pair `(fila_inicio, fila_fin)` handed to child `i`. -/
def paso_reparto (filas_por_proceso : Int) (st : EstadoReparto (Int × Int)) :
    EstadoReparto (Int × Int) :=
  let filas_este_proceso := filas_por_proceso
  if st.filas_restantes > 0 then
    let filas_este_proceso := filas_este_proceso + 1
    let filas_restantes := st.filas_restantes - 1
    let fila_inicio := st.fila_actual
    let fila_actual := st.fila_actual + filas_este_proceso
    let fila_fin := fila_actual
    ⟨filas_restantes, fila_actual, st.asignados ++ [(fila_inicio, fila_fin)]⟩
  else
    let fila_inicio := st.fila_actual
    let fila_actual := st.fila_actual + filas_este_proceso
    let fila_fin := fila_actual
    ⟨st.filas_restantes, fila_actual, st.asignados ++ [(fila_inicio, fila_fin)]⟩

/-- The row ranges computed by `multiplicar_matrices(A, B, C, n, num_procesos)`
(matrices_procesos.c, lines 124-140), child 0 first. Requires
`num_procesos ≠ 0` (division). -/
def particion (n num_procesos : Int) : List (Int × Int) :=
  let filas_por_proceso := Int.tdiv n num_procesos
  let filas_restantes := Int.tmod n num_procesos
  let fila_actual := 0
  (bucle 0 num_procesos (fun _ st => paso_reparto filas_por_proceso st)
    ⟨filas_restantes, fila_actual, []⟩).asignados

end Procesos

/-! ## Kernels -/

namespace Procesos

/-- The function `multiplicar_matrices_proceso(A, B, C, n, fila_inicio, fila_fin)` of
matrices_procesos.c (lines 105-118). -/
def multiplicar_matrices_proceso {α : Type} (ar : Aritmetica α) (m : Memoria α)
    (n fila_inicio fila_fin : Int) : Memoria α :=
  bucle fila_inicio fila_fin (fun i m =>
    bucle 0 n (fun j m =>
      bucle 0 n (fun k m =>
          { m with C := escribir m.C i j (ar.suma (m.C i j) (ar.prod (m.A i k) (m.B k j))) })
        { m with C := escribir m.C i j ar.cero })
      m)
    m

end Procesos

namespace Hilos

/-- The function `multiplicar_matrices_hilo(arg)` of matrices_hilos.c (lines 86-109),
`arg` pointing to `datos`. -/
def multiplicar_matrices_hilo {α : Type} (ar : Aritmetica α) (m : Memoria α)
    (datos : DatosHilo) : Memoria α :=
  let fila_inicio := datos.fila_inicio
  let fila_fin := datos.fila_fin
  let n := datos.n
  bucle fila_inicio fila_fin (fun i m =>
    bucle 0 n (fun j m =>
      bucle 0 n (fun k m =>
          { m with C := escribir m.C i j (ar.suma (m.C i j) (ar.prod (m.A i k) (m.B k j))) })
        { m with C := escribir m.C i j ar.cero })
      m)
    m

end Hilos

namespace Secuencial

/-- The function `multiplicar_matrices(A, B, filasA, columnasA, columnasB)` of
matrices_secuencial.c (lines 43-55); `m.C` is the content of the freshly reserved
matrix, the returned matrix is the field `C` of the result. -/
def multiplicar_matrices {α : Type} (ar : Aritmetica α) (m : Memoria α)
    (filasA columnasA columnasB : Int) : Memoria α :=
  bucle 0 filasA (fun i m =>
    bucle 0 columnasB (fun j m =>
      bucle 0 columnasA (fun k m =>
          { m with C := escribir m.C i j (ar.suma (m.C i j) (ar.prod (m.A i k) (m.B k j))) })
        { m with C := escribir m.C i j ar.cero })
      m)
    m

end Secuencial

/-- The value accumulated for cell `(i, j)`: starting from `0`, the terms
`A[i][k] * B[k][j]` are added for `k = 0, 1, …, nk-1` in this order. -/
def celda {α : Type} (ar : Aritmetica α) (A B : Matriz α) (nk i j : Int) : α :=
  bucle 0 nk (fun k acc => ar.suma acc (ar.prod (A i k) (B k j))) ar.cero

/-- The triple loop shared by the kernels: rows `r0 ≤ i < r1`, columns
`0 ≤ j < nc`, inner index `0 ≤ k < nk`. -/
def triple_bucle {α : Type} (ar : Aritmetica α) (m : Memoria α) (r0 r1 nc nk : Int) :
    Memoria α :=
  bucle r0 r1 (fun i m =>
    bucle 0 nc (fun j m =>
      bucle 0 nk (fun k m =>
          { m with C := escribir m.C i j (ar.suma (m.C i j) (ar.prod (m.A i k) (m.B k j))) })
        { m with C := escribir m.C i j ar.cero })
      m)
    m

/-- A matrix given by the list of its rows (cells outside the lists hold `0`). -/
def deFilas (filas : List (List Int)) : Matriz Int :=
  fun i j => if 0 ≤ i ∧ 0 ≤ j then (filas.getD i.toNat []).getD j.toNat 0 else 0

/-- The matrix `A = [[1,2],[3,4]]` of the concrete scenario. -/
def ejemploA : Matriz Int := deFilas [[1, 2], [3, 4]]

/-- The matrix `B = [[5,6],[7,8]]` of the concrete scenario. -/
def ejemploB : Matriz Int := deFilas [[5, 6], [7, 8]]

/-- The workers of the process version run one after the other in the order of the
list `orden` of row ranges: each runs `multiplicar_matrices_proceso` on its range. -/
def ejecutar_procesos {α : Type} (ar : Aritmetica α) (n : Int) (orden : List (Int × Int))
    (m : Memoria α) : Memoria α :=
  orden.foldl (fun m p => Procesos.multiplicar_matrices_proceso ar m n p.1 p.2) m

/-- The workers of the thread version run one after the other in the order of the
list `orden` of thread arguments: each runs `multiplicar_matrices_hilo`. -/
def ejecutar_hilos {α : Type} (ar : Aritmetica α) (orden : List DatosHilo)
    (m : Memoria α) : Memoria α :=
  orden.foldl (fun m d => Hilos.multiplicar_matrices_hilo ar m d) m

namespace Mpi

/-- A flat buffer (`double *`, `int *`): the cell at each offset. -/
abbrev Buffer (α : Type) := Int → α

/-- The assignment `v[i] = x`. -/
def asignar {α : Type} (v : Buffer α) (i : Int) (x : α) : Buffer α :=
  fun i' => if i' = i then x else v i'

/-- A flat buffer given by the list of its cells (cells outside the list hold `0`). -/
def deLista (celdas : List Int) : Buffer Int :=
  fun i => if 0 ≤ i then celdas.getD i.toNat 0 else 0

/-- The function `filas_por_proceso(rank, size, N)` of matrices_mpi.c (lines 48-56).
Requires `size ≠ 0` (division); `MPI_Comm_size` always gives `size ≥ 1`. -/
def filas_por_proceso (rank size N : Int) : Int :=
  let base := Int.tdiv N size
  let resto := Int.tmod N size
  if rank < resto then
    base + 1
  else
    base

/-- Variables of `calcular_desplazamientos`: the arrays `counts`, `displs` and the
local `desplazamiento`. -/
structure EstadoDespl where
  counts : Buffer Int
  displs : Buffer Int
  desplazamiento : Int

/-- The function `calcular_desplazamientos(counts, displs, size, N)` of
matrices_mpi.c (lines 59-69); the arguments `counts`, `displs` are the contents of
the two arrays before the call. The product `filas * N` and the sum
`desplazamiento += counts[i]` are `int` operations. -/
def calcular_desplazamientos (counts displs : Buffer Int) (size N : Int) : EstadoDespl :=
  let desplazamiento := 0
  bucle 0 size (fun i st =>
      let filas := filas_por_proceso i size N
      let counts := asignar st.counts i (wrap32 (filas * N))
      let displs := asignar st.displs i st.desplazamiento
      let desplazamiento := wrap32 (st.desplazamiento + counts i)
      ⟨counts, displs, desplazamiento⟩)
    ⟨counts, displs, desplazamiento⟩

/-- Effect of `MPI_Bcast(buf, cuenta, …, 0, …)` on the buffer of a process: its
first `cuenta` cells become those of the root's buffer (MPI standard). -/
def bcast {α : Type} (raiz : Buffer α) (cuenta : Int) (destino : Buffer α) : Buffer α :=
  fun t => if 0 ≤ t ∧ t < cuenta then raiz t else destino t

/-- Effect of `MPI_Scatterv(origen, sendcounts, displs, …, destino, …)` on the
receive buffer of process `rank`: it receives the `sendcounts[rank]` cells of
`origen` that start at offset `displs[rank]` (MPI standard). -/
def scatterv {α : Type} (origen : Buffer α) (sendcounts displs : Buffer Int) (rank : Int)
    (destino : Buffer α) : Buffer α :=
  fun t => if 0 ≤ t ∧ t < sendcounts rank then origen (displs rank + t) else destino t

/-- Effect of `MPI_Gatherv(…, destino, recvcounts, recvdispls, …)` on the receive
buffer of the root: for each process `p = 0, …, size-1` the `recvcounts[p]` cells
sent by `p` are stored from offset `recvdispls[p]` on (MPI standard). -/
def gatherv {α : Type} (locales : Int → Buffer α) (recvcounts recvdispls : Buffer Int)
    (size : Int) (destino : Buffer α) : Buffer α :=
  bucle 0 size (fun p C =>
      fun x => if recvdispls p ≤ x ∧ x < recvdispls p + recvcounts p
        then locales p (x - recvdispls p) else C x)
    destino

/-- The local computation of one process in `main` (matrices_mpi.c, lines 223-239):
`C_local` is zeroed, then each cell of the `filas_local` local rows is computed in
the local variable `sum` and stored. The bound `filas_local * N` and the offsets
`i * N + k`, `k * N + j`, `i * N + j` are written without reduction: `main` gets
here only when `N * N` is representable as an `int`, and then each of them is
(they are at most `N * N`). -/
def calculo_local {α : Type} (ar : Aritmetica α) (A_local B_local C_local : Buffer α)
    (filas_local N : Int) : Buffer α :=
  let C_local := bucle 0 (filas_local * N) (fun i C_local => asignar C_local i ar.cero) C_local
  bucle 0 filas_local (fun i C_local =>
      bucle 0 N (fun j C_local =>
          let sum := bucle 0 N
            (fun k sum => ar.suma sum (ar.prod (A_local (i * N + k)) (B_local (k * N + j))))
            ar.cero
          asignar C_local (i * N + j) sum)
        C_local)
    C_local

/-- Contents of the buffers before they are written: the freshly reserved
`A_local`, `B_local`, `C_local` of each process (indexed by rank), the root's `C`,
and the root's four arrays of counts and displacements. -/
structure Inicial (α : Type) where
  A_local : Int → Buffer α
  B_local : Int → Buffer α
  C_local : Int → Buffer α
  C : Buffer α
  sendcounts : Buffer Int
  displs : Buffer Int
  recvcounts : Buffer Int
  recvdispls : Buffer Int

/-- The loop of `main` that copies `sendcounts`, `displs` into `recvcounts`,
`recvdispls` (matrices_mpi.c, lines 180-183); the result is the pair
`(recvcounts, recvdispls)`. -/
def copiar_cuentas (sendcounts displs recvcounts recvdispls : Buffer Int) (size : Int) :
    Buffer Int × Buffer Int :=
  bucle 0 size (fun i (r : Buffer Int × Buffer Int) =>
      (asignar r.1 i (sendcounts i), asignar r.2 i (displs i)))
    (recvcounts, recvdispls)

end Mpi

/-! ## The whole functions `multiplicar_matrices` and `main` -/

/-- What the orchestrator does that is visible from outside, in program order. -/
inductive Evento where
  /-- The call `multiplicar_matrices(A, B, C, n, num)` made by `main` -/
  | multiplicar (n num : Int)
  /-- A successful `pthread_create` of thread `i` with the argument `datos` -/
  | pthread_create (i : Int) (datos : DatosHilo)
  /-- A successful `pthread_join` of thread `i` -/
  | pthread_join (i : Int)
  /-- A successful `fork` of child `i`, which works on rows `[fila_inicio, fila_fin)` -/
  | fork (i : Int) (fila_inicio fila_fin : Int)
  /-- One call of `wait(NULL)` -/
  | wait
deriving DecidableEq, Repr

/-- How a function or program ends. -/
inductive Fin where
  /-- The function returns to its caller -/
  | retorna
  /-- The process ends with this status (`exit(status)`, or `return status` in `main`) -/
  | exit (status : Int)
  /-- Undefined behaviour: integer division by zero, access outside a block of memory -/
  | indefinido
deriving DecidableEq, Repr

/-- The value of `EXIT_SUCCESS`. -/
def EXIT_SUCCESS : Int := 0

/-- The value of `EXIT_FAILURE`. -/
def EXIT_FAILURE : Int := 1

/-- What the system calls answer: whether the allocations of `multiplicar_matrices`
succeed, whether worker `i` can be created (`pthread_create`, `fork`), whether
joining thread `i` succeeds. -/
structure Entorno where
  malloc_ok : Bool
  crear_ok : Int → Bool
  join_ok : Int → Bool

/-- The environment in which every system call succeeds. -/
def entorno_sin_fallos : Entorno := ⟨true, fun _ => true, fun _ => true⟩

/-- The names of the three shared-memory objects of matrices_procesos.c
(`/matriz_A`, `/matriz_B`, `/matriz_C`). -/
inductive Nombre where
  | matriz_A
  | matriz_B
  | matriz_C
deriving DecidableEq, Repr

/-- What the operating system answers when `main` asks for the memory of its
matrices: `malloc_ok b` whether `malloc` grants a request of `b` bytes,
`shm_open_ok nombre` whether `shm_open` of the object succeeds, `ftruncate_ok l`
whether `ftruncate` to a length `l ≥ 0` succeeds, `mmap_ok l` whether mapping
`l > 0` bytes succeeds. -/
structure Sistema where
  malloc_ok : Int → Bool
  shm_open_ok : Nombre → Bool
  ftruncate_ok : Int → Bool
  mmap_ok : Int → Bool

/-- The system that grants every request. -/
def sistema_sin_fallos : Sistema :=
  ⟨fun _ => true, fun _ => true, fun _ => true, fun _ => true⟩

/-- Outcome of a run: the memory, the events in program order, and the way it ended. -/
structure Ejecucion (α : Type) where
  mem : Memoria α
  traza : List Evento
  fin : Fin

/-- Variables of the dispatch loop of `multiplicar_matrices`. -/
structure EstadoMult (α ρ : Type) where
  reparto : EstadoReparto ρ
  mem : Memoria α
  traza : List Evento

/-- A `for (int i = desde; i < hasta; i++)` loop whose body may end the process:
`Except.error` carries the state at the `exit`. -/
def bucle_salida {σ ε : Type} (desde hasta : Int) (cuerpo : Int → σ → Except ε σ) (s : σ) :
    Except ε σ :=
  (List.range (hasta - desde).toNat).foldlM (fun st (t : Nat) => cuerpo (desde + (t : Int)) st) s

namespace Mpi

/-- The buffer `C_local` of process `rank` after its local computation in `main`
(matrices_mpi.c, lines 133-239), `A` and `B` being the root's matrices. The count
`N * N` of `MPI_Bcast` is an `int` product; the receive count `filas_local * N`
that the process passes to `MPI_Scatterv` is its entry of `sendcounts`. -/
def C_local_de {α : Type} (ar : Aritmetica α) (size N : Int) (A B : Buffer α)
    (ini : Inicial α) (rank : Int) : Buffer α :=
  let filas_local := filas_por_proceso rank size N
  let d := calcular_desplazamientos ini.sendcounts ini.displs size N
  let B_local := bcast B (wrap32 (N * N)) (ini.B_local rank)
  let A_local := scatterv A d.counts d.displs rank (ini.A_local rank)
  calculo_local ar A_local B_local (ini.C_local rank) filas_local N

/-- Outcome of a run of `main` of matrices_mpi.c: the root's buffer `C` and the way
the program ended. -/
structure Resultado (α : Type) where
  C : Buffer α
  fin : Fin

/-- Whether every `malloc` of `main` (matrices_mpi.c, lines 126-194) returns memory:
`N * N * sizeof(double)` bytes for `B_local` in every process and for `A`, `B`, `C`
at the root, `size * sizeof(int)` bytes for the four arrays of the root,
`filas_local * N * sizeof(double)` bytes for `A_local` and `C_local` of each
process. `N * N` and `filas_local * N` are `int` products. -/
def reservas_ok (sis : Sistema) (size N : Int) : Bool :=
  sis.malloc_ok (bytes (wrap32 (N * N)) 8)
    && sis.malloc_ok (bytes size 4)
    && (List.range size.toNat).all (fun (rank : Nat) =>
      sis.malloc_ok (bytes (wrap32 (filas_por_proceso (rank : Int) size N * N)) 8))

/-- The function `main` of matrices_mpi.c (lines 77-291) with `size` processes and
dimension `N` (the value after the option loop); `A` and `B` are the root's
matrices after their random filling. The program exits with failure when
`N ≤ 0`; a `malloc` that returns `NULL` in some process makes it call
`MPI_Abort(MPI_COMM_WORLD, EXIT_FAILURE)`; when the `int` product `N * N` is not
the number `N * N`, the buffers are shorter than the `N * N` cells the loops go
through and the behaviour is undefined; otherwise the root's `C` is what
`MPI_Gatherv` assembles and `main` returns 0. The send count `filas_local * N`
that a process passes to `MPI_Gatherv` is its entry of `recvcounts`. -/
def main {α : Type} (ar : Aritmetica α) (sis : Sistema) (size N : Int) (A B : Buffer α)
    (ini : Inicial α) : Resultado α :=
  if N ≤ 0 then ⟨ini.C, Fin.exit EXIT_FAILURE⟩
  else if ¬ reservas_ok sis size N then ⟨ini.C, Fin.exit EXIT_FAILURE⟩
  else if wrap32 (N * N) ≠ N * N then ⟨ini.C, Fin.indefinido⟩
  else
    let d := calcular_desplazamientos ini.sendcounts ini.displs size N
    let r := copiar_cuentas d.counts d.displs ini.recvcounts ini.recvdispls size
    ⟨gatherv (C_local_de ar size N A B ini) r.1 r.2 size ini.C, Fin.exit EXIT_SUCCESS⟩

end Mpi

namespace Hilos

/-- The function `multiplicar_matrices(A, B, C, n, num_hilos)` of matrices_hilos.c
(lines 112-166). A created thread is run to completion on the shared memory at
its creation (one of the possible schedules). A negative `num_hilos` makes
`num_hilos * sizeof(pthread_t)` a request of more than 2^63 bytes, which no
`malloc` grants. -/
def multiplicar_matrices {α : Type} (ar : Aritmetica α) (env : Entorno) (m : Memoria α)
    (n num_hilos : Int) : Ejecucion α :=
  if ¬ env.malloc_ok ∨ num_hilos < 0 then ⟨m, [], Fin.exit EXIT_FAILURE⟩
  else if num_hilos = 0 then ⟨m, [], Fin.indefinido⟩
  else
    let filas_por_hilo := Int.tdiv n num_hilos
    let filas_restantes := Int.tmod n num_hilos
    let fila_actual := 0
    match bucle_salida 0 num_hilos (fun i (st : EstadoMult α DatosHilo) =>
        let reparto := paso_reparto n filas_por_hilo st.reparto
        let datos : DatosHilo := ⟨st.reparto.fila_actual, reparto.fila_actual, n⟩
        if env.crear_ok i then
          Except.ok ⟨reparto, multiplicar_matrices_hilo ar st.mem datos,
            st.traza ++ [Evento.pthread_create i datos]⟩
        else
          Except.error (⟨reparto, st.mem, st.traza⟩ : EstadoMult α DatosHilo))
      ⟨⟨filas_restantes, fila_actual, []⟩, m, []⟩ with
    | Except.error st => ⟨st.mem, st.traza, Fin.exit EXIT_FAILURE⟩
    | Except.ok st =>
      match bucle_salida 0 num_hilos (fun i (traza : List Evento) =>
          if env.join_ok i then Except.ok (traza ++ [Evento.pthread_join i])
          else Except.error traza)
        st.traza with
      | Except.error traza => ⟨st.mem, traza, Fin.exit EXIT_FAILURE⟩
      | Except.ok traza => ⟨st.mem, traza, Fin.retorna⟩

end Hilos

namespace Procesos

/-- The function `multiplicar_matrices(A, B, C, n, num_procesos)` of
matrices_procesos.c (lines 121-165). A child runs `multiplicar_matrices_proceso`
on the shared matrices and exits; it is run to completion at its creation (one of
the possible schedules). -/
def multiplicar_matrices {α : Type} (ar : Aritmetica α) (env : Entorno) (m : Memoria α)
    (n num_procesos : Int) : Ejecucion α :=
  if num_procesos = 0 then ⟨m, [], Fin.indefinido⟩
  else
    let filas_por_proceso := Int.tdiv n num_procesos
    let filas_restantes := Int.tmod n num_procesos
    let fila_actual := 0
    match bucle_salida 0 num_procesos (fun i (st : EstadoMult α (Int × Int)) =>
        let reparto := paso_reparto filas_por_proceso st.reparto
        let fila_inicio := st.reparto.fila_actual
        let fila_fin := reparto.fila_actual
        if env.crear_ok i then
          Except.ok ⟨reparto, multiplicar_matrices_proceso ar st.mem n fila_inicio fila_fin,
            st.traza ++ [Evento.fork i fila_inicio fila_fin]⟩
        else
          Except.error (⟨reparto, st.mem, st.traza⟩ : EstadoMult α (Int × Int)))
      ⟨⟨filas_restantes, fila_actual, []⟩, m, []⟩ with
    | Except.error st => ⟨st.mem, st.traza, Fin.exit EXIT_FAILURE⟩
    | Except.ok st =>
      ⟨st.mem, bucle 0 num_procesos (fun _ traza => traza ++ [Evento.wait]) st.traza,
        Fin.retorna⟩

end Procesos

/-- One result of `getopt_long` in the option loop of `main`, with the value
`atoi(optarg)` for the options that take an argument: the size option (`-n`), the
worker-count option (`-t` for threads, `-p` for processes), the print option, the
help option, `'?'` (unknown option or missing argument), anything else. -/
inductive Opcion where
  | tamano (valor : Int)
  | trabajadores (valor : Int)
  | imprimir
  | ayuda
  | desconocida
  | otra
deriving DecidableEq, Repr

/-- The variables `n`, `num_hilos` (or `num_procesos`) and `imprimir` of `main`. -/
structure Config where
  n : Int
  num : Int
  imprimir : Int
deriving DecidableEq, Repr

/-- The default values of `main`: `n = 4`, two workers, no printing. -/
def config_defecto : Config := ⟨4, 2, 0⟩

/-- The option loop of `main` (matrices_hilos.c lines 197-230, matrices_procesos.c
lines 196-229): `Except.error status` when `main` returns `status` from inside
the loop. -/
def procesar_opciones : List Opcion → Config → Except Int Config
  | [], c => Except.ok c
  | Opcion.tamano valor :: resto, c =>
    if valor ≤ 0 then Except.error EXIT_FAILURE
    else procesar_opciones resto { c with n := valor }
  | Opcion.trabajadores valor :: resto, c =>
    if valor ≤ 0 then Except.error EXIT_FAILURE
    else procesar_opciones resto { c with num := valor }
  | Opcion.imprimir :: resto, c => procesar_opciones resto { c with imprimir := 1 }
  | Opcion.ayuda :: _, _ => Except.error EXIT_SUCCESS
  | Opcion.desconocida :: _, _ => Except.error EXIT_FAILURE
  | Opcion.otra :: _, _ => Except.error EXIT_FAILURE

/-- The adjustment of the worker count in `main` (matrices_hilos.c lines 232-237,
matrices_procesos.c lines 231-236). -/
def ajustar (c : Config) : Config :=
  if c.num > c.n then { c with num := c.n } else c

namespace Hilos

/-- The function `crear_matriz(n)` of matrices_hilos.c (lines 28-48):
`Except.error` when it ends the process because a `malloc` returned `NULL`. The
sizes `n * sizeof(int *)` and `n * sizeof(int)` are computed in `size_t`. -/
def crear_matriz (sis : Sistema) (n : Int) : Except Fin Unit :=
  if ¬ sis.malloc_ok (bytes n 8) then Except.error (Fin.exit EXIT_FAILURE)
  else
    bucle_salida 0 n (fun _ (_ : Unit) =>
        if ¬ sis.malloc_ok (bytes n 4) then Except.error (Fin.exit EXIT_FAILURE)
        else Except.ok ())
      ()

/-- The function `main` of matrices_hilos.c (lines 178-285); `m` holds the three
matrices once created and `A`, `B` filled at random. -/
def main {α : Type} (ar : Aritmetica α) (sis : Sistema) (env : Entorno)
    (opciones : List Opcion) (m : Memoria α) : Ejecucion α :=
  match procesar_opciones opciones config_defecto with
  | Except.error status => ⟨m, [], Fin.exit status⟩
  | Except.ok c =>
    let c := ajustar c
    match crear_matriz sis c.n with
    | Except.error fin => ⟨m, [], fin⟩
    | Except.ok _ =>
    match crear_matriz sis c.n with
    | Except.error fin => ⟨m, [], fin⟩
    | Except.ok _ =>
    match crear_matriz sis c.n with
    | Except.error fin => ⟨m, [], fin⟩
    | Except.ok _ =>
      let e := multiplicar_matrices ar env m c.n c.num
      match e.fin with
      | Fin.retorna => ⟨e.mem, Evento.multiplicar c.n c.num :: e.traza, Fin.exit EXIT_SUCCESS⟩
      | fin => ⟨e.mem, Evento.multiplicar c.n c.num :: e.traza, fin⟩

end Hilos

namespace Procesos

/-- The value of `int total_size = n * sizeof(int *) + n * n * sizeof(int)` in
`crear_matriz_compartida` (matrices_procesos.c, line 25): `n * n` is an `int`
product, the two sizes and their sum are computed in `size_t`, and the sum is
converted to `int`. -/
def total_size (n : Int) : Int :=
  wrap32 ((bytes n 8 + bytes (wrap32 (n * n)) 4) % 18446744073709551616)

/-- The function `crear_matriz_compartida(n, nombre)` of matrices_procesos.c
(lines 21-61). The result is the pointer table `matriz`, each entry as an offset
in cells from `data` (the loop stores `data + i * n` in `matriz[i]`, `i * n` being
an `int` product); the argument `matriz` is the content of the table before the
loop. `Except.error` tells how the process ends instead: with `EXIT_FAILURE` when
`shm_open`, `ftruncate` (which rejects a negative length) or `mmap` (which
rejects the length 0) fails; and when `total_size` is not the number of bytes
`8 * n + 4 * (n * n)` of the table and the cells, the mapped object is too short
for them and the behaviour is undefined. -/
def crear_matriz_compartida (sis : Sistema) (n : Int) (nombre : Nombre)
    (matriz : Mpi.Buffer Int) : Except Fin (Mpi.Buffer Int) :=
  let total_size := total_size n
  if ¬ sis.shm_open_ok nombre then Except.error (Fin.exit EXIT_FAILURE)
  else if total_size < 0 ∨ ¬ sis.ftruncate_ok total_size then
    Except.error (Fin.exit EXIT_FAILURE)
  else if total_size = 0 ∨ ¬ sis.mmap_ok total_size then
    Except.error (Fin.exit EXIT_FAILURE)
  else if total_size ≠ 8 * n + 4 * (n * n) then Except.error Fin.indefinido
  else Except.ok (bucle 0 n (fun i matriz => Mpi.asignar matriz i (wrap32 (i * n))) matriz)

/-- The function `main` of matrices_procesos.c (lines 177-284); `m` holds the three
shared matrices once created and `A`, `B` filled at random (the pointer tables
returned by `crear_matriz_compartida` are not kept apart). -/
def main {α : Type} (ar : Aritmetica α) (sis : Sistema) (env : Entorno)
    (opciones : List Opcion) (m : Memoria α) : Ejecucion α :=
  match procesar_opciones opciones config_defecto with
  | Except.error status => ⟨m, [], Fin.exit status⟩
  | Except.ok c =>
    let c := ajustar c
    match crear_matriz_compartida sis c.n Nombre.matriz_A (fun _ => 0) with
    | Except.error fin => ⟨m, [], fin⟩
    | Except.ok _ =>
    match crear_matriz_compartida sis c.n Nombre.matriz_B (fun _ => 0) with
    | Except.error fin => ⟨m, [], fin⟩
    | Except.ok _ =>
    match crear_matriz_compartida sis c.n Nombre.matriz_C (fun _ => 0) with
    | Except.error fin => ⟨m, [], fin⟩
    | Except.ok _ =>
      let e := multiplicar_matrices ar env m c.n c.num
      match e.fin with
      | Fin.retorna => ⟨e.mem, Evento.multiplicar c.n c.num :: e.traza, Fin.exit EXIT_SUCCESS⟩
      | fin => ⟨e.mem, Evento.multiplicar c.n c.num :: e.traza, fin⟩

end Procesos

namespace Openmp

/-- The function `multiplicar_matrices_openmp(A, B, n, num_hilos)` of
matrices_openmp.c (lines 62-80); `m.C` is the content of the freshly reserved
matrix, the returned matrix is the field `C` of the result. The iterations of the
`parallel for` over `i` are run one after the other in the order `orden`, the
schedule chosen by the runtime for `num_hilos` threads; each iteration runs its
`j` and `k` loops sequentially. -/
def multiplicar_matrices_openmp {α : Type} (ar : Aritmetica α) (orden : List Int)
    (m : Memoria α) (n _num_hilos : Int) : Memoria α :=
  orden.foldl (fun m i =>
      bucle 0 n (fun j m =>
        bucle 0 n (fun k m =>
            { m with C := escribir m.C i j (ar.suma (m.C i j) (ar.prod (m.A i k) (m.B k j))) })
          { m with C := escribir m.C i j ar.cero })
        m)
    m

end Openmp

/-- The chain of additions `(((cero + t 0) + t 1) + …) + t (n-1)`, from left to
right in ascending order of the index. -/
def suma_ascendente {α : Type} (ar : Aritmetica α) (t : Nat → α) : Nat → α
  | 0 => ar.cero
  | n + 1 => ar.suma (suma_ascendente ar t n) (t n)

namespace Mpi

/-- The offset `i * N + j` at which the flat matrices of matrices_mpi.c hold the
cell of row `i` and column `j` (`imprimir_matriz` line 39, `main` lines 235-237),
as the `int` expression evaluates it. -/
def indice (N i j : Int) : Int := wrap32 (wrap32 (i * N) + j)

end Mpi

/-- The function `llenar_matriz_aleatoria(matriz, n)` of matrices_hilos.c (lines
51-60) and matrices_procesos.c (lines 64-73). The successive results of `rand()`
are `rand llamadas`, `rand (llamadas + 1)`, …; the result is the matrix and the
number of calls of `rand()` made so far. -/
def llenar_matriz_aleatoria (rand : Nat → Int) (matriz : Matriz Int) (n : Int)
    (llamadas : Nat) : Matriz Int × Nat :=
  bucle 0 n (fun i st =>
      bucle 0 n (fun j st =>
          (escribir st.1 i j (Int.tmod (rand st.2) 10), st.2 + 1))
        st)
    (matriz, llamadas)

/-- The content of `C[i][j]` in the kernel after the assignment `C[i][j] = 0` and
the first `t` iterations of the `k` loop. -/
def celda_tras {α : Type} (ar : Aritmetica α) (m : Memoria α) (i j : Int) (t : Nat) : α :=
  (bucle 0 (t : Int) (fun k (m : Memoria α) =>
      { m with C := escribir m.C i j (ar.suma (m.C i j) (ar.prod (m.A i k) (m.B k j))) })
    { m with C := escribir m.C i j ar.cero }).C i j

/-- The four cells of the top-left 2×2 block of a matrix, row by row. -/
def celdas2 (C : Matriz Int) : List (List Int) := [[C 0 0, C 0 1], [C 1 0, C 1 1]]

/-- The first four cells of a flat buffer. -/
def celdas4 (C : Mpi.Buffer Int) : List Int := [C 0, C 1, C 2, C 3]

/-! ## Closed form of the partition -/

/-- First row of worker `i` when every worker gets `q` rows and the first `r`
workers one more: `q * i + min i r`. -/
def inicio_cerrado (q r : Int) (i : Nat) : Int := q * (i : Int) + min (i : Int) r

/-- Events of the creation of the first `t` children of the process version. -/
def traza_fork (q r : Int) (t : Nat) : List Evento :=
  (List.range t).map (fun (i : Nat) =>
    Evento.fork (i : Int) (inicio_cerrado q r i) (inicio_cerrado q r (i + 1)))

/-- Events of the creation of the first `t` threads. -/
def traza_create (n q r : Int) (t : Nat) : List Evento :=
  (List.range t).map (fun (i : Nat) => Evento.pthread_create (i : Int)
    ⟨inicio_cerrado q r i, inicio_cerrado q r (i + 1), n⟩)

/-- Events of the joining of the first `t` threads. -/
def traza_join (t : Nat) : List Evento :=
  (List.range t).map (fun (i : Nat) => Evento.pthread_join (i : Int))

theorem bucle_succ {σ : Type} (desde : Int) (t : Nat) (cuerpo : Int → σ → σ) (s : σ) :
    bucle desde (desde + ((t + 1 : Nat) : Int)) cuerpo s
      = cuerpo (desde + (t : Int)) (bucle desde (desde + (t : Int)) cuerpo s) := by
  unfold bucle
  have h1 : (desde + ((t + 1 : Nat) : Int) - desde).toNat = t + 1 := by omega
  have h2 : (desde + (t : Int) - desde).toNat = t := by omega
  rw [h1, h2, List.range_succ, List.foldl_append]
  rfl

theorem bucle_vacio {σ : Type} (desde hasta : Int) (h : hasta ≤ desde)
    (cuerpo : Int → σ → σ) (s : σ) : bucle desde hasta cuerpo s = s := by
  unfold bucle
  have h1 : (hasta - desde).toNat = 0 := by omega
  rw [h1]
  rfl

theorem inicio_cerrado_succ_lt (q r : Int) (t : Nat) (h : (t : Int) < r) :
    inicio_cerrado q r (t + 1) = inicio_cerrado q r t + (q + 1) := by
  unfold inicio_cerrado
  push_cast
  rw [min_eq_left (by omega), min_eq_left (by omega)]
  ring

theorem inicio_cerrado_succ_ge (q r : Int) (t : Nat) (h : r ≤ (t : Int)) :
    inicio_cerrado q r (t + 1) = inicio_cerrado q r t + q := by
  unfold inicio_cerrado
  push_cast
  rw [min_eq_right (by omega), min_eq_right (by omega)]
  ring

theorem reparto_procesos_iter (q r : Int) (hr : 0 ≤ r) (t : Nat) :
    bucle 0 (t : Int) (fun _ st => Procesos.paso_reparto q st) ⟨r, 0, []⟩
      = ⟨max (r - t) 0, inicio_cerrado q r t,
          (List.range t).map (fun i => (inicio_cerrado q r i, inicio_cerrado q r (i + 1)))⟩ := by
  induction t with
  | zero =>
    rw [bucle_vacio _ _ (by simp)]
    simp [inicio_cerrado, hr]
  | succ t ih =>
    have h := bucle_succ 0 t (fun _ st => Procesos.paso_reparto q st) ⟨r, 0, []⟩
    simp only [zero_add] at h
    rw [h, ih]
    unfold Procesos.paso_reparto
    simp only [List.range_succ, List.map_append, List.map_cons, List.map_nil]
    by_cases hlt : (t : Int) < r
    · have h1 : max (r - (t : Int)) 0 > 0 := by omega
      rw [if_pos h1, inicio_cerrado_succ_lt q r t hlt]
      congr 1
      push_cast; omega
    · have h1 : ¬ max (r - (t : Int)) 0 > 0 := by omega
      rw [if_neg h1, inicio_cerrado_succ_ge q r t (by omega)]
      congr 1
      push_cast; omega

theorem reparto_hilos_iter (n q r : Int) (hr : 0 ≤ r) (t : Nat) :
    bucle 0 (t : Int) (fun _ st => Hilos.paso_reparto n q st) ⟨r, 0, []⟩
      = ⟨max (r - t) 0, inicio_cerrado q r t,
          (List.range t).map
            (fun i => (⟨inicio_cerrado q r i, inicio_cerrado q r (i + 1), n⟩ : DatosHilo))⟩ := by
  induction t with
  | zero =>
    rw [bucle_vacio _ _ (by simp)]
    simp [inicio_cerrado, hr]
  | succ t ih =>
    have h := bucle_succ 0 t (fun _ st => Hilos.paso_reparto n q st) ⟨r, 0, []⟩
    simp only [zero_add] at h
    rw [h, ih]
    unfold Hilos.paso_reparto
    simp only [List.range_succ, List.map_append, List.map_cons, List.map_nil]
    by_cases hlt : (t : Int) < r
    · have h1 : max (r - (t : Int)) 0 > 0 := by omega
      rw [if_pos h1, inicio_cerrado_succ_lt q r t hlt]
      congr 1
      push_cast; omega
    · have h1 : ¬ max (r - (t : Int)) 0 > 0 := by omega
      rw [if_neg h1, inicio_cerrado_succ_ge q r t (by omega)]
      congr 1
      push_cast; omega

/-- Closed form of the process partition, for `n ≥ 0` and any worker count. -/
theorem particion_procesos_cerrada (n W : Int) (hn : 0 ≤ n) :
    Procesos.particion n W = (List.range W.toNat).map
      (fun i => (inicio_cerrado (Int.tdiv n W) (Int.tmod n W) i,
                 inicio_cerrado (Int.tdiv n W) (Int.tmod n W) (i + 1))) := by
  unfold Procesos.particion
  by_cases hW : 0 ≤ W
  · have hc : W = ((W.toNat : Nat) : Int) := by omega
    have h := reparto_procesos_iter (Int.tdiv n W) (Int.tmod n W) (Int.tmod_nonneg W hn) W.toNat
    rw [← hc] at h
    simp only [h]
  · have h0 : W.toNat = 0 := by omega
    simp only [bucle_vacio 0 W (by omega), h0, List.range_zero, List.map_nil]

/-- Closed form of the thread partition, for `n ≥ 0` and any worker count. -/
theorem particion_hilos_cerrada (n W : Int) (hn : 0 ≤ n) :
    Hilos.particion n W = (List.range W.toNat).map
      (fun i => (⟨inicio_cerrado (Int.tdiv n W) (Int.tmod n W) i,
                 inicio_cerrado (Int.tdiv n W) (Int.tmod n W) (i + 1), n⟩ : DatosHilo)) := by
  unfold Hilos.particion
  by_cases hW : 0 ≤ W
  · have hc : W = ((W.toNat : Nat) : Int) := by omega
    have h := reparto_hilos_iter n (Int.tdiv n W) (Int.tmod n W) (Int.tmod_nonneg W hn) W.toNat
    rw [← hc] at h
    simp only [h]
  · have h0 : W.toNat = 0 := by omega
    simp only [bucle_vacio 0 W (by omega), h0, List.range_zero, List.map_nil]

theorem particion_hilos_procesos (n W : Int) (hn : 0 ≤ n) :
    (Hilos.particion n W).map (fun d => (d.fila_inicio, d.fila_fin)) = Procesos.particion n W := by
  rw [particion_hilos_cerrada n W hn, particion_procesos_cerrada n W hn, List.map_map]
  rfl

theorem getElem?_map_range {β : Type} (f : Nat → β) (m i : Nat) (p : β) :
    ((List.range m).map f)[i]? = some p ↔ i < m ∧ f i = p := by
  by_cases h : i < m
  · simp [List.getElem?_map, List.getElem?_range, h]
  · have hlen : ((List.range m).map f).length ≤ i := by simp; omega
    rw [List.getElem?_eq_none hlen]
    simp [h]

theorem inicio_cerrado_cero (q r : Int) (hr : 0 ≤ r) : inicio_cerrado q r 0 = 0 := by
  simp [inicio_cerrado, hr]

theorem inicio_cerrado_paso (q r : Int) (i : Nat) :
    inicio_cerrado q r (i + 1) - inicio_cerrado q r i = if (i : Int) < r then q + 1 else q := by
  by_cases h : (i : Int) < r
  · rw [if_pos h, inicio_cerrado_succ_lt q r i h]; ring
  · rw [if_neg h, inicio_cerrado_succ_ge q r i (by omega)]; ring

theorem inicio_cerrado_mono (q r : Int) (hq : 0 ≤ q) {i j : Nat} (h : i ≤ j) :
    inicio_cerrado q r i ≤ inicio_cerrado q r j := by
  induction j with
  | zero =>
    have : i = 0 := by omega
    rw [this]
  | succ j ih =>
    by_cases hij : i = j + 1
    · rw [hij]
    · have h1 := ih (by omega)
      have h2 := inicio_cerrado_paso q r j
      split at h2 <;> omega

theorem inicio_cerrado_total (n W : Int) (hW : 0 < W) :
    inicio_cerrado (Int.tdiv n W) (Int.tmod n W) W.toNat = n := by
  unfold inicio_cerrado
  have h1 : ((W.toNat : Nat) : Int) = W := by omega
  have h2 : Int.tmod n W < W := Int.tmod_lt_of_pos n hW
  have h3 := Int.tdiv_add_tmod n W
  rw [h1, min_eq_right (by omega)]
  linarith [mul_comm W (Int.tdiv n W)]

/-- A row between `f 0` and `f m` lies in exactly one step `[f i, f (i+1))`. -/
theorem existe_tramo (f : Nat → Int) (m : Nat) (x : Int) (h0 : f 0 ≤ x) (hm : x < f m) :
    ∃ i, i < m ∧ f i ≤ x ∧ x < f (i + 1) := by
  induction m with
  | zero => omega
  | succ m ih =>
    by_cases h : x < f m
    · obtain ⟨i, hi, h1, h2⟩ := ih h
      exact ⟨i, by omega, h1, h2⟩
    · exact ⟨m, by omega, by omega, hm⟩

/-! ## The triple loop -/

/-- Loop invariant rule: `P 0` holds at entry and every iteration at an index
below `hasta` carries `P t` to `P (t + 1)`. -/
theorem bucle_inv_acotado {σ : Type} (P : Nat → σ → Prop) (desde hasta : Int)
    (cuerpo : Int → σ → σ) (s : σ) (h0 : P 0 s)
    (hpaso : ∀ (t : Nat) (st : σ), desde + (t : Int) < hasta → P t st →
      P (t + 1) (cuerpo (desde + (t : Int)) st)) :
    P (hasta - desde).toNat (bucle desde hasta cuerpo s) := by
  have key : ∀ t : Nat, desde + (t : Int) ≤ hasta →
      P t (bucle desde (desde + (t : Int)) cuerpo s) := by
    intro t
    induction t with
    | zero => intro _; rw [bucle_vacio _ _ (by simp)]; exact h0
    | succ t ih =>
      intro hle
      rw [bucle_succ]
      exact hpaso t _ (by push_cast at hle; omega) (ih (by push_cast at hle; omega))
  by_cases h : desde ≤ hasta
  · have hc : hasta = desde + (((hasta - desde).toNat : Nat) : Int) := by omega
    have := key (hasta - desde).toNat (by omega)
    rw [← hc] at this
    exact this
  · have h1 : (hasta - desde).toNat = 0 := by omega
    rw [h1, bucle_vacio _ _ (by omega)]
    exact h0

theorem bucle_inv {σ : Type} (P : Nat → σ → Prop) (desde : Int) (cuerpo : Int → σ → σ) (s : σ)
    (h0 : P 0 s) (hpaso : ∀ (t : Nat) (st : σ), P t st → P (t + 1) (cuerpo (desde + (t : Int)) st))
    (hasta : Int) : P (hasta - desde).toNat (bucle desde hasta cuerpo s) :=
  bucle_inv_acotado P desde hasta cuerpo s h0 (fun t st _ h => hpaso t st h)

theorem escribir_escribir {α : Type} (M : Matriz α) (i j : Int) (v w : α) :
    escribir (escribir M i j v) i j w = escribir M i j w := by
  funext i' j'
  unfold escribir
  split <;> rfl

theorem escribir_aqui {α : Type} (M : Matriz α) (i j : Int) (v : α) :
    escribir M i j v i j = v := by
  simp [escribir]

/-- The `k` loop on one cell accumulates into `C[i][j]` and touches nothing else. -/
theorem bucle_k {α : Type} (ar : Aritmetica α) (A B C0 : Matriz α) (i j nk : Int) (c : α) :
    bucle 0 nk (fun k (m : Memoria α) =>
        { m with C := escribir m.C i j (ar.suma (m.C i j) (ar.prod (m.A i k) (m.B k j))) })
      ⟨A, B, escribir C0 i j c⟩
    = ⟨A, B, escribir C0 i j
        (bucle 0 nk (fun k acc => ar.suma acc (ar.prod (A i k) (B k j))) c)⟩ := by
  have h := bucle_inv
    (fun t (m : Memoria α) => m = ⟨A, B, escribir C0 i j
        (bucle 0 (t : Int) (fun k acc => ar.suma acc (ar.prod (A i k) (B k j))) c)⟩)
    0 (fun k (m : Memoria α) =>
        { m with C := escribir m.C i j (ar.suma (m.C i j) (ar.prod (m.A i k) (m.B k j))) })
    ⟨A, B, escribir C0 i j c⟩
    (by beta_reduce; rw [bucle_vacio _ _ (by simp)])
    (by
      intro t st hst
      beta_reduce at hst ⊢
      have hs := bucle_succ 0 t (fun k acc => ar.suma acc (ar.prod (A i k) (B k j))) c
      simp only [zero_add] at hs
      rw [hst, hs]
      simp only [escribir_escribir, escribir_aqui, zero_add])
    nk
  simp only [sub_zero] at h
  rw [h]
  by_cases hn : 0 ≤ nk
  · have hc : ((nk.toNat : Nat) : Int) = nk := by omega
    rw [hc]
  · rw [bucle_vacio 0 nk (by omega), bucle_vacio 0 _ (by omega)]

/-- Closed form of the triple loop: `A` and `B` are not modified, and a cell of
`C` holds `celda` when it lies in rows `[r0, r1)` and columns `[0, nc)`, its
previous content otherwise. -/
theorem triple_bucle_cerrado {α : Type} (ar : Aritmetica α) (m : Memoria α)
    (r0 r1 nc nk : Int) :
    (triple_bucle ar m r0 r1 nc nk).A = m.A ∧ (triple_bucle ar m r0 r1 nc nk).B = m.B
    ∧ ∀ i j : Int, (triple_bucle ar m r0 r1 nc nk).C i j
        = if r0 ≤ i ∧ i < r1 ∧ 0 ≤ j ∧ j < nc then celda ar m.A m.B nk i j else m.C i j := by
  -- the loop over the columns of row `i`
  have hfila : ∀ (i : Int) (m1 : Memoria α),
      (bucle 0 nc (fun j m =>
        bucle 0 nk (fun k m =>
            { m with C := escribir m.C i j (ar.suma (m.C i j) (ar.prod (m.A i k) (m.B k j))) })
          { m with C := escribir m.C i j ar.cero }) m1).A = m1.A
      ∧ (bucle 0 nc (fun j m =>
        bucle 0 nk (fun k m =>
            { m with C := escribir m.C i j (ar.suma (m.C i j) (ar.prod (m.A i k) (m.B k j))) })
          { m with C := escribir m.C i j ar.cero }) m1).B = m1.B
      ∧ ∀ i' j' : Int, (bucle 0 nc (fun j m =>
        bucle 0 nk (fun k m =>
            { m with C := escribir m.C i j (ar.suma (m.C i j) (ar.prod (m.A i k) (m.B k j))) })
          { m with C := escribir m.C i j ar.cero }) m1).C i' j'
        = if i' = i ∧ 0 ≤ j' ∧ j' < nc then celda ar m1.A m1.B nk i j' else m1.C i' j' := by
    intro i m1
    have h := bucle_inv
      (fun t (m' : Memoria α) => m'.A = m1.A ∧ m'.B = m1.B ∧ ∀ i' j' : Int, m'.C i' j'
        = if i' = i ∧ 0 ≤ j' ∧ j' < (t : Int) then celda ar m1.A m1.B nk i j' else m1.C i' j')
      0 (fun j m =>
        bucle 0 nk (fun k m =>
            { m with C := escribir m.C i j (ar.suma (m.C i j) (ar.prod (m.A i k) (m.B k j))) })
          { m with C := escribir m.C i j ar.cero }) m1
      (by
        refine ⟨rfl, rfl, ?_⟩
        intro i' j'
        rw [if_neg (by omega)])
      (by
        rintro t ⟨A', B', C'⟩ ⟨hA, hB, hC⟩
        simp only at hA hB hC
        subst hA hB
        beta_reduce
        rw [bucle_k]
        refine ⟨rfl, rfl, ?_⟩
        intro i' j'
        simp only [escribir, zero_add]
        by_cases hij : i' = i ∧ j' = (t : Int)
        · rw [if_pos hij, if_pos (by push_cast; omega)]
          obtain ⟨h1, h2⟩ := hij
          subst h1 h2
          rfl
        · rw [if_neg hij, hC]
          by_cases hc : i' = i ∧ 0 ≤ j' ∧ j' < (t : Int)
          · rw [if_pos hc, if_pos (by push_cast; omega)]
          · rw [if_neg hc, if_neg (by push_cast; omega)])
      nc
    simp only [sub_zero] at h
    refine ⟨h.1, h.2.1, ?_⟩
    intro i' j'
    rw [h.2.2]
    by_cases hc : i' = i ∧ 0 ≤ j' ∧ j' < nc
    · rw [if_pos hc, if_pos (by omega)]
    · rw [if_neg hc, if_neg (by omega)]
  -- the loop over the rows
  have h := bucle_inv
    (fun t (m' : Memoria α) => m'.A = m.A ∧ m'.B = m.B ∧ ∀ i' j' : Int, m'.C i' j'
      = if r0 ≤ i' ∧ i' < r0 + (t : Int) ∧ 0 ≤ j' ∧ j' < nc then celda ar m.A m.B nk i' j'
        else m.C i' j')
    r0 (fun i m =>
      bucle 0 nc (fun j m =>
        bucle 0 nk (fun k m =>
            { m with C := escribir m.C i j (ar.suma (m.C i j) (ar.prod (m.A i k) (m.B k j))) })
          { m with C := escribir m.C i j ar.cero }) m) m
    (by
      refine ⟨rfl, rfl, ?_⟩
      intro i' j'
      rw [if_neg (by omega)])
    (by
      intro t st ⟨hA, hB, hC⟩
      beta_reduce
      obtain ⟨hA', hB', hC'⟩ := hfila (r0 + (t : Int)) st
      refine ⟨hA'.trans hA, hB'.trans hB, ?_⟩
      intro i' j'
      rw [hC', hA, hB, hC]
      by_cases hc : i' = r0 + (t : Int) ∧ 0 ≤ j' ∧ j' < nc
      · rw [if_pos hc, if_pos (by push_cast; omega)]
        rw [hc.1]
      · rw [if_neg hc]
        by_cases hd : r0 ≤ i' ∧ i' < r0 + (t : Int) ∧ 0 ≤ j' ∧ j' < nc
        · rw [if_pos hd, if_pos (by push_cast; omega)]
        · rw [if_neg hd, if_neg (by push_cast; omega)])
    r1
  refine ⟨h.1, h.2.1, ?_⟩
  intro i j
  have h3 := h.2.2 i j
  unfold triple_bucle
  rw [h3]
  by_cases hc : r0 ≤ i ∧ i < r1 ∧ 0 ≤ j ∧ j < nc
  · rw [if_pos hc, if_pos (by omega)]
  · rw [if_neg hc, if_neg (by omega)]

theorem proceso_eq_triple {α : Type} (ar : Aritmetica α) (m : Memoria α) (n r0 r1 : Int) :
    Procesos.multiplicar_matrices_proceso ar m n r0 r1 = triple_bucle ar m r0 r1 n n := rfl

theorem hilo_eq_triple {α : Type} (ar : Aritmetica α) (m : Memoria α) (d : DatosHilo) :
    Hilos.multiplicar_matrices_hilo ar m d
      = triple_bucle ar m d.fila_inicio d.fila_fin d.n d.n := rfl

theorem secuencial_eq_triple {α : Type} (ar : Aritmetica α) (m : Memoria α)
    (filasA columnasA columnasB : Int) :
    Secuencial.multiplicar_matrices ar m filasA columnasA columnasB
      = triple_bucle ar m 0 filasA columnasB columnasA := rfl

/-- With exact arithmetic the accumulated value is the sum of the products. -/
theorem celda_exacta {α : Type} [Semiring α] (A B : Matriz α) (nk i j : Int) :
    celda (aritExacta α) A B nk i j
      = ∑ k ∈ Finset.range nk.toNat, A i (k : Int) * B (k : Int) j := by
  have h := bucle_inv
    (fun t (acc : α) => acc = ∑ k ∈ Finset.range t, A i (k : Int) * B (k : Int) j)
    0 (fun k acc => (aritExacta α).suma acc ((aritExacta α).prod (A i k) (B k j)))
    (aritExacta α).cero
    (by simp [aritExacta])
    (by
      intro t st hst
      beta_reduce at hst ⊢
      rw [Finset.sum_range_succ, hst]
      simp [aritExacta])
    nk
  simp only [sub_zero] at h
  exact h

theorem wrap32_suma_prod (s a b : Int) :
    wrap32 (wrap32 s + wrap32 (a * b)) = wrap32 (s + a * b) := by
  unfold wrap32
  generalize a * b = c
  omega

theorem wrap32_en_rango (x : Int) (h : -2147483648 ≤ x ∧ x ≤ 2147483647) : wrap32 x = x := by
  unfold wrap32
  omega

/-- With 32-bit wrap-around arithmetic the accumulated value is the sum of the
products reduced to the 32-bit range. -/
theorem celda_int32 (A B : Matriz Int) (nk i j : Int) :
    celda aritInt32 A B nk i j
      = wrap32 (∑ k ∈ Finset.range nk.toNat, A i (k : Int) * B (k : Int) j) := by
  have h := bucle_inv
    (fun t (acc : Int) => acc = wrap32 (∑ k ∈ Finset.range t, A i (k : Int) * B (k : Int) j))
    0 (fun k acc => aritInt32.suma acc (aritInt32.prod (A i k) (B k j)))
    aritInt32.cero
    (by simp [aritInt32, wrap32])
    (by
      intro t st hst
      beta_reduce at hst ⊢
      rw [Finset.sum_range_succ, hst]
      simp only [aritInt32, zero_add]
      exact wrap32_suma_prod _ _ _)
    nk
  simp only [sub_zero] at h
  exact h

/-- A row lies in some range of the partition exactly when it is in `[0, n)`. -/
theorem particion_procesos_cubre (n W : Int) (hn : 0 ≤ n) (hW : 0 < W) (fila : Int) :
    (0 ≤ fila ∧ fila < n) ↔ ∃ p ∈ Procesos.particion n W, p.1 ≤ fila ∧ fila < p.2 := by
  have hq : 0 ≤ Int.tdiv n W := Int.tdiv_nonneg hn (by omega)
  have hr : 0 ≤ Int.tmod n W := Int.tmod_nonneg W hn
  have htot := inicio_cerrado_total n W hW
  have hcero := inicio_cerrado_cero (Int.tdiv n W) (Int.tmod n W) hr
  rw [particion_procesos_cerrada n W hn]
  constructor
  · rintro ⟨h0, h1⟩
    obtain ⟨i, hi, ha, hb⟩ := existe_tramo (inicio_cerrado (Int.tdiv n W) (Int.tmod n W))
      W.toNat fila (by omega) (by omega)
    exact ⟨_, List.mem_map.mpr ⟨i, List.mem_range.mpr hi, rfl⟩, ha, hb⟩
  · rintro ⟨p, hp, ha, hb⟩
    rw [List.mem_map] at hp
    obtain ⟨i, hi, rfl⟩ := hp
    rw [List.mem_range] at hi
    have h1 := inicio_cerrado_mono (Int.tdiv n W) (Int.tmod n W) hq (Nat.zero_le i)
    have h2 : inicio_cerrado (Int.tdiv n W) (Int.tmod n W) (i + 1)
        ≤ inicio_cerrado (Int.tdiv n W) (Int.tmod n W) W.toNat :=
      inicio_cerrado_mono _ _ hq (by omega)
    simp only at ha hb
    omega

/-- Closed form of a run of the process workers in any order over any list of
ranges. -/
theorem ejecutar_procesos_cerrado {α : Type} (ar : Aritmetica α) (n : Int)
    (orden : List (Int × Int)) (m : Memoria α) :
    (ejecutar_procesos ar n orden m).A = m.A ∧ (ejecutar_procesos ar n orden m).B = m.B
    ∧ ∀ i j : Int,
      (((∃ p ∈ orden, p.1 ≤ i ∧ i < p.2) ∧ 0 ≤ j ∧ j < n) →
        (ejecutar_procesos ar n orden m).C i j = celda ar m.A m.B n i j)
      ∧ (¬ ((∃ p ∈ orden, p.1 ≤ i ∧ i < p.2) ∧ 0 ≤ j ∧ j < n) →
        (ejecutar_procesos ar n orden m).C i j = m.C i j) := by
  induction orden generalizing m with
  | nil =>
    refine ⟨rfl, rfl, ?_⟩
    intro i j
    exact ⟨by simp, fun _ => rfl⟩
  | cons p resto ih =>
    have h1 := triple_bucle_cerrado ar m p.1 p.2 n n
    rw [← proceso_eq_triple] at h1
    obtain ⟨hA, hB, hC⟩ := ih (Procesos.multiplicar_matrices_proceso ar m n p.1 p.2)
    have hdef : ejecutar_procesos ar n (p :: resto) m
        = ejecutar_procesos ar n resto (Procesos.multiplicar_matrices_proceso ar m n p.1 p.2) :=
      rfl
    rw [hdef]
    refine ⟨hA.trans h1.1, hB.trans h1.2.1, ?_⟩
    intro i j
    obtain ⟨hin, hout⟩ := hC i j
    rw [h1.1, h1.2.1] at hin
    constructor
    · rintro ⟨⟨p', hp', hr⟩, hj⟩
      by_cases hresto : ∃ p ∈ resto, p.1 ≤ i ∧ i < p.2
      · exact hin ⟨hresto, hj⟩
      · rw [hout (fun h => hresto h.1), h1.2.2]
        rcases List.mem_cons.mp hp' with heq | hmem
        · subst heq
          rw [if_pos ⟨hr.1, hr.2, hj.1, hj.2⟩]
        · exact absurd ⟨p', hmem, hr⟩ hresto
    · intro hno
      have hno1 : ¬ ((∃ p ∈ resto, p.1 ≤ i ∧ i < p.2) ∧ 0 ≤ j ∧ j < n) := by
        rintro ⟨⟨p', hp', hr⟩, hj⟩
        exact hno ⟨⟨p', List.mem_cons_of_mem _ hp', hr⟩, hj⟩
      have hno2 : ¬ (p.1 ≤ i ∧ i < p.2 ∧ 0 ≤ j ∧ j < n) := by
        rintro ⟨ha, hb, hj⟩
        exact hno ⟨⟨p, List.mem_cons_self _ _, ha, hb⟩, hj⟩
      rw [hout hno1, h1.2.2, if_neg hno2]

/-- Threads whose arguments all carry the dimension `n` behave as the process
workers on the same ranges. -/
theorem ejecutar_hilos_eq_procesos {α : Type} (ar : Aritmetica α) (n : Int)
    (orden : List DatosHilo) (hn : ∀ d ∈ orden, d.n = n) (m : Memoria α) :
    ejecutar_hilos ar orden m
      = ejecutar_procesos ar n (orden.map (fun d => (d.fila_inicio, d.fila_fin))) m := by
  induction orden generalizing m with
  | nil => rfl
  | cons d resto ih =>
    have hd : d.n = n := hn d (List.mem_cons_self _ _)
    have hstep : Hilos.multiplicar_matrices_hilo ar m d
        = Procesos.multiplicar_matrices_proceso ar m n d.fila_inicio d.fila_fin := by
      rw [← hd]; rfl
    have h1 : ejecutar_hilos ar (d :: resto) m
        = ejecutar_hilos ar resto (Hilos.multiplicar_matrices_hilo ar m d) := rfl
    rw [h1, ih (fun d' hd' => hn d' (List.mem_cons_of_mem _ hd')), hstep]
    rfl

/-- A run of the process workers over a list of ranges that covers exactly the
rows `[0, n)` computes `celda` in every cell of `[0, n) × [0, n)`. -/
theorem ejecutar_procesos_completo {α : Type} (ar : Aritmetica α) (n : Int)
    (orden : List (Int × Int)) (m : Memoria α)
    (hcubre : ∀ fila : Int, (0 ≤ fila ∧ fila < n) → ∃ p ∈ orden, p.1 ≤ fila ∧ fila < p.2)
    (i j : Int) (hi : 0 ≤ i ∧ i < n) (hj : 0 ≤ j ∧ j < n) :
    (ejecutar_procesos ar n orden m).C i j = celda ar m.A m.B n i j :=
  ((ejecutar_procesos_cerrado ar n orden m).2.2 i j).1 ⟨hcubre i hi, hj⟩

/-- The sequential triple loop on square matrices computes `celda` in every cell. -/
theorem secuencial_celda {α : Type} (ar : Aritmetica α) (m : Memoria α) (n : Int)
    (i j : Int) (hi : 0 ≤ i ∧ i < n) (hj : 0 ≤ j ∧ j < n) :
    (Secuencial.multiplicar_matrices ar m n n n).C i j = celda ar m.A m.B n i j := by
  rw [secuencial_eq_triple, (triple_bucle_cerrado _ _ _ _ _ _).2.2,
    if_pos ⟨hi.1, hi.2, hj.1, hj.2⟩]

/-! ## Counts and displacements of the MPI version -/

theorem filas_por_proceso_paso (size N : Int) (t : Nat) :
    Mpi.filas_por_proceso t size N
      = inicio_cerrado (Int.tdiv N size) (Int.tmod N size) (t + 1)
        - inicio_cerrado (Int.tdiv N size) (Int.tmod N size) t := by
  rw [inicio_cerrado_paso]
  rfl

theorem suma_filas_por_proceso (size N : Int) (hN : 0 ≤ N) (t : Nat) :
    ∑ k ∈ Finset.range t, Mpi.filas_por_proceso (k : Int) size N
      = inicio_cerrado (Int.tdiv N size) (Int.tmod N size) t := by
  induction t with
  | zero =>
    rw [inicio_cerrado_cero _ _ (Int.tmod_nonneg size hN)]
    rfl
  | succ t ih =>
    rw [Finset.sum_range_succ, ih, filas_por_proceso_paso]
    ring

theorem wrap32_suma (a b : Int) : wrap32 (wrap32 a + wrap32 b) = wrap32 (a + b) := by
  unfold wrap32
  omega

/-- A product `x * N` with `0 ≤ x ≤ N` is not changed by the reduction to 32 bits
when `N * N` is representable as an `int`. -/
theorem wrap32_producto_acotado (x N : Int) (hx : 0 ≤ x ∧ x ≤ N)
    (hNN : N * N ≤ 2147483647) : wrap32 (x * N) = x * N := by
  have hN : 0 ≤ N := by omega
  have h1 : 0 ≤ x * N := mul_nonneg hx.1 hN
  have h2 : x * N ≤ N * N := mul_le_mul_of_nonneg_right hx.2 hN
  exact wrap32_en_rango _ (by omega)

/-- The first row of every worker lies in `[0, N]`. -/
theorem inicio_cerrado_acotado (N size : Int) (hN : 0 ≤ N) (hs : 0 < size) (i : Nat)
    (hi : (i : Int) ≤ size) :
    0 ≤ inicio_cerrado (Int.tdiv N size) (Int.tmod N size) i
    ∧ inicio_cerrado (Int.tdiv N size) (Int.tmod N size) i ≤ N := by
  have hq : 0 ≤ Int.tdiv N size := Int.tdiv_nonneg hN (by omega)
  have hr : 0 ≤ Int.tmod N size := Int.tmod_nonneg size hN
  have h0 := inicio_cerrado_cero (Int.tdiv N size) (Int.tmod N size) hr
  have htot := inicio_cerrado_total N size hs
  have h1 := inicio_cerrado_mono (Int.tdiv N size) (Int.tmod N size) hq (Nat.zero_le i)
  have h2 : inicio_cerrado (Int.tdiv N size) (Int.tmod N size) i
      ≤ inicio_cerrado (Int.tdiv N size) (Int.tmod N size) size.toNat :=
    inicio_cerrado_mono _ _ hq (by omega)
  omega

/-- Closed form of `calcular_desplazamientos`: entries `0 ≤ i < size` of `counts`
and `displs` are filled with the 32-bit values of `filas * N` and of the sum of
the earlier counts, the others are left as they were. -/
theorem calcular_desplazamientos_cerrado (counts displs : Mpi.Buffer Int) (size N : Int) :
    (∀ i : Int, (Mpi.calcular_desplazamientos counts displs size N).counts i
        = if 0 ≤ i ∧ i < size then wrap32 (Mpi.filas_por_proceso i size N * N) else counts i)
    ∧ (∀ i : Int, (Mpi.calcular_desplazamientos counts displs size N).displs i
        = if 0 ≤ i ∧ i < size
          then wrap32 ((∑ k ∈ Finset.range i.toNat, Mpi.filas_por_proceso (k : Int) size N) * N)
          else displs i) := by
  have h := bucle_inv
    (fun t (st : Mpi.EstadoDespl) =>
      st.desplazamiento
        = wrap32 ((∑ k ∈ Finset.range t, Mpi.filas_por_proceso (k : Int) size N) * N)
      ∧ (∀ i : Int, st.counts i
          = if 0 ≤ i ∧ i < (t : Int) then wrap32 (Mpi.filas_por_proceso i size N * N)
            else counts i)
      ∧ (∀ i : Int, st.displs i
          = if 0 ≤ i ∧ i < (t : Int)
            then wrap32
              ((∑ k ∈ Finset.range i.toNat, Mpi.filas_por_proceso (k : Int) size N) * N)
            else displs i))
    0 (fun i (st : Mpi.EstadoDespl) =>
      (⟨Mpi.asignar st.counts i (wrap32 (Mpi.filas_por_proceso i size N * N)),
        Mpi.asignar st.displs i st.desplazamiento,
        wrap32 (st.desplazamiento
          + Mpi.asignar st.counts i (wrap32 (Mpi.filas_por_proceso i size N * N)) i)⟩ :
        Mpi.EstadoDespl))
    ⟨counts, displs, 0⟩
    (by
      beta_reduce
      refine ⟨?_, ?_, ?_⟩
      · rw [Finset.sum_range_zero, zero_mul]
        rfl
      · intro i; rw [if_neg (by omega)]
      · intro i; rw [if_neg (by omega)])
    (by
      rintro t ⟨c, d, e⟩ ⟨he, hc, hd⟩
      simp only at he hc hd
      beta_reduce
      simp only [zero_add, Mpi.asignar, if_true]
      refine ⟨?_, ?_, ?_⟩
      · rw [Finset.sum_range_succ, he, wrap32_suma, add_mul]
      · intro i
        by_cases hi : i = (t : Int)
        · rw [if_pos hi, if_pos (by push_cast; omega), hi]
        · rw [if_neg hi, hc]
          by_cases h2 : 0 ≤ i ∧ i < (t : Int)
          · rw [if_pos h2, if_pos (by push_cast; omega)]
          · rw [if_neg h2, if_neg (by push_cast; omega)]
      · intro i
        by_cases hi : i = (t : Int)
        · rw [if_pos hi, if_pos (by push_cast; omega), he, hi, Int.toNat_ofNat]
        · rw [if_neg hi, hd]
          by_cases h2 : 0 ≤ i ∧ i < (t : Int)
          · rw [if_pos h2, if_pos (by push_cast; omega)]
          · rw [if_neg h2, if_neg (by push_cast; omega)])
    size
  simp only [sub_zero] at h
  have hdef : Mpi.calcular_desplazamientos counts displs size N
      = bucle 0 size (fun i (st : Mpi.EstadoDespl) =>
      (⟨Mpi.asignar st.counts i (wrap32 (Mpi.filas_por_proceso i size N * N)),
        Mpi.asignar st.displs i st.desplazamiento,
        wrap32 (st.desplazamiento
          + Mpi.asignar st.counts i (wrap32 (Mpi.filas_por_proceso i size N * N)) i)⟩ :
        Mpi.EstadoDespl))
      ⟨counts, displs, 0⟩ := rfl
  rw [hdef]
  refine ⟨?_, ?_⟩
  · intro i
    rw [h.2.1]
    by_cases h2 : 0 ≤ i ∧ i < size
    · rw [if_pos h2, if_pos (by omega)]
    · rw [if_neg h2, if_neg (by omega)]
  · intro i
    rw [h.2.2]
    by_cases h2 : 0 ≤ i ∧ i < size
    · rw [if_pos h2, if_pos (by omega)]
    · rw [if_neg h2, if_neg (by omega)]

/-- For `N ≥ 0` and `size ≥ 1`, entry `i < size` of `counts` is the 32-bit value of
`N` times the number of rows of process `i` and entry `i` of `displs` is the
32-bit value of `N` times its first row. -/
theorem counts_displs_wrap (counts displs : Mpi.Buffer Int) (size N : Int) (hN : 0 ≤ N)
    (i : Nat) (hi : (i : Int) < size) :
    (Mpi.calcular_desplazamientos counts displs size N).counts i
        = wrap32 ((inicio_cerrado (Int.tdiv N size) (Int.tmod N size) (i + 1)
            - inicio_cerrado (Int.tdiv N size) (Int.tmod N size) i) * N)
    ∧ (Mpi.calcular_desplazamientos counts displs size N).displs i
        = wrap32 (inicio_cerrado (Int.tdiv N size) (Int.tmod N size) i * N) := by
  obtain ⟨hc, hd⟩ := calcular_desplazamientos_cerrado counts displs size N
  rw [hc, hd, if_pos (by omega), if_pos (by omega), Int.toNat_ofNat,
    suma_filas_por_proceso size N hN, filas_por_proceso_paso]
  exact ⟨rfl, rfl⟩

/-- When `N * N` is representable as an `int`, entry `i < size` of `counts` is `N`
times the number of rows of process `i` and entry `i` of `displs` is `N` times its
first row. -/
theorem counts_displs_inicio (counts displs : Mpi.Buffer Int) (size N : Int) (hN : 0 ≤ N)
    (hs : 0 < size) (hNN : N * N ≤ 2147483647) (i : Nat) (hi : (i : Int) < size) :
    (Mpi.calcular_desplazamientos counts displs size N).counts i
        = (inicio_cerrado (Int.tdiv N size) (Int.tmod N size) (i + 1)
            - inicio_cerrado (Int.tdiv N size) (Int.tmod N size) i) * N
    ∧ (Mpi.calcular_desplazamientos counts displs size N).displs i
        = inicio_cerrado (Int.tdiv N size) (Int.tmod N size) i * N := by
  obtain ⟨hc, hd⟩ := counts_displs_wrap counts displs size N hN i hi
  have h1 := inicio_cerrado_acotado N size hN hs i (by omega)
  have h2 := inicio_cerrado_acotado N size hN hs (i + 1) (by push_cast; omega)
  have hq : 0 ≤ Int.tdiv N size := Int.tdiv_nonneg hN (by omega)
  have h3 := inicio_cerrado_mono (Int.tdiv N size) (Int.tmod N size) hq (Nat.le_add_right i 1)
  rw [hc, hd, wrap32_producto_acotado _ N (by omega) hNN,
    wrap32_producto_acotado _ N h1 hNN]
  exact ⟨rfl, rfl⟩

/-! ## Local computation and gathering of the MPI version -/

/-- The value of the local variable `sum` for the local cell `(i, j)`. -/
theorem suma_local_exacta {α : Type} [Semiring α] (A_local B_local A B : Mpi.Buffer α)
    (N i j f : Int)
    (hA : ∀ k : Int, 0 ≤ k → k < N → A_local (i * N + k) = A (f * N + k))
    (hB : ∀ k : Int, 0 ≤ k → k < N → B_local (k * N + j) = B (k * N + j)) :
    bucle 0 N (fun k sum => (aritExacta α).suma sum
        ((aritExacta α).prod (A_local (i * N + k)) (B_local (k * N + j)))) (aritExacta α).cero
      = ∑ k ∈ Finset.range N.toNat, A (f * N + (k : Int)) * B ((k : Int) * N + j) := by
  have h := bucle_inv_acotado
    (fun t (acc : α) => acc = ∑ k ∈ Finset.range t, A (f * N + (k : Int)) * B ((k : Int) * N + j))
    0 N (fun k sum => (aritExacta α).suma sum
        ((aritExacta α).prod (A_local (i * N + k)) (B_local (k * N + j)))) (aritExacta α).cero
    (by simp [aritExacta])
    (by
      intro t st hlt hst
      beta_reduce at hst ⊢
      rw [Finset.sum_range_succ, hst, hA _ (by omega) hlt, hB _ (by omega) hlt]
      simp [aritExacta])
  simp only [sub_zero] at h
  exact h

/-- Closed form of the local computation on the cells of the local rows: cell
`(i, j)` of `C_local` holds the value of `sum` computed for it. -/
theorem calculo_local_cerrado {α : Type} (ar : Aritmetica α) (A_local B_local C_local : Mpi.Buffer α)
    (filas_local N : Int) (hN : 0 ≤ N) (i j : Int) (hi : 0 ≤ i ∧ i < filas_local)
    (hj : 0 ≤ j ∧ j < N) :
    Mpi.calculo_local ar A_local B_local C_local filas_local N (i * N + j)
      = bucle 0 N (fun k sum =>
          ar.suma sum (ar.prod (A_local (i * N + k)) (B_local (k * N + j)))) ar.cero := by
  -- the loop over the columns of local row `i'`
  have hfila : ∀ (i' : Int) (C1 : Mpi.Buffer α) (x : Int),
      bucle 0 N (fun j C_local =>
          Mpi.asignar C_local (i' * N + j) (bucle 0 N (fun k sum =>
            ar.suma sum (ar.prod (A_local (i' * N + k)) (B_local (k * N + j)))) ar.cero)) C1 x
      = if i' * N ≤ x ∧ x < i' * N + N
        then bucle 0 N (fun k sum => ar.suma sum
          (ar.prod (A_local (i' * N + k)) (B_local (k * N + (x - i' * N))))) ar.cero
        else C1 x := by
    intro i' C1 x
    have h := bucle_inv
      (fun t (C' : Mpi.Buffer α) => ∀ x : Int, C' x
        = if i' * N ≤ x ∧ x < i' * N + (t : Int)
          then bucle 0 N (fun k sum => ar.suma sum
            (ar.prod (A_local (i' * N + k)) (B_local (k * N + (x - i' * N))))) ar.cero
          else C1 x)
      0 (fun j C_local =>
          Mpi.asignar C_local (i' * N + j) (bucle 0 N (fun k sum =>
            ar.suma sum (ar.prod (A_local (i' * N + k)) (B_local (k * N + j)))) ar.cero)) C1
      (by
        intro x
        rw [if_neg (by omega)])
      (by
        intro t st hst
        beta_reduce at hst ⊢
        intro x
        simp only [Mpi.asignar, zero_add]
        by_cases hx : x = i' * N + (t : Int)
        · rw [if_pos hx, if_pos (by push_cast; omega)]
          have hcol : x - i' * N = (t : Int) := by omega
          rw [hcol]
        · rw [if_neg hx, hst]
          by_cases hc : i' * N ≤ x ∧ x < i' * N + (t : Int)
          · rw [if_pos hc, if_pos (by push_cast; omega)]
          · rw [if_neg hc, if_neg (by push_cast; omega)])
      N
    simp only [sub_zero] at h
    rw [h x]
    by_cases hc : i' * N ≤ x ∧ x < i' * N + N
    · rw [if_pos hc, if_pos (by omega)]
    · rw [if_neg hc, if_neg (by omega)]
  -- the loop over the local rows
  have h := bucle_inv_acotado
    (fun t (C' : Mpi.Buffer α) => ∀ i j : Int, 0 ≤ i → i < (t : Int) → 0 ≤ j → j < N →
      C' (i * N + j) = bucle 0 N (fun k sum =>
          ar.suma sum (ar.prod (A_local (i * N + k)) (B_local (k * N + j)))) ar.cero)
    0 filas_local (fun i C_local =>
      bucle 0 N (fun j C_local =>
          Mpi.asignar C_local (i * N + j) (bucle 0 N (fun k sum =>
            ar.suma sum (ar.prod (A_local (i * N + k)) (B_local (k * N + j)))) ar.cero))
        C_local)
    (bucle 0 (filas_local * N) (fun i C_local => Mpi.asignar C_local i ar.cero) C_local)
    (by
      intro i j h0 h1
      omega)
    (by
      intro t st _ hst
      beta_reduce at hst ⊢
      intro i j hi0 hi1 hj0 hj1
      rw [hfila]
      simp only [zero_add]
      by_cases hit : i = (t : Int)
      · subst hit
        rw [if_pos (by omega)]
        have hcol : (t : Int) * N + j - (t : Int) * N = j := by omega
        rw [hcol]
      · have hlt : i + 1 ≤ (t : Int) := by push_cast at hi1; omega
        have hmul : (i + 1) * N ≤ (t : Int) * N := mul_le_mul_of_nonneg_right hlt hN
        have hexp : (i + 1) * N = i * N + N := by ring
        rw [if_neg (by omega)]
        exact hst i j hi0 (by omega) hj0 hj1)
  simp only [sub_zero] at h
  exact h i j hi.1 (by omega) hj.1 hj.2

/-- Closed form of the gathering when the blocks do not overlap: the cells of
block `p` hold what process `p` sent. -/
theorem gatherv_cerrado {α : Type} (locales : Int → Mpi.Buffer α) (recvcounts recvdispls : Mpi.Buffer Int)
    (size : Int) (destino : Mpi.Buffer α)
    (hdisj : ∀ i j : Nat, i < j → (j : Int) < size →
      recvdispls i + recvcounts i ≤ recvdispls j)
    (p : Nat) (hp : (p : Int) < size) (x : Int)
    (hx : recvdispls p ≤ x ∧ x < recvdispls p + recvcounts p) :
    Mpi.gatherv locales recvcounts recvdispls size destino x
      = locales p (x - recvdispls p) := by
  have h := bucle_inv_acotado
    (fun t (C' : Mpi.Buffer α) => ∀ p : Nat, p < t → ∀ x : Int,
      recvdispls p ≤ x ∧ x < recvdispls p + recvcounts p →
      C' x = locales p (x - recvdispls p))
    0 size (fun p C =>
      fun x => if recvdispls p ≤ x ∧ x < recvdispls p + recvcounts p
        then locales p (x - recvdispls p) else C x)
    destino
    (by
      intro p hp
      omega)
    (by
      intro t st hlt hst
      beta_reduce at hst ⊢
      intro p hp x hx
      simp only [zero_add] at hlt ⊢
      by_cases hpt : p = t
      · subst hpt
        rw [if_pos hx]
      · have hd := hdisj p t (by omega) hlt
        rw [if_neg (by omega)]
        exact hst p (by omega) x hx)
  simp only [sub_zero] at h
  exact h p (by omega) x hx

/-- Offsets of row `a` lie before the offsets of every later row. -/
theorem offset_en_rango (a b N k : Int) (hab : a < b) (hk0 : 0 ≤ k) (hk : k < N) :
    a * N ≤ a * N + k ∧ a * N + k < b * N := by
  have hmul : (a + 1) * N ≤ b * N := mul_le_mul_of_nonneg_right (by omega) (by omega)
  have hexp : (a + 1) * N = a * N + N := by ring
  omega

/-- The blocks of `calcular_desplazamientos` are laid out in rank order. -/
theorem bloques_ordenados (counts displs : Mpi.Buffer Int) (size N : Int) (hN : 0 ≤ N)
    (hs : 0 < size) (hNN : N * N ≤ 2147483647) (i j : Nat) (hij : i < j)
    (hj : (j : Int) < size) :
    (Mpi.calcular_desplazamientos counts displs size N).displs i
      + (Mpi.calcular_desplazamientos counts displs size N).counts i
      ≤ (Mpi.calcular_desplazamientos counts displs size N).displs j := by
  have hq : 0 ≤ Int.tdiv N size := Int.tdiv_nonneg hN (by omega)
  have hcd := counts_displs_inicio counts displs size N hN hs hNN
  rw [(hcd i (by omega)).1, (hcd i (by omega)).2, (hcd j hj).2]
  have h1 : inicio_cerrado (Int.tdiv N size) (Int.tmod N size) (i + 1)
      ≤ inicio_cerrado (Int.tdiv N size) (Int.tmod N size) j :=
    inicio_cerrado_mono _ _ hq (by omega)
  have h2 := mul_le_mul_of_nonneg_right h1 hN
  linarith

/-- The copy loop makes the entries `0 ≤ i < size` of `recvcounts`, `recvdispls`
equal to those of `sendcounts`, `displs`. -/
theorem copiar_cuentas_cerrado (sendcounts displs recvcounts recvdispls : Mpi.Buffer Int)
    (size : Int) (i : Int) (hi : 0 ≤ i ∧ i < size) :
    (Mpi.copiar_cuentas sendcounts displs recvcounts recvdispls size).1 i = sendcounts i
    ∧ (Mpi.copiar_cuentas sendcounts displs recvcounts recvdispls size).2 i = displs i := by
  have h := bucle_inv
    (fun t (r : Mpi.Buffer Int × Mpi.Buffer Int) => ∀ i : Int, 0 ≤ i → i < (t : Int) →
      r.1 i = sendcounts i ∧ r.2 i = displs i)
    0 (fun i (r : Mpi.Buffer Int × Mpi.Buffer Int) =>
      (Mpi.asignar r.1 i (sendcounts i), Mpi.asignar r.2 i (displs i)))
    (recvcounts, recvdispls)
    (by
      intro i h0 h1
      omega)
    (by
      intro t st hst
      beta_reduce at hst ⊢
      intro i h0 h1
      simp only [Mpi.asignar, zero_add]
      by_cases hit : i = (t : Int)
      · rw [if_pos hit, if_pos hit, hit]
        exact ⟨rfl, rfl⟩
      · rw [if_neg hit, if_neg hit]
        exact hst i h0 (by push_cast at h1; omega))
    size
  simp only [sub_zero] at h
  exact h i hi.1 (by omega)

/-- Closed form of the assembled result of the MPI data flow with exact
arithmetic, for any `size ≥ 1`, when `N * N` is representable as an `int`. -/
theorem mpi_main_cerrado {α : Type} [Semiring α] (size N : Int) (A B : Mpi.Buffer α)
    (ini : Mpi.Inicial α) (hN : 1 ≤ N) (hs : 1 ≤ size) (hNN : N * N ≤ 2147483647)
    (r j : Int) (hr : 0 ≤ r ∧ r < N) (hj : 0 ≤ j ∧ j < N) :
    Mpi.gatherv (Mpi.C_local_de (aritExacta α) size N A B ini)
        (Mpi.copiar_cuentas
          (Mpi.calcular_desplazamientos ini.sendcounts ini.displs size N).counts
          (Mpi.calcular_desplazamientos ini.sendcounts ini.displs size N).displs
          ini.recvcounts ini.recvdispls size).1
        (Mpi.copiar_cuentas
          (Mpi.calcular_desplazamientos ini.sendcounts ini.displs size N).counts
          (Mpi.calcular_desplazamientos ini.sendcounts ini.displs size N).displs
          ini.recvcounts ini.recvdispls size).2 size ini.C
        (r * N + j)
      = ∑ k ∈ Finset.range N.toNat, A (r * N + (k : Int)) * B ((k : Int) * N + j) := by
  have hN0 : 0 ≤ N := by omega
  have hcopia := copiar_cuentas_cerrado
    (Mpi.calcular_desplazamientos ini.sendcounts ini.displs size N).counts
    (Mpi.calcular_desplazamientos ini.sendcounts ini.displs size N).displs
    ini.recvcounts ini.recvdispls size
  have hrr : 0 ≤ Int.tmod N size := Int.tmod_nonneg size hN0
  have htot := inicio_cerrado_total N size (by omega)
  have hcero := inicio_cerrado_cero (Int.tdiv N size) (Int.tmod N size) hrr
  have hcd := counts_displs_inicio ini.sendcounts ini.displs size N hN0 (by omega) hNN
  obtain ⟨p, hp, ha, hb⟩ := existe_tramo (inicio_cerrado (Int.tdiv N size) (Int.tmod N size))
    size.toNat r (by omega) (by omega)
  have hpS : (p : Int) < size := by omega
  obtain ⟨hcp, hdp⟩ := hcd p hpS
  -- the offset lies in block `p`, at local row `r - inicio p`
  have hloc := offset_en_rango (r - inicio_cerrado (Int.tdiv N size) (Int.tmod N size) p)
    (inicio_cerrado (Int.tdiv N size) (Int.tmod N size) (p + 1)
      - inicio_cerrado (Int.tdiv N size) (Int.tmod N size) p) N j (by omega) hj.1 hj.2
  have hpos : 0 ≤ (r - inicio_cerrado (Int.tdiv N size) (Int.tmod N size) p) * N :=
    mul_nonneg (by omega) hN0
  have hoff : r * N + j - (Mpi.copiar_cuentas
          (Mpi.calcular_desplazamientos ini.sendcounts ini.displs size N).counts
          (Mpi.calcular_desplazamientos ini.sendcounts ini.displs size N).displs
          ini.recvcounts ini.recvdispls size).2 p
      = (r - inicio_cerrado (Int.tdiv N size) (Int.tmod N size) p) * N + j := by
    rw [(hcopia p (by omega)).2, hdp]; ring
  rw [gatherv_cerrado _ _ _ size ini.C
    (by
      intro a b hab hb
      rw [(hcopia a (by omega)).1, (hcopia a (by omega)).2, (hcopia b (by omega)).2]
      exact bloques_ordenados ini.sendcounts ini.displs size N hN0 (by omega) hNN a b hab hb)
    p hpS (r * N + j)
    (by
      rw [(hcopia p (by omega)).1, (hcopia p (by omega)).2, hcp, hdp]
      constructor <;> linarith [hloc.1, hloc.2]), hoff]
  unfold Mpi.C_local_de
  rw [calculo_local_cerrado _ _ _ _ _ N hN0 _ j
    (by rw [filas_por_proceso_paso]; omega) hj]
  apply suma_local_exacta
  · intro k hk0 hk1
    have hk := offset_en_rango (r - inicio_cerrado (Int.tdiv N size) (Int.tmod N size) p)
      (inicio_cerrado (Int.tdiv N size) (Int.tmod N size) (p + 1)
        - inicio_cerrado (Int.tdiv N size) (Int.tmod N size) p) N k (by omega) hk0 hk1
    unfold Mpi.scatterv
    rw [if_pos (by rw [hcp]; constructor <;> linarith [hk.1, hk.2]), hdp]
    congr 1
    ring
  · intro k hk0 hk1
    have hk := offset_en_rango k N N j hk1 hj.1 hj.2
    have hkpos : 0 ≤ k * N := mul_nonneg hk0 hN0
    unfold Mpi.bcast
    rw [wrap32_en_rango (N * N) (by constructor <;> nlinarith),
      if_pos (by constructor <;> linarith [hk.1, hk.2])]

/-! ## The whole `multiplicar_matrices` when every system call succeeds -/

theorem bucle_salida_ok {σ ε : Type} (desde hasta : Int) (cuerpo : Int → σ → Except ε σ)
    (f : Int → σ → σ) (h : ∀ i s, cuerpo i s = Except.ok (f i s)) (s : σ) :
    bucle_salida desde hasta cuerpo s = Except.ok (bucle desde hasta f s) := by
  unfold bucle_salida bucle
  generalize List.range (hasta - desde).toNat = l
  induction l generalizing s with
  | nil => rfl
  | cons t l ih =>
    rw [List.foldlM_cons, h, List.foldl_cons]
    exact ih _

theorem ejecutar_procesos_append {α : Type} (ar : Aritmetica α) (n : Int)
    (l : List (Int × Int)) (p : Int × Int) (m : Memoria α) :
    ejecutar_procesos ar n (l ++ [p]) m
      = Procesos.multiplicar_matrices_proceso ar (ejecutar_procesos ar n l m) n p.1 p.2 := by
  unfold ejecutar_procesos
  rw [List.foldl_append]
  rfl

theorem ejecutar_hilos_append {α : Type} (ar : Aritmetica α)
    (l : List DatosHilo) (d : DatosHilo) (m : Memoria α) :
    ejecutar_hilos ar (l ++ [d]) m
      = Hilos.multiplicar_matrices_hilo ar (ejecutar_hilos ar l m) d := by
  unfold ejecutar_hilos
  rw [List.foldl_append]
  rfl

/-- The process version of `multiplicar_matrices` when every `fork` succeeds
(`n ≥ 0`, non-zero worker count): all children are created in index order on the
ranges of the partition, then waited for, and the function returns. -/
theorem multiplicar_procesos_sin_fallos {α : Type} (ar : Aritmetica α) (env : Entorno)
    (hok : ∀ i, env.crear_ok i = true) (m : Memoria α) (n W : Int) (hn : 0 ≤ n) (hW : W ≠ 0) :
    Procesos.multiplicar_matrices ar env m n W
      = ⟨ejecutar_procesos ar n (Procesos.particion n W) m,
          traza_fork (Int.tdiv n W) (Int.tmod n W) W.toNat ++ List.replicate W.toNat Evento.wait,
          Fin.retorna⟩ := by
  have hr : 0 ≤ Int.tmod n W := Int.tmod_nonneg W hn
  unfold Procesos.multiplicar_matrices
  rw [if_neg hW]
  simp only [hok, if_true]
  rw [bucle_salida_ok 0 W _ (fun i (st : EstadoMult α (Int × Int)) =>
    (⟨Procesos.paso_reparto (Int.tdiv n W) st.reparto,
      Procesos.multiplicar_matrices_proceso ar st.mem n st.reparto.fila_actual
        (Procesos.paso_reparto (Int.tdiv n W) st.reparto).fila_actual,
      st.traza ++ [Evento.fork i st.reparto.fila_actual
        (Procesos.paso_reparto (Int.tdiv n W) st.reparto).fila_actual]⟩ :
      EstadoMult α (Int × Int))) (fun _ _ => rfl)]
  -- the dispatch loop
  have h := bucle_inv
    (fun t (st : EstadoMult α (Int × Int)) =>
      st.reparto = bucle 0 (t : Int) (fun _ st => Procesos.paso_reparto (Int.tdiv n W) st)
          ⟨Int.tmod n W, 0, []⟩
      ∧ st.mem = ejecutar_procesos ar n
          ((List.range t).map (fun i => (inicio_cerrado (Int.tdiv n W) (Int.tmod n W) i,
            inicio_cerrado (Int.tdiv n W) (Int.tmod n W) (i + 1)))) m
      ∧ st.traza = traza_fork (Int.tdiv n W) (Int.tmod n W) t)
    0 (fun i (st : EstadoMult α (Int × Int)) =>
    (⟨Procesos.paso_reparto (Int.tdiv n W) st.reparto,
      Procesos.multiplicar_matrices_proceso ar st.mem n st.reparto.fila_actual
        (Procesos.paso_reparto (Int.tdiv n W) st.reparto).fila_actual,
      st.traza ++ [Evento.fork i st.reparto.fila_actual
        (Procesos.paso_reparto (Int.tdiv n W) st.reparto).fila_actual]⟩ :
      EstadoMult α (Int × Int)))
    ⟨⟨Int.tmod n W, 0, []⟩, m, []⟩
    (by
      beta_reduce
      rw [bucle_vacio _ _ (by simp)]
      exact ⟨rfl, rfl, rfl⟩)
    (by
      rintro t ⟨rep, mem, tr⟩ ⟨h1, h2, h3⟩
      simp only at h1 h2 h3
      beta_reduce
      have hs := bucle_succ 0 t (fun _ st => Procesos.paso_reparto (Int.tdiv n W) st)
        ⟨Int.tmod n W, 0, []⟩
      simp only [zero_add] at hs
      have hpaso : Procesos.paso_reparto (Int.tdiv n W) rep
          = bucle 0 ((t + 1 : Nat) : Int)
            (fun _ st => Procesos.paso_reparto (Int.tdiv n W) st) ⟨Int.tmod n W, 0, []⟩ := by
        rw [hs, h1]
      refine ⟨hpaso, ?_, ?_⟩
      · simp only
        rw [List.range_succ, List.map_append, List.map_cons, List.map_nil,
          ejecutar_procesos_append, ← h2, hpaso, h1, reparto_procesos_iter _ _ hr,
          reparto_procesos_iter _ _ hr]
      · simp only
        rw [hpaso, h1, reparto_procesos_iter _ _ hr, reparto_procesos_iter _ _ hr, h3]
        simp only [traza_fork, List.range_succ, List.map_append, List.map_cons, List.map_nil,
          zero_add])
    W
  simp only [sub_zero] at h
  obtain ⟨_, h2, h3⟩ := h
  -- the waiting loop
  have hw : ∀ tr : List Evento, bucle 0 W (fun _ traza => traza ++ [Evento.wait]) tr
      = tr ++ List.replicate W.toNat Evento.wait := by
    intro tr
    have h := bucle_inv (fun t (x : List Evento) => x = tr ++ List.replicate t Evento.wait)
      0 (fun _ traza => traza ++ [Evento.wait]) tr (by simp)
      (by
        intro t st hst
        beta_reduce at hst ⊢
        rw [hst, List.replicate_succ', List.append_assoc])
      W
    simp only [sub_zero] at h
    exact h
  simp only [hw, h2, h3, particion_procesos_cerrada n W hn]

/-- The thread version of `multiplicar_matrices` when the allocations, every
`pthread_create` and every `pthread_join` succeed (`n ≥ 0`, non-zero worker
count): all threads are created in index order on the ranges of the partition,
then joined, and the function returns. -/
theorem multiplicar_hilos_sin_fallos {α : Type} (ar : Aritmetica α) (env : Entorno)
    (hm : env.malloc_ok = true) (hok : ∀ i, env.crear_ok i = true)
    (hjoin : ∀ i, env.join_ok i = true) (m : Memoria α) (n W : Int) (hn : 0 ≤ n) (hW : 0 < W) :
    Hilos.multiplicar_matrices ar env m n W
      = ⟨ejecutar_hilos ar (Hilos.particion n W) m,
          traza_create n (Int.tdiv n W) (Int.tmod n W) W.toNat ++ traza_join W.toNat,
          Fin.retorna⟩ := by
  have hr : 0 ≤ Int.tmod n W := Int.tmod_nonneg W hn
  unfold Hilos.multiplicar_matrices
  rw [if_neg (by simp [hm]; omega), if_neg (by omega)]
  simp only [hok, hjoin, if_true]
  rw [bucle_salida_ok 0 W _ (fun i (st : EstadoMult α DatosHilo) =>
    (⟨Hilos.paso_reparto n (Int.tdiv n W) st.reparto,
      Hilos.multiplicar_matrices_hilo ar st.mem ⟨st.reparto.fila_actual,
        (Hilos.paso_reparto n (Int.tdiv n W) st.reparto).fila_actual, n⟩,
      st.traza ++ [Evento.pthread_create i ⟨st.reparto.fila_actual,
        (Hilos.paso_reparto n (Int.tdiv n W) st.reparto).fila_actual, n⟩]⟩ :
      EstadoMult α DatosHilo)) (fun _ _ => rfl)]
  simp only
  rw [bucle_salida_ok 0 W _ (fun i (traza : List Evento) => traza ++ [Evento.pthread_join i])
    (fun _ _ => rfl)]
  -- the creation loop
  have h := bucle_inv
    (fun t (st : EstadoMult α DatosHilo) =>
      st.reparto = bucle 0 (t : Int) (fun _ st => Hilos.paso_reparto n (Int.tdiv n W) st)
          ⟨Int.tmod n W, 0, []⟩
      ∧ st.mem = ejecutar_hilos ar
          ((List.range t).map (fun i =>
            (⟨inicio_cerrado (Int.tdiv n W) (Int.tmod n W) i,
              inicio_cerrado (Int.tdiv n W) (Int.tmod n W) (i + 1), n⟩ : DatosHilo))) m
      ∧ st.traza = traza_create n (Int.tdiv n W) (Int.tmod n W) t)
    0 (fun i (st : EstadoMult α DatosHilo) =>
    (⟨Hilos.paso_reparto n (Int.tdiv n W) st.reparto,
      Hilos.multiplicar_matrices_hilo ar st.mem ⟨st.reparto.fila_actual,
        (Hilos.paso_reparto n (Int.tdiv n W) st.reparto).fila_actual, n⟩,
      st.traza ++ [Evento.pthread_create i ⟨st.reparto.fila_actual,
        (Hilos.paso_reparto n (Int.tdiv n W) st.reparto).fila_actual, n⟩]⟩ :
      EstadoMult α DatosHilo))
    ⟨⟨Int.tmod n W, 0, []⟩, m, []⟩
    (by
      beta_reduce
      rw [bucle_vacio _ _ (by simp)]
      exact ⟨rfl, rfl, rfl⟩)
    (by
      rintro t ⟨rep, mem, tr⟩ ⟨h1, h2, h3⟩
      simp only at h1 h2 h3
      beta_reduce
      have hs := bucle_succ 0 t (fun _ st => Hilos.paso_reparto n (Int.tdiv n W) st)
        ⟨Int.tmod n W, 0, []⟩
      simp only [zero_add] at hs
      have hpaso : Hilos.paso_reparto n (Int.tdiv n W) rep
          = bucle 0 ((t + 1 : Nat) : Int)
            (fun _ st => Hilos.paso_reparto n (Int.tdiv n W) st) ⟨Int.tmod n W, 0, []⟩ := by
        rw [hs, h1]
      refine ⟨hpaso, ?_, ?_⟩
      · simp only
        rw [List.range_succ, List.map_append, List.map_cons, List.map_nil,
          ejecutar_hilos_append, ← h2, hpaso, h1, reparto_hilos_iter _ _ _ hr,
          reparto_hilos_iter _ _ _ hr]
      · simp only
        rw [hpaso, h1, reparto_hilos_iter _ _ _ hr, reparto_hilos_iter _ _ _ hr, h3]
        simp only [traza_create, List.range_succ, List.map_append, List.map_cons, List.map_nil,
          zero_add])
    W
  simp only [sub_zero] at h
  obtain ⟨_, h2, h3⟩ := h
  -- the joining loop
  have hw : ∀ tr : List Evento, bucle 0 W (fun i traza => traza ++ [Evento.pthread_join i]) tr
      = tr ++ traza_join W.toNat := by
    intro tr
    have h := bucle_inv (fun t (x : List Evento) => x = tr ++ traza_join t)
      0 (fun i traza => traza ++ [Evento.pthread_join i]) tr (by simp [traza_join])
      (by
        intro t st hst
        beta_reduce at hst ⊢
        rw [hst]
        simp only [traza_join, List.range_succ, List.map_append, List.map_cons, List.map_nil,
          zero_add, List.append_assoc])
      W
    simp only [sub_zero] at h
    exact h
  simp only [hw, h2, h3, particion_hilos_cerrada n W hn]

/-- When every `fork` succeeds the process version returns with every cell of
`[0, n) × [0, n)` computed, the other cells of `C` untouched, and `A`, `B` unchanged. -/
theorem multiplicar_procesos_celdas {α : Type} (ar : Aritmetica α) (env : Entorno)
    (hok : ∀ i, env.crear_ok i = true) (m : Memoria α) (n W : Int) (hn : 0 ≤ n) (hW : 0 < W) :
    (Procesos.multiplicar_matrices ar env m n W).fin = Fin.retorna
    ∧ (Procesos.multiplicar_matrices ar env m n W).mem.A = m.A
    ∧ (Procesos.multiplicar_matrices ar env m n W).mem.B = m.B
    ∧ ∀ i j : Int, (Procesos.multiplicar_matrices ar env m n W).mem.C i j
        = if 0 ≤ i ∧ i < n ∧ 0 ≤ j ∧ j < n then celda ar m.A m.B n i j else m.C i j := by
  rw [multiplicar_procesos_sin_fallos ar env hok m n W hn (by omega)]
  obtain ⟨hA, hB, hC⟩ := ejecutar_procesos_cerrado ar n (Procesos.particion n W) m
  refine ⟨rfl, hA, hB, ?_⟩
  intro i j
  by_cases hc : 0 ≤ i ∧ i < n ∧ 0 ≤ j ∧ j < n
  · rw [if_pos hc]
    exact (hC i j).1 ⟨(particion_procesos_cubre n W hn hW i).mp ⟨hc.1, hc.2.1⟩, hc.2.2⟩
  · rw [if_neg hc]
    apply (hC i j).2
    rintro ⟨hex, hj⟩
    have := (particion_procesos_cubre n W hn hW i).mpr hex
    exact hc ⟨this.1, this.2, hj.1, hj.2⟩

/-- When every system call succeeds the thread version returns with every cell of
`[0, n) × [0, n)` computed, the other cells of `C` untouched, and `A`, `B` unchanged. -/
theorem multiplicar_hilos_celdas {α : Type} (ar : Aritmetica α) (env : Entorno)
    (hm : env.malloc_ok = true) (hok : ∀ i, env.crear_ok i = true)
    (hjoin : ∀ i, env.join_ok i = true) (m : Memoria α) (n W : Int) (hn : 0 ≤ n) (hW : 0 < W) :
    (Hilos.multiplicar_matrices ar env m n W).fin = Fin.retorna
    ∧ (Hilos.multiplicar_matrices ar env m n W).mem.A = m.A
    ∧ (Hilos.multiplicar_matrices ar env m n W).mem.B = m.B
    ∧ ∀ i j : Int, (Hilos.multiplicar_matrices ar env m n W).mem.C i j
        = if 0 ≤ i ∧ i < n ∧ 0 ≤ j ∧ j < n then celda ar m.A m.B n i j else m.C i j := by
  rw [multiplicar_hilos_sin_fallos ar env hm hok hjoin m n W hn (by omega)]
  have hdn : ∀ d ∈ Hilos.particion n W, d.n = n := by
    intro d hd
    rw [particion_hilos_cerrada n W hn, List.mem_map] at hd
    obtain ⟨t, _, rfl⟩ := hd
    rfl
  have hmem : ejecutar_hilos ar (Hilos.particion n W) m
      = ejecutar_procesos ar n (Procesos.particion n W) m := by
    rw [ejecutar_hilos_eq_procesos ar n _ hdn, particion_hilos_procesos n W hn]
  obtain ⟨hA, hB, hC⟩ := ejecutar_procesos_cerrado ar n (Procesos.particion n W) m
  rw [← hmem] at hA hB hC
  refine ⟨rfl, hA, hB, ?_⟩
  intro i j
  by_cases hc : 0 ≤ i ∧ i < n ∧ 0 ≤ j ∧ j < n
  · rw [if_pos hc]
    exact (hC i j).1 ⟨(particion_procesos_cubre n W hn hW i).mp ⟨hc.1, hc.2.1⟩, hc.2.2⟩
  · rw [if_neg hc]
    apply (hC i j).2
    rintro ⟨hex, hj⟩
    have := (particion_procesos_cubre n W hn hW i).mpr hex
    exact hc ⟨this.1, this.2, hj.1, hj.2⟩

/-! ## Order of the accumulation -/

/-- A loop that adds one term per iteration to an accumulator builds the chain of
additions from left to right. -/
theorem bucle_suma_ascendente {α : Type} (ar : Aritmetica α) (t : Int → α) (n : Int) :
    bucle 0 n (fun k acc => ar.suma acc (t k)) ar.cero
      = suma_ascendente ar (fun k => t (k : Int)) n.toNat := by
  have h := bucle_inv
    (fun c (acc : α) => acc = suma_ascendente ar (fun k => t (k : Int)) c)
    0 (fun k acc => ar.suma acc (t k)) ar.cero rfl
    (by
      intro c st hst
      beta_reduce at hst ⊢
      rw [hst, zero_add]
      rfl)
    n
  simp only [sub_zero] at h
  exact h

theorem celda_suma_ascendente {α : Type} (ar : Aritmetica α) (A B : Matriz α) (nk i j : Int) :
    celda ar A B nk i j
      = suma_ascendente ar (fun k => ar.prod (A i (k : Int)) (B (k : Int) j)) nk.toNat :=
  bucle_suma_ascendente ar (fun k => ar.prod (A i k) (B k j)) nk

theorem bucle_una_vuelta {σ : Type} (i : Int) (cuerpo : Int → σ → σ) (s : σ) :
    bucle i (i + 1) cuerpo s = cuerpo i s := by
  unfold bucle
  have h1 : (i + 1 - i).toNat = 1 := by omega
  rw [h1]
  show cuerpo (i + ((0 : Nat) : Int)) s = cuerpo i s
  rw [Nat.cast_zero, add_zero]

/-- The OpenMP loop run in the order `orden` is the run of the row-block kernel on
the single rows `[i, i+1)` in that order. -/
theorem openmp_eq_procesos {α : Type} (ar : Aritmetica α) (orden : List Int) (m : Memoria α)
    (n num_hilos : Int) :
    Openmp.multiplicar_matrices_openmp ar orden m n num_hilos
      = ejecutar_procesos ar n (orden.map (fun i => (i, i + 1))) m := by
  unfold Openmp.multiplicar_matrices_openmp ejecutar_procesos
  rw [List.foldl_map]
  congr 1
  funext m i
  unfold Procesos.multiplicar_matrices_proceso
  rw [bucle_una_vuelta]

/-! ## Addressing -/

/-- When the table and the cells fit in an `int` number of bytes, `total_size` is
that number. -/
theorem total_size_exacto (n : Int) (hn : 0 ≤ n) (h : 8 * n + 4 * (n * n) ≤ 2147483647) :
    Procesos.total_size n = 8 * n + 4 * (n * n) := by
  have hnn : 0 ≤ n * n := mul_nonneg hn hn
  unfold Procesos.total_size bytes
  rw [wrap32_en_rango (n * n) (by omega)]
  unfold wrap32
  omega

/-- The loop of `crear_matriz_compartida` stores `i * n` in entry `i` of the table
when `n * n` is representable as an `int`. -/
theorem tabla_de_filas (n : Int) (hn : 0 ≤ n) (hnn : n * n ≤ 2147483647)
    (matriz : Mpi.Buffer Int) (i : Int) (hi : 0 ≤ i ∧ i < n) :
    bucle 0 n (fun i matriz => Mpi.asignar matriz i (wrap32 (i * n))) matriz i = i * n := by
  have h := bucle_inv
    (fun t (tabla : Mpi.Buffer Int) => ∀ i : Int, 0 ≤ i → i < (t : Int) →
      tabla i = wrap32 (i * n))
    0 (fun i matriz => Mpi.asignar matriz i (wrap32 (i * n))) matriz
    (by
      intro i h0 h1
      omega)
    (by
      intro t st hst
      beta_reduce at hst ⊢
      intro i h0 h1
      simp only [Mpi.asignar, zero_add]
      by_cases hit : i = (t : Int)
      · rw [if_pos hit, hit]
      · rw [if_neg hit]
        exact hst i h0 (by push_cast at h1; omega))
    n
  simp only [sub_zero] at h
  rw [h i hi.1 (by omega)]
  exact wrap32_producto_acotado i n ⟨hi.1, by omega⟩ hnn

/-- When the table and the cells fit in an `int` number of bytes and the three
system calls succeed, `crear_matriz_compartida` returns the table whose entry `i`
is `i * n`. -/
theorem crear_matriz_compartida_cerrado (sis : Sistema) (n : Int) (nombre : Nombre)
    (matriz : Mpi.Buffer Int) (hn : 1 ≤ n) (htam : 8 * n + 4 * (n * n) ≤ 2147483647)
    (hshm : sis.shm_open_ok nombre = true)
    (hft : sis.ftruncate_ok (8 * n + 4 * (n * n)) = true)
    (hmap : sis.mmap_ok (8 * n + 4 * (n * n)) = true) :
    ∃ tabla : Mpi.Buffer Int,
      Procesos.crear_matriz_compartida sis n nombre matriz = Except.ok tabla
      ∧ ∀ i : Int, 0 ≤ i → i < n → tabla i = i * n := by
  have hnn : 0 ≤ n * n := mul_nonneg (by omega) (by omega)
  have hts := total_size_exacto n (by omega) htam
  refine ⟨bucle 0 n (fun i matriz => Mpi.asignar matriz i (wrap32 (i * n))) matriz, ?_, ?_⟩
  · unfold Procesos.crear_matriz_compartida
    simp only [hts, hshm, hft, hmap]
    rw [if_neg (by simp), if_neg (by simp; omega), if_neg (by simp; omega), if_neg (by simp)]
  · intro i h0 h1
    exact tabla_de_filas n (by omega) (by omega) matriz i ⟨h0, h1⟩

/-- The 32-bit evaluation of `row * n + col` is exact on `[0, n) × [0, n)` when
`n * n` is representable as an `int`. -/
theorem indice_exacto (n row col : Int) (hnn : n * n ≤ 2147483647) (hr : 0 ≤ row ∧ row < n)
    (hc : 0 ≤ col ∧ col < n) :
    Mpi.indice n row col = row * n + col
    ∧ 0 ≤ row * n + col ∧ row * n + col < n * n := by
  have h := offset_en_rango row n n col hr.2 hc.1 hc.2
  have hpos : 0 ≤ row * n := mul_nonneg hr.1 (by omega)
  unfold Mpi.indice
  rw [wrap32_en_rango (row * n) (by omega), wrap32_en_rango _ (by omega)]
  exact ⟨rfl, by omega, h.2⟩

/-- Two cells of `[0, n) × [0, n)` with the same offset are the same cell. -/
theorem indice_inyectivo (n row col row' col' : Int) (hc : 0 ≤ col ∧ col < n)
    (hc' : 0 ≤ col' ∧ col' < n) (h : row * n + col = row' * n + col') :
    row = row' ∧ col = col' := by
  have hrow : row = row' := by
    rcases lt_trichotomy row row' with hlt | heq | hgt
    · have := offset_en_rango row row' n col hlt hc.1 hc.2
      omega
    · exact heq
    · have := offset_en_rango row' row n col' hgt hc'.1 hc'.2
      omega
  subst hrow
  exact ⟨rfl, by omega⟩

/-! ## Bounds for matrices with entries in `[0, 9]` -/

theorem escribir_otro {α : Type} (M : Matriz α) (i j : Int) (v : α) (i' j' : Int)
    (h : ¬ (i' = i ∧ j' = j)) : escribir M i j v i' j' = M i' j' := by
  unfold escribir
  rw [if_neg h]

theorem celda_tras_eq_celda {α : Type} (ar : Aritmetica α) (m : Memoria α) (i j : Int) (t : Nat) :
    celda_tras ar m i j t = celda ar m.A m.B (t : Int) i j := by
  unfold celda_tras celda
  have h := bucle_k ar m.A m.B m.C i j (t : Int) ar.cero
  rw [h]
  exact escribir_aqui _ _ _ _

theorem producto_acotado (a b : Int) (ha : 0 ≤ a ∧ a ≤ 9) (hb : 0 ≤ b ∧ b ≤ 9) :
    0 ≤ a * b ∧ a * b ≤ 81 := by
  constructor
  · exact mul_nonneg ha.1 hb.1
  · nlinarith [ha.1, ha.2, hb.1, hb.2]

/-- The partial sums of products of entries in `[0, 9]` lie in `[0, 81 * t]`. -/
theorem suma_parcial_acotada (n : Int) (A B : Matriz Int) (i j : Int)
    (hA : ∀ k : Int, 0 ≤ k → k < n → 0 ≤ A i k ∧ A i k ≤ 9)
    (hB : ∀ k : Int, 0 ≤ k → k < n → 0 ≤ B k j ∧ B k j ≤ 9) (t : Nat) (ht : (t : Int) ≤ n) :
    0 ≤ ∑ k ∈ Finset.range t, A i (k : Int) * B (k : Int) j
    ∧ ∑ k ∈ Finset.range t, A i (k : Int) * B (k : Int) j ≤ 81 * (t : Int) := by
  induction t with
  | zero => simp
  | succ t ih =>
    have h1 := ih (by push_cast at ht; omega)
    have h2 := producto_acotado (A i (t : Int)) (B (t : Int) j)
      (hA t (by omega) (by push_cast at ht; omega)) (hB t (by omega) (by push_cast at ht; omega))
    rw [Finset.sum_range_succ]
    push_cast
    omega

/-- Every cell of `[0, n) × [0, n)` written by `llenar_matriz_aleatoria` is in
`[0, 9]` when `rand()` returns non-negative values. -/
theorem llenar_matriz_aleatoria_rango (rand : Nat → Int) (hrand : ∀ c, 0 ≤ rand c)
    (matriz : Matriz Int) (n : Int) (llamadas : Nat) (i j : Int)
    (hi : 0 ≤ i ∧ i < n) (hj : 0 ≤ j ∧ j < n) :
    0 ≤ (llenar_matriz_aleatoria rand matriz n llamadas).1 i j
    ∧ (llenar_matriz_aleatoria rand matriz n llamadas).1 i j ≤ 9 := by
  have hmod : ∀ c, 0 ≤ Int.tmod (rand c) 10 ∧ Int.tmod (rand c) 10 ≤ 9 := by
    intro c
    have h1 := Int.tmod_nonneg 10 (hrand c)
    have h2 := Int.tmod_lt_of_pos (rand c) (by decide : (0 : Int) < 10)
    omega
  -- one row
  have hfila : ∀ (f : Int) (st : Matriz Int × Nat),
      (∀ c : Int, 0 ≤ c → c < n →
        0 ≤ (bucle 0 n (fun j (st : Matriz Int × Nat) =>
            (escribir st.1 f j (Int.tmod (rand st.2) 10), st.2 + 1)) st).1 f c
        ∧ (bucle 0 n (fun j (st : Matriz Int × Nat) =>
            (escribir st.1 f j (Int.tmod (rand st.2) 10), st.2 + 1)) st).1 f c ≤ 9)
      ∧ (∀ f' c : Int, f' ≠ f →
        (bucle 0 n (fun j (st : Matriz Int × Nat) =>
            (escribir st.1 f j (Int.tmod (rand st.2) 10), st.2 + 1)) st).1 f' c = st.1 f' c) := by
    intro f st
    have h := bucle_inv
      (fun t (x : Matriz Int × Nat) =>
        (∀ c : Int, 0 ≤ c → c < (t : Int) → 0 ≤ x.1 f c ∧ x.1 f c ≤ 9)
        ∧ (∀ f' c : Int, f' ≠ f → x.1 f' c = st.1 f' c))
      0 (fun j (st : Matriz Int × Nat) =>
            (escribir st.1 f j (Int.tmod (rand st.2) 10), st.2 + 1)) st
      (by
        refine ⟨?_, ?_⟩
        · intro c h0 h1
          omega
        · intro f' c _
          rfl)
      (by
        intro t x hx
        beta_reduce at hx ⊢
        refine ⟨?_, ?_⟩
        · intro c h0 h1
          dsimp only
          by_cases hc : c = 0 + (t : Int)
          · rw [hc, escribir_aqui]
            exact hmod _
          · rw [escribir_otro _ _ _ _ _ _ (fun h => hc h.2)]
            exact hx.1 c h0 (by push_cast at h1; omega)
        · intro f' c hf
          dsimp only
          rw [escribir_otro _ _ _ _ _ _ (fun h => hf h.1)]
          exact hx.2 f' c hf)
      n
    simp only [sub_zero] at h
    exact ⟨fun c h0 h1 => h.1 c h0 (by omega), h.2⟩
  -- all rows
  have h := bucle_inv
    (fun t (x : Matriz Int × Nat) =>
      ∀ f c : Int, 0 ≤ f → f < (t : Int) → 0 ≤ c → c < n → 0 ≤ x.1 f c ∧ x.1 f c ≤ 9)
    0 (fun i (st : Matriz Int × Nat) =>
      bucle 0 n (fun j (st : Matriz Int × Nat) =>
          (escribir st.1 i j (Int.tmod (rand st.2) 10), st.2 + 1))
        st)
    (matriz, llamadas)
    (by
      intro f c h0 h1
      omega)
    (by
      intro t x hx
      beta_reduce at hx ⊢
      intro f c h0 h1 h2 h3
      obtain ⟨ha, hb⟩ := hfila (0 + (t : Int)) x
      by_cases hf : f = 0 + (t : Int)
      · rw [hf]
        exact ha c h2 h3
      · rw [hb f c hf]
        exact hx f c h0 (by push_cast at h1; omega) h2 h3)
    n
  simp only [sub_zero] at h
  exact h i j hi.1 (by omega) hj.1 hj.2

/-! ## A failing `fork` -/

/-- A loop whose body succeeds at the first `i` indices and ends the process at
index `i` ends there, with the state the first `i` iterations produced. -/
theorem bucle_salida_falla {σ ε : Type} (desde hasta : Int) (cuerpo : Int → σ → Except ε σ)
    (f : Int → σ → σ) (g : σ → ε) (i : Nat) (hi : desde + (i : Int) < hasta)
    (hok : ∀ t : Nat, t < i → ∀ s, cuerpo (desde + (t : Int)) s = Except.ok (f (desde + (t : Int)) s))
    (hfalla : ∀ s, cuerpo (desde + (i : Int)) s = Except.error (g s)) (s : σ) :
    bucle_salida desde hasta cuerpo s
      = Except.error (g (bucle desde (desde + (i : Int)) f s)) := by
  unfold bucle_salida bucle
  have h1 : (desde + (i : Int) - desde).toNat = i := by omega
  obtain ⟨k, hk⟩ : ∃ k : Nat, (hasta - desde).toNat = i + (k + 1) :=
    ⟨(hasta - desde).toNat - i - 1, by omega⟩
  rw [h1, hk, List.range_add, List.foldlM_append]
  have hpre : ∀ (l : List Nat) (s : σ), (∀ t ∈ l, t < i) →
      l.foldlM (fun st (t : Nat) => cuerpo (desde + (t : Int)) st) s
        = Except.ok (l.foldl (fun st (t : Nat) => f (desde + (t : Int)) st) s) := by
    intro l
    induction l with
    | nil => intro s _; rfl
    | cons t l ih =>
      intro s hl
      rw [List.foldlM_cons, hok t (hl t (List.mem_cons_self _ _)), List.foldl_cons]
      exact ih _ (fun t' ht' => hl t' (List.mem_cons_of_mem _ ht'))
  rw [hpre (List.range i) s (fun t ht => List.mem_range.mp ht)]
  rw [List.range_succ_eq_map, List.map_cons]
  have hbind : ∀ (x : σ) (h : σ → Except ε σ), (Except.ok x >>= h) = h x := fun _ _ => rfl
  rw [hbind, List.foldlM_cons, Nat.add_zero, hfalla]
  rfl

/-- The dispatch loop of the process version, as long as every `fork` succeeds:
after `t` iterations the children `0..t-1` have been created on the ranges of the
closed form. -/
theorem despacho_procesos_iter {α : Type} (ar : Aritmetica α) (m : Memoria α) (n q r : Int)
    (hr : 0 ≤ r) (t : Nat) :
    bucle 0 (t : Int) (fun i (st : EstadoMult α (Int × Int)) =>
      (⟨Procesos.paso_reparto q st.reparto,
        Procesos.multiplicar_matrices_proceso ar st.mem n st.reparto.fila_actual
          (Procesos.paso_reparto q st.reparto).fila_actual,
        st.traza ++ [Evento.fork i st.reparto.fila_actual
          (Procesos.paso_reparto q st.reparto).fila_actual]⟩ : EstadoMult α (Int × Int)))
      ⟨⟨r, 0, []⟩, m, []⟩
    = ⟨bucle 0 (t : Int) (fun _ st => Procesos.paso_reparto q st) ⟨r, 0, []⟩,
        ejecutar_procesos ar n ((List.range t).map (fun i =>
          (inicio_cerrado q r i, inicio_cerrado q r (i + 1)))) m,
        traza_fork q r t⟩ := by
  induction t with
  | zero =>
    rw [bucle_vacio _ _ (by simp), bucle_vacio _ _ (by simp)]
    rfl
  | succ t ih =>
    have hs := bucle_succ 0 t (fun _ st => Procesos.paso_reparto q st) ⟨r, 0, []⟩
    have hs2 := bucle_succ 0 t (fun i (st : EstadoMult α (Int × Int)) =>
      (⟨Procesos.paso_reparto q st.reparto,
        Procesos.multiplicar_matrices_proceso ar st.mem n st.reparto.fila_actual
          (Procesos.paso_reparto q st.reparto).fila_actual,
        st.traza ++ [Evento.fork i st.reparto.fila_actual
          (Procesos.paso_reparto q st.reparto).fila_actual]⟩ : EstadoMult α (Int × Int)))
      ⟨⟨r, 0, []⟩, m, []⟩
    simp only [zero_add] at hs hs2
    rw [hs2, ih]
    simp only
    rw [← hs, reparto_procesos_iter _ _ hr, reparto_procesos_iter _ _ hr]
    simp only [traza_fork, List.range_succ, List.map_append, List.map_cons, List.map_nil,
      ejecutar_procesos_append]

/-- The process version of `multiplicar_matrices` when the first failing `fork`
is the one of child `i < num_procesos`: children `0..i-1` have been created, and
the process ends with `EXIT_FAILURE` right there. -/
theorem multiplicar_procesos_fork_falla {α : Type} (ar : Aritmetica α) (env : Entorno)
    (m : Memoria α) (n W : Int) (hn : 0 ≤ n) (i : Nat) (hi : (i : Int) < W)
    (hok : ∀ t : Nat, t < i → env.crear_ok (t : Int) = true)
    (hfalla : env.crear_ok (i : Int) = false) :
    Procesos.multiplicar_matrices ar env m n W
      = ⟨ejecutar_procesos ar n ((List.range i).map (fun t =>
          (inicio_cerrado (Int.tdiv n W) (Int.tmod n W) t,
            inicio_cerrado (Int.tdiv n W) (Int.tmod n W) (t + 1)))) m,
          traza_fork (Int.tdiv n W) (Int.tmod n W) i, Fin.exit EXIT_FAILURE⟩ := by
  have hr : 0 ≤ Int.tmod n W := Int.tmod_nonneg W hn
  unfold Procesos.multiplicar_matrices
  rw [if_neg (by omega)]
  simp only
  rw [bucle_salida_falla 0 W _ (fun i (st : EstadoMult α (Int × Int)) =>
      (⟨Procesos.paso_reparto (Int.tdiv n W) st.reparto,
        Procesos.multiplicar_matrices_proceso ar st.mem n st.reparto.fila_actual
          (Procesos.paso_reparto (Int.tdiv n W) st.reparto).fila_actual,
        st.traza ++ [Evento.fork i st.reparto.fila_actual
          (Procesos.paso_reparto (Int.tdiv n W) st.reparto).fila_actual]⟩ :
        EstadoMult α (Int × Int)))
    (fun st => (⟨Procesos.paso_reparto (Int.tdiv n W) st.reparto, st.mem, st.traza⟩ :
        EstadoMult α (Int × Int))) i (by omega)
    (by
      intro t ht s
      simp only [zero_add, hok t ht, if_true])
    (by
      intro s
      simp only [zero_add, hfalla]
      rfl)]
  simp only [zero_add]
  rw [despacho_procesos_iter ar m n _ _ hr i]

/-! ## The option loop of `main` -/

theorem procesar_opciones_append_ok (antes resto : List Opcion) (c c' : Config)
    (h : procesar_opciones antes c = Except.ok c') :
    procesar_opciones (antes ++ resto) c = procesar_opciones resto c' := by
  induction antes generalizing c with
  | nil =>
    simp only [procesar_opciones, Except.ok.injEq] at h
    rw [List.nil_append, h]
  | cons o antes ih =>
    cases o with
    | tamano v =>
      simp only [List.cons_append, procesar_opciones] at h ⊢
      split at h
      · exact absurd h (by simp)
      · rename_i hv; rw [if_neg hv]; exact ih _ h
    | trabajadores v =>
      simp only [List.cons_append, procesar_opciones] at h ⊢
      split at h
      · exact absurd h (by simp)
      · rename_i hv; rw [if_neg hv]; exact ih _ h
    | imprimir =>
      simp only [List.cons_append, procesar_opciones] at h ⊢
      exact ih _ h
    | ayuda => simp [procesar_opciones] at h
    | desconocida => simp [procesar_opciones] at h
    | otra => simp [procesar_opciones] at h

/-- When the option loop meets a worker count `≤ 0`, `main` returns from inside
the loop. -/
theorem procesar_opciones_rechaza (opciones : List Opcion) (W : Int) (hW : W ≤ 0)
    (hmem : Opcion.trabajadores W ∈ opciones) (c : Config) :
    ∃ status, procesar_opciones opciones c = Except.error status := by
  induction opciones generalizing c with
  | nil => simp at hmem
  | cons o resto ih =>
    cases o with
    | tamano v =>
      simp only [procesar_opciones]
      split
      · exact ⟨_, rfl⟩
      · exact ih (by simpa using hmem) _
    | trabajadores v =>
      simp only [procesar_opciones]
      split
      · exact ⟨_, rfl⟩
      · rename_i hv
        rcases List.mem_cons.mp hmem with heq | hmem'
        · have : W = v := by injection heq
          omega
        · exact ih hmem' _
    | imprimir =>
      simp only [procesar_opciones]
      exact ih (by simpa using hmem) _
    | ayuda => exact ⟨_, rfl⟩
    | desconocida => exact ⟨_, rfl⟩
    | otra => exact ⟨_, rfl⟩

/-- `crear_matriz` returns when the two sizes it asks for are granted. -/
theorem crear_matriz_ok (sis : Sistema) (n : Int) (h8 : sis.malloc_ok (bytes n 8) = true)
    (h4 : sis.malloc_ok (bytes n 4) = true) : Hilos.crear_matriz sis n = Except.ok () := by
  unfold Hilos.crear_matriz
  rw [if_neg (by simp [h8]),
    bucle_salida_ok 0 n _ (fun _ u => u) (by intro i u; simp [h4])]

/-- Once its matrices are created, `main` of the thread program calls
`multiplicar_matrices` with the adjusted worker count, and what follows in its
trace is what the call does. -/
theorem hilos_main_llamada {α : Type} (ar : Aritmetica α) (sis : Sistema) (env : Entorno)
    (opciones : List Opcion) (m : Memoria α) (c : Config)
    (h : procesar_opciones opciones config_defecto = Except.ok c)
    (h8 : sis.malloc_ok (bytes (ajustar c).n 8) = true)
    (h4 : sis.malloc_ok (bytes (ajustar c).n 4) = true) :
    (Hilos.main ar sis env opciones m).traza
      = Evento.multiplicar (ajustar c).n (ajustar c).num
        :: (Hilos.multiplicar_matrices ar env m (ajustar c).n (ajustar c).num).traza := by
  unfold Hilos.main
  rw [h]
  simp only [crear_matriz_ok sis _ h8 h4]
  split <;> rfl

/-- Once its shared matrices are created, `main` of the process program calls
`multiplicar_matrices` with the adjusted worker count, and what follows in its
trace is what the call does. -/
theorem procesos_main_llamada {α : Type} (ar : Aritmetica α) (sis : Sistema) (env : Entorno)
    (opciones : List Opcion) (m : Memoria α) (c : Config)
    (h : procesar_opciones opciones config_defecto = Except.ok c)
    (hn : 1 ≤ (ajustar c).n)
    (htam : 8 * (ajustar c).n + 4 * ((ajustar c).n * (ajustar c).n) ≤ 2147483647)
    (hshm : ∀ nombre, sis.shm_open_ok nombre = true)
    (hft : sis.ftruncate_ok (8 * (ajustar c).n + 4 * ((ajustar c).n * (ajustar c).n)) = true)
    (hmap : sis.mmap_ok (8 * (ajustar c).n + 4 * ((ajustar c).n * (ajustar c).n)) = true) :
    (Procesos.main ar sis env opciones m).traza
      = Evento.multiplicar (ajustar c).n (ajustar c).num
        :: (Procesos.multiplicar_matrices ar env m (ajustar c).n (ajustar c).num).traza := by
  obtain ⟨tA, hA, _⟩ := crear_matriz_compartida_cerrado sis _ Nombre.matriz_A (fun _ => 0)
    hn htam (hshm _) hft hmap
  obtain ⟨tB, hB, _⟩ := crear_matriz_compartida_cerrado sis _ Nombre.matriz_B (fun _ => 0)
    hn htam (hshm _) hft hmap
  obtain ⟨tC, hC, _⟩ := crear_matriz_compartida_cerrado sis _ Nombre.matriz_C (fun _ => 0)
    hn htam (hshm _) hft hmap
  unfold Procesos.main
  rw [h]
  simp only [hA, hB, hC]
  split <;> rfl

/-- The adjustment of `main` replaces the worker count by `min W n`. -/
theorem ajustar_min (n W imp : Int) : ajustar ⟨n, W, imp⟩ = ⟨n, min W n, imp⟩ := by
  unfold ajustar
  simp only
  by_cases h : W > n
  · rw [if_pos h, min_eq_right (by omega)]
  · rw [if_neg h, min_eq_left (by omega)]

/-- When every request for memory is granted, `main` of matrices_mpi.c runs to its
end for a dimension `N ≥ 1` whose square is representable as an `int`. -/
theorem mpi_main_ok {α : Type} (ar : Aritmetica α) (sis : Sistema) (size N : Int)
    (A B : Mpi.Buffer α) (ini : Mpi.Inicial α) (hN : 1 ≤ N) (hNN : N * N ≤ 2147483647)
    (hmalloc : ∀ b, sis.malloc_ok b = true) :
    Mpi.main ar sis size N A B ini
      = ⟨Mpi.gatherv (Mpi.C_local_de ar size N A B ini)
          (Mpi.copiar_cuentas
            (Mpi.calcular_desplazamientos ini.sendcounts ini.displs size N).counts
            (Mpi.calcular_desplazamientos ini.sendcounts ini.displs size N).displs
            ini.recvcounts ini.recvdispls size).1
          (Mpi.copiar_cuentas
            (Mpi.calcular_desplazamientos ini.sendcounts ini.displs size N).counts
            (Mpi.calcular_desplazamientos ini.sendcounts ini.displs size N).displs
            ini.recvcounts ini.recvdispls size).2 size ini.C, Fin.exit EXIT_SUCCESS⟩ := by
  have hnn : 0 ≤ N * N := mul_nonneg (by omega) (by omega)
  have hres : Mpi.reservas_ok sis size N = true := by
    unfold Mpi.reservas_ok
    simp [hmalloc]
  unfold Mpi.main
  rw [if_neg (by omega), if_neg (by simp [hres]),
    if_neg (by rw [wrap32_en_rango (N * N) (by omega)]; simp)]

/-- The option loop keeps the size and the worker count positive. -/
theorem procesar_opciones_positivo (opciones : List Opcion) (c c' : Config)
    (h : procesar_opciones opciones c = Except.ok c') (hn : 1 ≤ c.n) (hnum : 1 ≤ c.num) :
    1 ≤ c'.n ∧ 1 ≤ c'.num := by
  induction opciones generalizing c with
  | nil =>
    simp only [procesar_opciones, Except.ok.injEq] at h
    subst h
    exact ⟨hn, hnum⟩
  | cons o resto ih =>
    cases o with
    | tamano v =>
      simp only [procesar_opciones] at h
      split at h
      · exact absurd h (by simp)
      · exact ih { c with n := v } h (by dsimp only; omega) hnum
    | trabajadores v =>
      simp only [procesar_opciones] at h
      split at h
      · exact absurd h (by simp)
      · exact ih { c with num := v } h hn (by dsimp only; omega)
    | imprimir =>
      simp only [procesar_opciones] at h
      exact ih { c with imprimir := 1 } h hn hnum
    | ayuda => simp [procesar_opciones] at h
    | desconocida => simp [procesar_opciones] at h
    | otra => simp [procesar_opciones] at h

/-- The adjusted worker count lies between 1 and the size. -/
theorem ajustar_acotado (c : Config) (hn : 1 ≤ c.n) (hnum : 1 ≤ c.num) :
    (ajustar c).n = c.n ∧ 1 ≤ (ajustar c).num ∧ (ajustar c).num ≤ c.n := by
  unfold ajustar
  split
  · exact ⟨rfl, hn, le_refl _⟩
  · exact ⟨rfl, hnum, by omega⟩

/-! ## Claims on the row partition -/

/-- C1. For `n ≥ 1` and `1 ≤ W ≤ n` the partition loop of `multiplicar_matrices`
(thread and process versions give the same ranges) yields `W` ranges
`[fila_inicio_i, fila_fin_i)` with `fila_inicio_0 = 0`,
`fila_inicio_{i+1} = fila_fin_i` and `fila_fin_{W-1} = n`; the ranges are ordered
by worker index and pairwise disjoint (`fila_fin_i ≤ fila_inicio_j` for `i < j`),
none is empty, and a row lies in some range exactly when it is in `[0, n)`. -/
theorem particion_contigua_cubre (n W : Int) (hn : 1 ≤ n) (hW : 1 ≤ W) (hWn : W ≤ n) :
    (Hilos.particion n W).map (fun d => (d.fila_inicio, d.fila_fin)) = Procesos.particion n W
    ∧ (Procesos.particion n W).length = W.toNat
    ∧ (∃ fin, (Procesos.particion n W)[0]? = some (0, fin))
    ∧ (∀ (i : Nat) (p p' : Int × Int), (Procesos.particion n W)[i]? = some p →
        (Procesos.particion n W)[i + 1]? = some p' → p'.1 = p.2)
    ∧ (∃ ini, (Procesos.particion n W)[W.toNat - 1]? = some (ini, n))
    ∧ (∀ p ∈ Procesos.particion n W, p.1 < p.2)
    ∧ (∀ (i j : Nat) (p p' : Int × Int), i < j → (Procesos.particion n W)[i]? = some p →
        (Procesos.particion n W)[j]? = some p' → p.2 ≤ p'.1)
    ∧ (∀ fila : Int, (0 ≤ fila ∧ fila < n) ↔
        ∃ p ∈ Procesos.particion n W, p.1 ≤ fila ∧ fila < p.2) := by
  have hn0 : 0 ≤ n := by omega
  have hq : 0 ≤ Int.tdiv n W := Int.tdiv_nonneg hn0 (by omega)
  have hr : 0 ≤ Int.tmod n W := Int.tmod_nonneg W hn0
  have htot := inicio_cerrado_total n W (by omega)
  have hcero := inicio_cerrado_cero (Int.tdiv n W) (Int.tmod n W) hr
  have hWpos : 0 < W.toNat := by omega
  refine ⟨particion_hilos_procesos n W hn0, ?_⟩
  rw [particion_procesos_cerrada n W hn0]
  refine ⟨by simp, ?_, ?_, ?_, ?_, ?_, ?_⟩
  · refine ⟨inicio_cerrado (Int.tdiv n W) (Int.tmod n W) 1, ?_⟩
    rw [getElem?_map_range]
    exact ⟨hWpos, by rw [hcero]⟩
  · intro i p p' h1 h2
    rw [getElem?_map_range] at h1 h2
    rw [← h1.2, ← h2.2]
  · refine ⟨inicio_cerrado (Int.tdiv n W) (Int.tmod n W) (W.toNat - 1), ?_⟩
    rw [getElem?_map_range]
    refine ⟨by omega, ?_⟩
    have h1 : W.toNat - 1 + 1 = W.toNat := by omega
    rw [h1, htot]
  · intro p hp
    rw [List.mem_map] at hp
    obtain ⟨i, _, rfl⟩ := hp
    have hpaso := inicio_cerrado_paso (Int.tdiv n W) (Int.tmod n W) i
    have hq1 : 1 ≤ Int.tdiv n W := by
      by_contra hc
      have hq0 : Int.tdiv n W = 0 := by omega
      have h3 := Int.tdiv_add_tmod n W
      have h4 : Int.tmod n W < W := Int.tmod_lt_of_pos n (by omega)
      rw [hq0] at h3
      omega
    simp only
    split at hpaso <;> omega
  · intro i j p p' hij h1 h2
    rw [getElem?_map_range] at h1 h2
    rw [← h1.2, ← h2.2]
    exact inicio_cerrado_mono _ _ hq (by omega)
  · intro fila
    have h := particion_procesos_cubre n W hn0 (by omega) fila
    rw [particion_procesos_cerrada n W hn0] at h
    exact h

theorem particion_contigua_cubre_witness :
    (Hilos.particion 3 2).map (fun d => (d.fila_inicio, d.fila_fin)) = Procesos.particion 3 2
    ∧ (Procesos.particion 3 2).length = (2 : Int).toNat
    ∧ (∃ fin, (Procesos.particion 3 2)[0]? = some (0, fin))
    ∧ (∀ (i : Nat) (p p' : Int × Int), (Procesos.particion 3 2)[i]? = some p →
        (Procesos.particion 3 2)[i + 1]? = some p' → p'.1 = p.2)
    ∧ (∃ ini, (Procesos.particion 3 2)[(2 : Int).toNat - 1]? = some (ini, 3))
    ∧ (∀ p ∈ Procesos.particion 3 2, p.1 < p.2)
    ∧ (∀ (i j : Nat) (p p' : Int × Int), i < j → (Procesos.particion 3 2)[i]? = some p →
        (Procesos.particion 3 2)[j]? = some p' → p.2 ≤ p'.1)
    ∧ (∀ fila : Int, (0 ≤ fila ∧ fila < 3) ↔
        ∃ p ∈ Procesos.particion 3 2, p.1 ≤ fila ∧ fila < p.2) :=
  particion_contigua_cubre 3 2 (by decide) (by decide) (by decide)

theorem filas_por_proceso_cerrada (n W : Int) (hn : 0 ≤ n) (hW : 0 < W) (i : Int) :
    Mpi.filas_por_proceso i W n = if i < n % W then n / W + 1 else n / W := by
  unfold Mpi.filas_por_proceso
  simp only [Int.tdiv_eq_ediv hn (le_of_lt hW), Int.tmod_eq_emod hn (le_of_lt hW)]

/-- C2. For `n ≥ 1`, `1 ≤ W ≤ n` and a worker index `i < W`, the number of rows
`fila_fin - fila_inicio` that the thread and the process loop give worker `i`, and
`filas_por_proceso(i, W, n)` in the MPI version, are all `n / W + 1` when
`i < n % W` and `n / W` otherwise; the row counts of two workers `i, j < W` differ
by at most 1. -/
theorem filas_asignadas (n W : Int) (hn : 1 ≤ n) (hW : 1 ≤ W) (hWn : W ≤ n)
    (i : Nat) (hi : (i : Int) < W) :
    (∃ p, (Procesos.particion n W)[i]? = some p
        ∧ p.2 - p.1 = if (i : Int) < n % W then n / W + 1 else n / W)
    ∧ (∃ d, (Hilos.particion n W)[i]? = some d
        ∧ d.fila_fin - d.fila_inicio = if (i : Int) < n % W then n / W + 1 else n / W)
    ∧ Mpi.filas_por_proceso i W n = (if (i : Int) < n % W then n / W + 1 else n / W)
    ∧ (∀ (j : Nat) (p p' : Int × Int), (j : Int) < W → (Procesos.particion n W)[i]? = some p →
        (Procesos.particion n W)[j]? = some p' → |(p.2 - p.1) - (p'.2 - p'.1)| ≤ 1)
    ∧ (∀ j : Nat, (j : Int) < W →
        |Mpi.filas_por_proceso i W n - Mpi.filas_por_proceso j W n| ≤ 1) := by
  have hn0 : 0 ≤ n := by omega
  have hW0 : 0 ≤ W := by omega
  have hWn' := hWn
  have hdiv := Int.tdiv_eq_ediv hn0 hW0
  have hmod := Int.tmod_eq_emod hn0 hW0
  have hiW : i < W.toNat := by omega
  rw [particion_procesos_cerrada n W hn0, particion_hilos_cerrada n W hn0]
  refine ⟨⟨_, (getElem?_map_range _ _ _ _).mpr ⟨hiW, rfl⟩, ?_⟩,
    ⟨_, (getElem?_map_range _ _ _ _).mpr ⟨hiW, rfl⟩, ?_⟩,
    filas_por_proceso_cerrada n W hn0 (by omega) i, ?_, ?_⟩
  · simp only [inicio_cerrado_paso, hdiv, hmod]
  · simp only [inicio_cerrado_paso, hdiv, hmod]
  · intro j p p' _ h1 h2
    rw [getElem?_map_range] at h1 h2
    rw [← h1.2, ← h2.2]
    simp only [inicio_cerrado_paso]
    rw [abs_le]
    split <;> split <;> omega
  · intro j _
    rw [filas_por_proceso_cerrada n W hn0 (by omega), filas_por_proceso_cerrada n W hn0 (by omega)]
    rw [abs_le]
    split <;> split <;> omega

theorem filas_asignadas_witness :
    (∃ p, (Procesos.particion 7 3)[0]? = some p
        ∧ p.2 - p.1 = if ((0 : Nat) : Int) < 7 % 3 then 7 / 3 + 1 else 7 / 3)
    ∧ (∃ d, (Hilos.particion 7 3)[0]? = some d
        ∧ d.fila_fin - d.fila_inicio = if ((0 : Nat) : Int) < 7 % 3 then 7 / 3 + 1 else 7 / 3)
    ∧ Mpi.filas_por_proceso (0 : Nat) 3 7
        = (if ((0 : Nat) : Int) < 7 % 3 then 7 / 3 + 1 else 7 / 3)
    ∧ (∀ (j : Nat) (p p' : Int × Int), (j : Int) < 3 → (Procesos.particion 7 3)[0]? = some p →
        (Procesos.particion 7 3)[j]? = some p' → |(p.2 - p.1) - (p'.2 - p'.1)| ≤ 1)
    ∧ (∀ j : Nat, (j : Int) < 3 →
        |Mpi.filas_por_proceso (0 : Nat) 3 7 - Mpi.filas_por_proceso j 3 7| ≤ 1) :=
  filas_asignadas 7 3 (by decide) (by decide) (by decide) 0 (by decide)

/-! ## Claims on the kernel -/

/-- C3, counterexample. With `n = 1` and `A = B = [[65536]]` the kernel
(`multiplicar_matrices_proceso`, `multiplicar_matrices_hilo`), whose `int`
arithmetic wraps around at 32 bits, leaves `C[0][0] = 0`, while the sum of the
products over `k = 0..n-1` is `65536 * 65536 = 4294967296`. -/
theorem kernel_desborda :
    (Procesos.multiplicar_matrices_proceso aritInt32
        ⟨fun _ _ => 65536, fun _ _ => 65536, fun _ _ => 7⟩ 1 0 1).C 0 0 = 0
    ∧ (Hilos.multiplicar_matrices_hilo aritInt32
        ⟨fun _ _ => 65536, fun _ _ => 65536, fun _ _ => 7⟩ ⟨0, 1, 1⟩).C 0 0 = 0
    ∧ ∑ k ∈ Finset.range (1 : Int).toNat,
        (fun (_ _ : Int) => (65536 : Int)) 0 (k : Int)
          * (fun (_ _ : Int) => (65536 : Int)) (k : Int) 0 = 4294967296 := by
  refine ⟨by decide, by decide, ?_⟩
  rw [show (1 : Int).toNat = 1 from rfl, Finset.sum_range_one]
  decide

/-- C3, amended. For `n ≥ 1`, `int` matrices `A`, `B`, any initial content of `C`
and a row range `0 ≤ r0 ≤ r1 ≤ n`: after `multiplicar_matrices_proceso` or
`multiplicar_matrices_hilo` has run with 32-bit `int` arithmetic, every cell
`C[i][j]` with `r0 ≤ i < r1` and `0 ≤ j < n` holds the sum over `k = 0..n-1` of
`A[i][k] * B[k][j]` reduced to the 32-bit range, whatever `C` held before; it is
the sum itself whenever the sum is representable as an `int`. -/
theorem kernel_calcula_producto (n r0 r1 : Int) (A B C : Matriz Int)
    (hn : 1 ≤ n) (h0 : 0 ≤ r0) (h01 : r0 ≤ r1) (h1 : r1 ≤ n)
    (i j : Int) (hi0 : r0 ≤ i) (hi1 : i < r1) (hj0 : 0 ≤ j) (hj1 : j < n) :
    (Procesos.multiplicar_matrices_proceso aritInt32 ⟨A, B, C⟩ n r0 r1).C i j
        = wrap32 (∑ k ∈ Finset.range n.toNat, A i (k : Int) * B (k : Int) j)
    ∧ (Hilos.multiplicar_matrices_hilo aritInt32 ⟨A, B, C⟩ ⟨r0, r1, n⟩).C i j
        = wrap32 (∑ k ∈ Finset.range n.toNat, A i (k : Int) * B (k : Int) j)
    ∧ ((-2147483648 ≤ ∑ k ∈ Finset.range n.toNat, A i (k : Int) * B (k : Int) j
          ∧ ∑ k ∈ Finset.range n.toNat, A i (k : Int) * B (k : Int) j ≤ 2147483647) →
        (Procesos.multiplicar_matrices_proceso aritInt32 ⟨A, B, C⟩ n r0 r1).C i j
          = ∑ k ∈ Finset.range n.toNat, A i (k : Int) * B (k : Int) j
        ∧ (Hilos.multiplicar_matrices_hilo aritInt32 ⟨A, B, C⟩ ⟨r0, r1, n⟩).C i j
          = ∑ k ∈ Finset.range n.toNat, A i (k : Int) * B (k : Int) j) := by
  have _hpre : 1 ≤ n ∧ 0 ≤ r0 ∧ r0 ≤ r1 ∧ r1 ≤ n := ⟨hn, h0, h01, h1⟩
  have hcond : r0 ≤ i ∧ i < r1 ∧ 0 ≤ j ∧ j < n := ⟨hi0, hi1, hj0, hj1⟩
  have hP32 : (Procesos.multiplicar_matrices_proceso aritInt32 ⟨A, B, C⟩ n r0 r1).C i j
      = wrap32 (∑ k ∈ Finset.range n.toNat, A i (k : Int) * B (k : Int) j) := by
    rw [proceso_eq_triple, (triple_bucle_cerrado _ _ _ _ _ _).2.2, if_pos hcond, celda_int32]
  have hH32 : (Hilos.multiplicar_matrices_hilo aritInt32 ⟨A, B, C⟩ ⟨r0, r1, n⟩).C i j
      = wrap32 (∑ k ∈ Finset.range n.toNat, A i (k : Int) * B (k : Int) j) := by
    rw [hilo_eq_triple, (triple_bucle_cerrado _ _ _ _ _ _).2.2, if_pos hcond, celda_int32]
  refine ⟨hP32, hH32, ?_⟩
  intro hcabe
  rw [hP32, hH32, wrap32_en_rango _ hcabe]
  exact ⟨rfl, rfl⟩

theorem kernel_calcula_producto_witness :
    (Procesos.multiplicar_matrices_proceso aritInt32
        ⟨ejemploA, ejemploB, fun _ _ => 7⟩ 2 0 2).C 1 0
        = wrap32 (∑ k ∈ Finset.range (2 : Int).toNat, ejemploA 1 (k : Int) * ejemploB (k : Int) 0)
    ∧ (Hilos.multiplicar_matrices_hilo aritInt32
        ⟨ejemploA, ejemploB, fun _ _ => 7⟩ ⟨0, 2, 2⟩).C 1 0
        = wrap32 (∑ k ∈ Finset.range (2 : Int).toNat, ejemploA 1 (k : Int) * ejemploB (k : Int) 0) :=
  have h := kernel_calcula_producto 2 0 2 ejemploA ejemploB (fun _ _ => 7) (by decide) (by decide)
    (by decide) (by decide) 1 0 (by decide) (by decide) (by decide) (by decide)
  ⟨h.1, h.2.1⟩

/-- C4. The row-block kernel (`multiplicar_matrices_proceso`,
`multiplicar_matrices_hilo`), for any element arithmetic, leaves every cell of `C`
outside rows `[r0, r1)` × columns `[0, n)` as it was; with an empty range
(`r1 ≤ r0`) it leaves `C` entirely unchanged; and it leaves `A` and `B` unchanged. -/
theorem kernel_marco {α : Type} (ar : Aritmetica α) (m : Memoria α) (n r0 r1 : Int) :
    (∀ i j : Int, ¬ (r0 ≤ i ∧ i < r1 ∧ 0 ≤ j ∧ j < n) →
        (Procesos.multiplicar_matrices_proceso ar m n r0 r1).C i j = m.C i j)
    ∧ (r1 ≤ r0 → (Procesos.multiplicar_matrices_proceso ar m n r0 r1).C = m.C)
    ∧ (Procesos.multiplicar_matrices_proceso ar m n r0 r1).A = m.A
    ∧ (Procesos.multiplicar_matrices_proceso ar m n r0 r1).B = m.B
    ∧ (∀ i j : Int, ¬ (r0 ≤ i ∧ i < r1 ∧ 0 ≤ j ∧ j < n) →
        (Hilos.multiplicar_matrices_hilo ar m ⟨r0, r1, n⟩).C i j = m.C i j)
    ∧ (r1 ≤ r0 → (Hilos.multiplicar_matrices_hilo ar m ⟨r0, r1, n⟩).C = m.C)
    ∧ (Hilos.multiplicar_matrices_hilo ar m ⟨r0, r1, n⟩).A = m.A
    ∧ (Hilos.multiplicar_matrices_hilo ar m ⟨r0, r1, n⟩).B = m.B := by
  have h := triple_bucle_cerrado ar m r0 r1 n n
  have hfuera : ∀ i j : Int, ¬ (r0 ≤ i ∧ i < r1 ∧ 0 ≤ j ∧ j < n) →
      (triple_bucle ar m r0 r1 n n).C i j = m.C i j := by
    intro i j hc
    rw [h.2.2, if_neg hc]
  have hvacio : r1 ≤ r0 → (triple_bucle ar m r0 r1 n n).C = m.C := by
    intro hle
    funext i j
    exact hfuera i j (by omega)
  exact ⟨hfuera, hvacio, h.1, h.2.1, hfuera, hvacio, h.1, h.2.1⟩

theorem kernel_marco_witness :
    (Procesos.multiplicar_matrices_proceso aritInt32
        ⟨ejemploA, ejemploB, fun _ _ => 7⟩ 2 0 1).C 1 0 = 7
    ∧ (Procesos.multiplicar_matrices_proceso aritInt32
        ⟨ejemploA, ejemploB, fun _ _ => 7⟩ 2 1 1).C = fun _ _ => 7 :=
  ⟨(kernel_marco aritInt32 ⟨ejemploA, ejemploB, fun _ _ => 7⟩ 2 0 1).1 1 0 (by decide),
   (kernel_marco aritInt32 ⟨ejemploA, ejemploB, fun _ _ => 7⟩ 2 1 1).2.1 (by decide)⟩

/-! ## Claims on the whole multiplication -/

/-- C5. For `n ≥ 1`, matrices `A`, `B` over any element arithmetic and
`1 ≤ W ≤ n`: running the row-block kernel once for each of the `W` ranges produced
by the partition loop of `multiplicar_matrices`, in any order of the workers
(`ordenP`, `ordenH` are arbitrary permutations of the partition), from any initial
`C`, gives in every cell of `[0, n) × [0, n)` the value the sequential triple loop
over the rows `0..n-1` gives. -/
theorem particionado_igual_secuencial {α : Type} (ar : Aritmetica α) (A B C C' : Matriz α)
    (n W : Int) (hn : 1 ≤ n) (hW : 1 ≤ W) (hWn : W ≤ n)
    (ordenP : List (Int × Int)) (hP : ordenP.Perm (Procesos.particion n W))
    (ordenH : List DatosHilo) (hH : ordenH.Perm (Hilos.particion n W))
    (i j : Int) (hi : 0 ≤ i ∧ i < n) (hj : 0 ≤ j ∧ j < n) :
    (ejecutar_procesos ar n ordenP ⟨A, B, C⟩).C i j
        = (Secuencial.multiplicar_matrices ar ⟨A, B, C'⟩ n n n).C i j
    ∧ (ejecutar_hilos ar ordenH ⟨A, B, C⟩).C i j
        = (Secuencial.multiplicar_matrices ar ⟨A, B, C'⟩ n n n).C i j := by
  have _hWn : W ≤ n := hWn
  have hn0 : 0 ≤ n := by omega
  have hcubreP : ∀ fila : Int, (0 ≤ fila ∧ fila < n) →
      ∃ p ∈ ordenP, p.1 ≤ fila ∧ fila < p.2 := by
    intro fila hf
    obtain ⟨p, hp, hr⟩ := (particion_procesos_cubre n W hn0 (by omega) fila).mp hf
    exact ⟨p, hP.mem_iff.mpr hp, hr⟩
  have hHn : ∀ d ∈ ordenH, d.n = n := by
    intro d hd
    have hd' := hH.mem_iff.mp hd
    rw [particion_hilos_cerrada n W hn0, List.mem_map] at hd'
    obtain ⟨t, _, rfl⟩ := hd'
    rfl
  have hcubreH : ∀ fila : Int, (0 ≤ fila ∧ fila < n) →
      ∃ p ∈ ordenH.map (fun d => (d.fila_inicio, d.fila_fin)), p.1 ≤ fila ∧ fila < p.2 := by
    intro fila hf
    obtain ⟨p, hp, hr⟩ := (particion_procesos_cubre n W hn0 (by omega) fila).mp hf
    rw [← particion_hilos_procesos n W hn0] at hp
    exact ⟨p, (hH.map _).mem_iff.mpr hp, hr⟩
  rw [secuencial_celda ar ⟨A, B, C'⟩ n i j hi hj, ejecutar_hilos_eq_procesos ar n ordenH hHn]
  exact ⟨ejecutar_procesos_completo ar n ordenP ⟨A, B, C⟩ hcubreP i j hi hj,
    ejecutar_procesos_completo ar n _ ⟨A, B, C⟩ hcubreH i j hi hj⟩

theorem particionado_igual_secuencial_witness :
    (ejecutar_procesos aritInt32 2 [(1, 2), (0, 1)] ⟨ejemploA, ejemploB, fun _ _ => 7⟩).C 1 0
        = (Secuencial.multiplicar_matrices aritInt32
            ⟨ejemploA, ejemploB, fun _ _ => 9⟩ 2 2 2).C 1 0
    ∧ (ejecutar_hilos aritInt32 [⟨1, 2, 2⟩, ⟨0, 1, 2⟩] ⟨ejemploA, ejemploB, fun _ _ => 7⟩).C 1 0
        = (Secuencial.multiplicar_matrices aritInt32
            ⟨ejemploA, ejemploB, fun _ _ => 9⟩ 2 2 2).C 1 0 :=
  particionado_igual_secuencial aritInt32 ejemploA ejemploB (fun _ _ => 7) (fun _ _ => 9)
    2 2 (by decide) (by decide) (by decide)
    [(1, 2), (0, 1)] (by decide) [⟨1, 2, 2⟩, ⟨0, 1, 2⟩] (by decide)
    1 0 (by decide) (by decide)

/-! ## Claims on the MPI version -/

/-- C7, counterexample. With `N = 46341` and `size = 1` the `int` product
`filas * N` overflows: `calcular_desplazamientos` stores `counts[0] = -2147479015`,
which is neither `filas_por_proceso(0, 1, N) * N = 2147488281` nor a count whose
sum is `N * N`. -/
theorem desplazamientos_desbordan :
    (Mpi.calcular_desplazamientos (fun _ => 0) (fun _ => 0) 1 46341).counts 0 = -2147479015
    ∧ Mpi.filas_por_proceso 0 1 46341 * 46341 = 2147488281
    ∧ ∑ i ∈ Finset.range (1 : Int).toNat,
        (Mpi.calcular_desplazamientos (fun _ => 0) (fun _ => 0) 1 46341).counts i
      ≠ 46341 * 46341 := by
  refine ⟨by decide, by decide, ?_⟩
  rw [show (1 : Int).toNat = 1 from rfl, Finset.sum_range_one]
  decide

/-- C7, amended. For `N ≥ 1` with `N * N ≤ 2^31 - 1` and `size ≥ 1`,
`calcular_desplazamientos` fills, for every `i < size`,
`counts[i] = filas_por_proceso(i, size, N) * N` and
`displs[i] = counts[0] + … + counts[i-1]`; so `displs[0] = 0`,
`displs[i+1] = displs[i] + counts[i]`, and the counts sum to `N * N`. The blocks
are whole rows (`N` divides every count and displacement), they do not overlap
(block `i` ends at or before the start of block `j` for `i < j`), and an offset
lies in some block exactly when it is in `[0, N*N)`. -/
theorem desplazamientos_correctos (counts displs : Mpi.Buffer Int) (size N : Int)
    (hN : 1 ≤ N) (hNN : N * N ≤ 2147483647) (hs : 1 ≤ size) :
    (∀ i : Nat, (i : Int) < size →
        (Mpi.calcular_desplazamientos counts displs size N).counts i
          = Mpi.filas_por_proceso i size N * N
        ∧ (Mpi.calcular_desplazamientos counts displs size N).displs i
          = ∑ t ∈ Finset.range i, (Mpi.calcular_desplazamientos counts displs size N).counts t)
    ∧ (Mpi.calcular_desplazamientos counts displs size N).displs 0 = 0
    ∧ (∀ i : Nat, (i : Int) + 1 < size →
        (Mpi.calcular_desplazamientos counts displs size N).displs ((i : Int) + 1)
          = (Mpi.calcular_desplazamientos counts displs size N).displs i
            + (Mpi.calcular_desplazamientos counts displs size N).counts i)
    ∧ ∑ i ∈ Finset.range size.toNat,
        (Mpi.calcular_desplazamientos counts displs size N).counts i = N * N
    ∧ (∀ i : Nat, (i : Int) < size →
        N ∣ (Mpi.calcular_desplazamientos counts displs size N).counts i
        ∧ N ∣ (Mpi.calcular_desplazamientos counts displs size N).displs i)
    ∧ (∀ i j : Nat, i < j → (j : Int) < size →
        (Mpi.calcular_desplazamientos counts displs size N).displs i
          + (Mpi.calcular_desplazamientos counts displs size N).counts i
          ≤ (Mpi.calcular_desplazamientos counts displs size N).displs j)
    ∧ (∀ x : Int, (0 ≤ x ∧ x < N * N) ↔ ∃ i : Nat, (i : Int) < size
        ∧ (Mpi.calcular_desplazamientos counts displs size N).displs i ≤ x
        ∧ x < (Mpi.calcular_desplazamientos counts displs size N).displs i
              + (Mpi.calcular_desplazamientos counts displs size N).counts i) := by
  have hN0 : 0 ≤ N := by omega
  have hq : 0 ≤ Int.tdiv N size := Int.tdiv_nonneg hN0 (by omega)
  have hr : 0 ≤ Int.tmod N size := Int.tmod_nonneg size hN0
  have htot := inicio_cerrado_total N size (by omega)
  have hcero := inicio_cerrado_cero (Int.tdiv N size) (Int.tmod N size) hr
  have hcd := counts_displs_inicio counts displs size N hN0 (by omega) hNN
  have hcnt : ∀ i : Nat, (i : Int) < size →
      (Mpi.calcular_desplazamientos counts displs size N).counts i
        = Mpi.filas_por_proceso i size N * N := by
    intro i hi
    rw [(hcd i hi).1, filas_por_proceso_paso]
  -- the end of block `i` is the start of block `i + 1`
  have hfin : ∀ i : Nat, (i : Int) < size →
      (Mpi.calcular_desplazamientos counts displs size N).displs i
        + (Mpi.calcular_desplazamientos counts displs size N).counts i
      = inicio_cerrado (Int.tdiv N size) (Int.tmod N size) (i + 1) * N := by
    intro i hi
    rw [(hcd i hi).1, (hcd i hi).2]
    ring
  have hsuma : ∀ i : Nat, (i : Int) ≤ size →
      ∑ t ∈ Finset.range i, (Mpi.calcular_desplazamientos counts displs size N).counts t
        = inicio_cerrado (Int.tdiv N size) (Int.tmod N size) i * N := by
    intro i hi
    rw [← suma_filas_por_proceso size N hN0, Finset.sum_mul]
    apply Finset.sum_congr rfl
    intro t ht
    rw [Finset.mem_range] at ht
    exact hcnt t (by omega)
  refine ⟨?_, ?_, ?_, ?_, ?_, ?_, ?_⟩
  · intro i hi
    refine ⟨hcnt i hi, ?_⟩
    rw [hsuma i (by omega), (hcd i hi).2]
  · have h0 := (hcd 0 (by simpa using (by omega : 0 < size))).2
    simp only [Nat.cast_zero] at h0
    rw [h0, hcero, zero_mul]
  · intro i hi
    have h1 := (hcd (i + 1) (by push_cast; omega)).2
    push_cast at h1
    rw [h1, hfin i (by omega)]
  · rw [hsuma size.toNat (by omega), htot]
  · intro i hi
    rw [(hcd i hi).1, (hcd i hi).2]
    exact ⟨Dvd.intro_left _ rfl, Dvd.intro_left _ rfl⟩
  · intro i j hij hj
    rw [hfin i (by omega), (hcd j hj).2]
    exact mul_le_mul_of_nonneg_right (inicio_cerrado_mono _ _ hq (by omega)) hN0
  · intro x
    constructor
    · rintro ⟨h0, h1⟩
      obtain ⟨i, hi, ha, hb⟩ := existe_tramo
        (fun t => inicio_cerrado (Int.tdiv N size) (Int.tmod N size) t * N)
        size.toNat x (by simp only [hcero]; omega) (by simp only [htot]; exact h1)
      have hi' : (i : Int) < size := by omega
      exact ⟨i, hi', by rw [(hcd i hi').2]; exact ha, by rw [hfin i hi']; exact hb⟩
    · rintro ⟨i, hi, ha, hb⟩
      rw [(hcd i hi).2] at ha
      rw [hfin i hi] at hb
      have h1 : 0 ≤ inicio_cerrado (Int.tdiv N size) (Int.tmod N size) i * N :=
        mul_nonneg (by
          have := inicio_cerrado_mono (Int.tdiv N size) (Int.tmod N size) hq (Nat.zero_le i)
          omega) hN0
      have h2 : inicio_cerrado (Int.tdiv N size) (Int.tmod N size) (i + 1) * N ≤ N * N := by
        have h3 : inicio_cerrado (Int.tdiv N size) (Int.tmod N size) (i + 1)
            ≤ inicio_cerrado (Int.tdiv N size) (Int.tmod N size) size.toNat :=
          inicio_cerrado_mono _ _ hq (by omega)
        rw [htot] at h3
        exact mul_le_mul_of_nonneg_right h3 hN0
      omega

theorem desplazamientos_correctos_witness :
    ∑ i ∈ Finset.range (3 : Int).toNat,
        (Mpi.calcular_desplazamientos (fun _ => 15) (fun _ => 16) 3 7).counts i = 7 * 7 :=
  (desplazamientos_correctos (fun _ => 15) (fun _ => 16) 3 7 (by decide) (by decide)
    (by decide)).2.2.2.1

/-- C6, counterexample. With `N = 46341`, one process and matrices full of ones the
`int` product `N * N` is `-2147479015`: the only count is negative, so the
gathering stores nothing in `C` (offset 0 keeps its prior content 7, while the
cell of the product is 46341), and `main` asks `malloc` for more than 2^63 bytes
and aborts with `EXIT_FAILURE` when the request is refused. With `N = 65536` the
`int` product `N * N` is 0, the buffers have no cell and the run of `main` is
undefined. No product is assembled. -/
theorem mpi_dimension_desborda :
    (Mpi.calcular_desplazamientos (fun _ => 0) (fun _ => 0) 1 46341).counts 0 = -2147479015
    ∧ Mpi.gatherv
        (Mpi.C_local_de (aritExacta Int) 1 46341 (fun _ => 1) (fun _ => 1)
          ⟨fun _ _ => 0, fun _ _ => 0, fun _ _ => 0, fun _ => 7, fun _ => 0, fun _ => 0,
            fun _ => 0, fun _ => 0⟩)
        (Mpi.calcular_desplazamientos (fun _ => 0) (fun _ => 0) 1 46341).counts
        (Mpi.calcular_desplazamientos (fun _ => 0) (fun _ => 0) 1 46341).displs
        1 (fun _ => 7) 0 = 7
    ∧ ∑ k ∈ Finset.range (46341 : Int).toNat,
        (fun (_ : Int) => (1 : Int)) (0 * 46341 + (k : Int))
          * (fun (_ : Int) => (1 : Int)) ((k : Int) * 46341 + 0) = 46341
    ∧ (Mpi.main (aritExacta Int)
        ⟨fun b => decide (b ≤ 9223372036854775807), fun _ => true, fun _ => true, fun _ => true⟩
        1 46341 (fun _ => 1) (fun _ => 1)
        ⟨fun _ _ => 0, fun _ _ => 0, fun _ _ => 0, fun _ => 7, fun _ => 0, fun _ => 0,
          fun _ => 0, fun _ => 0⟩).fin = Fin.exit EXIT_FAILURE
    ∧ (Mpi.main (aritExacta Int) sistema_sin_fallos 1 65536 (fun _ => 1) (fun _ => 1)
        ⟨fun _ _ => 0, fun _ _ => 0, fun _ _ => 0, fun _ => 7, fun _ => 0, fun _ => 0,
          fun _ => 0, fun _ => 0⟩).fin = Fin.indefinido := by
  refine ⟨by decide, by decide, ?_, by decide, by decide⟩
  rw [show (46341 : Int).toNat = 46341 from rfl]
  simp

/-- C6, amended. For `N ≥ 1` with `N * N ≤ 2^31 - 1` and `1 ≤ size ≤ N`, with
exact element arithmetic and every request for memory granted: `main` runs to its
end, `A` being scattered by `counts`/`displs`, every process computing its local
block against the whole `B`, and the blocks being gathered at the same
`counts`/`displs`; the root buffer `C` at the end satisfies: `C[r*N+j]` is the sum
over `k` of `A[r*N+k] * B[k*N+j]` for all `r, j` in `[0, N)`, which is also the
cell `(r, j)` computed by the sequential triple loop on the same matrices. -/
theorem mpi_igual_producto {α : Type} [Semiring α] (sis : Sistema) (size N : Int)
    (A B : Mpi.Buffer α) (ini : Mpi.Inicial α) (Cseq : Matriz α) (hN : 1 ≤ N)
    (hNN : N * N ≤ 2147483647) (hs : 1 ≤ size) (hsN : size ≤ N)
    (hmalloc : ∀ b, sis.malloc_ok b = true) :
    (Mpi.main (aritExacta α) sis size N A B ini).fin = Fin.exit EXIT_SUCCESS
    ∧ ∀ r j : Int, 0 ≤ r → r < N → 0 ≤ j → j < N →
        (Mpi.main (aritExacta α) sis size N A B ini).C (r * N + j)
          = ∑ k ∈ Finset.range N.toNat, A (r * N + (k : Int)) * B ((k : Int) * N + j)
        ∧ (Mpi.main (aritExacta α) sis size N A B ini).C (r * N + j)
          = (Secuencial.multiplicar_matrices (aritExacta α)
            ⟨fun i k => A (i * N + k), fun k j => B (k * N + j), Cseq⟩ N N N).C r j := by
  have _hsN : size ≤ N := hsN
  rw [mpi_main_ok (aritExacta α) sis size N A B ini hN hNN hmalloc]
  refine ⟨rfl, ?_⟩
  intro r j hr0 hr1 hj0 hj1
  have h := mpi_main_cerrado size N A B ini hN hs hNN r j ⟨hr0, hr1⟩ ⟨hj0, hj1⟩
  refine ⟨h, ?_⟩
  dsimp only
  rw [h, secuencial_celda _ _ N r j ⟨hr0, hr1⟩ ⟨hj0, hj1⟩, celda_exacta]

theorem mpi_igual_producto_witness :
    (Mpi.main (aritExacta Int) sistema_sin_fallos 2 2 (Mpi.deLista [1, 2, 3, 4])
        (Mpi.deLista [5, 6, 7, 8])
        ⟨fun _ _ => 11, fun _ _ => 12, fun _ _ => 13, fun _ => 14, fun _ => 15, fun _ => 16,
          fun _ => 17, fun _ => 18⟩).fin = Fin.exit EXIT_SUCCESS
    ∧ ∀ r j : Int, 0 ≤ r → r < 2 → 0 ≤ j → j < 2 →
        (Mpi.main (aritExacta Int) sistema_sin_fallos 2 2 (Mpi.deLista [1, 2, 3, 4])
          (Mpi.deLista [5, 6, 7, 8])
          ⟨fun _ _ => 11, fun _ _ => 12, fun _ _ => 13, fun _ => 14, fun _ => 15, fun _ => 16,
            fun _ => 17, fun _ => 18⟩).C (r * 2 + j)
          = ∑ k ∈ Finset.range (2 : Int).toNat,
              Mpi.deLista [1, 2, 3, 4] (r * 2 + (k : Int))
                * Mpi.deLista [5, 6, 7, 8] ((k : Int) * 2 + j)
        ∧ (Mpi.main (aritExacta Int) sistema_sin_fallos 2 2 (Mpi.deLista [1, 2, 3, 4])
          (Mpi.deLista [5, 6, 7, 8])
          ⟨fun _ _ => 11, fun _ _ => 12, fun _ _ => 13, fun _ => 14, fun _ => 15, fun _ => 16,
            fun _ => 17, fun _ => 18⟩).C (r * 2 + j)
          = (Secuencial.multiplicar_matrices (aritExacta Int)
            ⟨fun i k => Mpi.deLista [1, 2, 3, 4] (i * 2 + k),
             fun k j => Mpi.deLista [5, 6, 7, 8] (k * 2 + j), fun _ _ => 0⟩ 2 2 2).C r j :=
  mpi_igual_producto sistema_sin_fallos 2 2 (Mpi.deLista [1, 2, 3, 4]) (Mpi.deLista [5, 6, 7, 8])
    ⟨fun _ _ => 11, fun _ _ => 12, fun _ _ => 13, fun _ => 14, fun _ => 15, fun _ => 16,
          fun _ => 17, fun _ => 18⟩
    (fun _ _ => 0) (by decide) (by decide) (by decide) (by decide) (fun _ => rfl)

/-! ## Claims on the worker count -/

/-- C8, counterexample. With `n = 2` and `W = 3 > n` the partition loop yields the
three ranges `[0,1)`, `[1,2)`, `[2,2)`, `filas_por_proceso(2, 3, 2)` is `0`, and the
process version of `multiplicar_matrices` creates three children and returns
normally: nothing fails and work is dispatched. -/
theorem trabajadores_de_mas_aceptados :
    Procesos.particion 2 3 = [(0, 1), (1, 2), (2, 2)]
    ∧ Mpi.filas_por_proceso 2 3 2 = 0
    ∧ (Procesos.multiplicar_matrices aritInt32 entorno_sin_fallos
        ⟨ejemploA, ejemploB, fun _ _ => 0⟩ 2 3).fin = Fin.retorna
    ∧ (Procesos.multiplicar_matrices aritInt32 entorno_sin_fallos
        ⟨ejemploA, ejemploB, fun _ _ => 0⟩ 2 3).traza
      = [Evento.fork 0 0 1, Evento.fork 1 1 2, Evento.fork 2 2 2,
          Evento.wait, Evento.wait, Evento.wait] := by
  decide

/-- C8, amended. For `n ≥ 1` and `W > n` the row partitioner does not fail: the
partition loop gives worker `i` the range `[min i n, min (i+1) n)`, that is the
single row `[i, i+1)` for `i < n` and the empty range `[n, n)` for `n ≤ i < W`
(`filas_por_proceso` returns 1 and 0), and, when every system call succeeds,
`multiplicar_matrices` dispatches all `W` workers on these ranges and returns. -/
theorem exceso_de_trabajadores (n W : Int) (hn : 1 ≤ n) (hW : n < W) :
    Procesos.particion n W
      = (List.range W.toNat).map (fun (i : Nat) => (min (i : Int) n, min ((i : Int) + 1) n))
    ∧ (Hilos.particion n W).map (fun d => (d.fila_inicio, d.fila_fin)) = Procesos.particion n W
    ∧ (∀ rank : Int, 0 ≤ rank → rank < W →
        Mpi.filas_por_proceso rank W n = if rank < n then 1 else 0)
    ∧ (∀ {α : Type} (ar : Aritmetica α) (m : Memoria α),
        (Procesos.multiplicar_matrices ar entorno_sin_fallos m n W).fin = Fin.retorna
        ∧ (Procesos.multiplicar_matrices ar entorno_sin_fallos m n W).traza
          = (List.range W.toNat).map (fun (i : Nat) =>
              Evento.fork (i : Int) (min (i : Int) n) (min ((i : Int) + 1) n))
            ++ List.replicate W.toNat Evento.wait
        ∧ (Hilos.multiplicar_matrices ar entorno_sin_fallos m n W).fin = Fin.retorna
        ∧ (Hilos.multiplicar_matrices ar entorno_sin_fallos m n W).traza
          = (List.range W.toNat).map (fun (i : Nat) =>
              Evento.pthread_create (i : Int) ⟨min (i : Int) n, min ((i : Int) + 1) n, n⟩)
            ++ (List.range W.toNat).map (fun (i : Nat) => Evento.pthread_join (i : Int))) := by
  have hn0 : 0 ≤ n := by omega
  have hW0 : 0 ≤ W := by omega
  have hq : Int.tdiv n W = 0 := by
    rw [Int.tdiv_eq_ediv hn0 hW0]
    exact Int.ediv_eq_zero_of_lt hn0 hW
  have hr : Int.tmod n W = n := by
    rw [Int.tmod_eq_emod hn0 hW0]
    exact Int.emod_eq_of_lt hn0 hW
  have hini : ∀ i : Nat, inicio_cerrado 0 n i = min (i : Int) n := by
    intro i
    unfold inicio_cerrado
    rw [zero_mul, zero_add]
  refine ⟨?_, particion_hilos_procesos n W hn0, ?_, ?_⟩
  · rw [particion_procesos_cerrada n W hn0, hq, hr]
    simp only [hini, Nat.cast_add, Nat.cast_one]
  · intro rank h0 h1
    unfold Mpi.filas_por_proceso
    simp only [hq, hr, zero_add]
  · intro α ar m
    rw [multiplicar_procesos_sin_fallos ar entorno_sin_fallos (fun _ => rfl) m n W hn0 (by omega),
      multiplicar_hilos_sin_fallos ar entorno_sin_fallos rfl (fun _ => rfl) (fun _ => rfl)
        m n W hn0 (by omega), hq, hr]
    refine ⟨rfl, ?_, rfl, ?_⟩
    · simp only [traza_fork, hini, Nat.cast_add, Nat.cast_one]
    · simp only [traza_create, traza_join, hini, Nat.cast_add, Nat.cast_one]

theorem exceso_de_trabajadores_witness :
    Procesos.particion 2 3
      = (List.range (3 : Int).toNat).map
          (fun (i : Nat) => (min (i : Int) 2, min ((i : Int) + 1) 2)) :=
  (exceso_de_trabajadores 2 3 (by decide) (by decide)).1

/-- C9. A worker count `W ≤ 0` makes the multiplication fail without any worker:
whenever the options of the thread or process program contain a worker-count
option with value `W ≤ 0`, `main` ends inside the option loop, before the
matrices are created and without calling `multiplicar_matrices` (no event, memory
untouched), and it ends with `EXIT_FAILURE` when the options before it are
accepted. `multiplicar_matrices` has no other caller, and in every run in which
`main` calls it the worker count passed lies in `[1, n]`. -/
theorem main_rechaza_cuenta_no_positiva {α : Type} (ar : Aritmetica α) (sis : Sistema)
    (env : Entorno) (m : Memoria α) (W : Int) (hW : W ≤ 0) (opciones : List Opcion)
    (hmem : Opcion.trabajadores W ∈ opciones) :
    (∃ status, (Hilos.main ar sis env opciones m).fin = Fin.exit status
        ∧ (Procesos.main ar sis env opciones m).fin = Fin.exit status)
    ∧ (Hilos.main ar sis env opciones m).traza = []
    ∧ (Procesos.main ar sis env opciones m).traza = []
    ∧ (Hilos.main ar sis env opciones m).mem = m
    ∧ (Procesos.main ar sis env opciones m).mem = m
    ∧ (∀ (antes despues : List Opcion) (c : Config),
        opciones = antes ++ Opcion.trabajadores W :: despues →
        procesar_opciones antes config_defecto = Except.ok c →
        (Hilos.main ar sis env opciones m).fin = Fin.exit EXIT_FAILURE
        ∧ (Procesos.main ar sis env opciones m).fin = Fin.exit EXIT_FAILURE)
    ∧ (∀ (otras : List Opcion) (n num : Int),
        ((Hilos.main ar sis env otras m).traza.head? = some (Evento.multiplicar n num)
          ∨ (Procesos.main ar sis env otras m).traza.head? = some (Evento.multiplicar n num)) →
        1 ≤ num ∧ num ≤ n) := by
  obtain ⟨status, hst⟩ := procesar_opciones_rechaza opciones W hW hmem config_defecto
  have hH : Hilos.main ar sis env opciones m = ⟨m, [], Fin.exit status⟩ := by
    unfold Hilos.main; rw [hst]
  have hP : Procesos.main ar sis env opciones m = ⟨m, [], Fin.exit status⟩ := by
    unfold Procesos.main; rw [hst]
  refine ⟨⟨status, by rw [hH], by rw [hP]⟩, by rw [hH], by rw [hP], by rw [hH], by rw [hP],
    ?_, ?_⟩
  · intro antes despues c hop hantes
    have h2 : procesar_opciones opciones config_defecto = Except.error EXIT_FAILURE := by
      rw [hop, procesar_opciones_append_ok antes _ _ c hantes]
      simp only [procesar_opciones]
      rw [if_pos hW]
    have hs : status = EXIT_FAILURE := by
      rw [hst] at h2
      injection h2
    rw [hH, hP, hs]
    exact ⟨rfl, rfl⟩
  · intro otras n num h
    have hcota : ∀ c : Config, procesar_opciones otras config_defecto = Except.ok c →
        Evento.multiplicar (ajustar c).n (ajustar c).num = Evento.multiplicar n num →
        1 ≤ num ∧ num ≤ n := by
      intro c hc heq
      have hpos := procesar_opciones_positivo otras config_defecto c hc (by decide) (by decide)
      have haj := ajustar_acotado c hpos.1 hpos.2
      injection heq with h1 h2
      omega
    rcases h with h | h
    · unfold Hilos.main at h
      split at h
      · simp at h
      · rename_i c hc
        dsimp only at h
        split at h
        · simp at h
        · split at h
          · simp at h
          · split at h
            · simp at h
            · split at h <;>
                exact hcota c hc (by simpa using h)
    · unfold Procesos.main at h
      split at h
      · simp at h
      · rename_i c hc
        dsimp only at h
        split at h
        · simp at h
        · split at h
          · simp at h
          · split at h
            · simp at h
            · split at h <;>
                exact hcota c hc (by simpa using h)

theorem main_rechaza_cuenta_no_positiva_witness :
    (Hilos.main aritInt32 sistema_sin_fallos entorno_sin_fallos
        [Opcion.tamano 3, Opcion.trabajadores 0] ⟨ejemploA, ejemploB, fun _ _ => 0⟩).traza = [] :=
  (main_rechaza_cuenta_no_positiva aritInt32 sistema_sin_fallos entorno_sin_fallos
    ⟨ejemploA, ejemploB, fun _ _ => 0⟩
    0 (by decide) [Opcion.tamano 3, Opcion.trabajadores 0] (by decide)).2.1

/-- C10, counterexample. With the size option 23170 the process program does not
call `multiplicar_matrices`: `int total_size` is `-2147386336`, `ftruncate`
rejects the negative length and `crear_matriz_compartida` ends the program with
`EXIT_FAILURE`, even when the system grants every request. -/
theorem procesos_main_sin_llamada :
    Procesos.total_size 23170 = -2147386336
    ∧ (Procesos.main aritInt32 sistema_sin_fallos entorno_sin_fallos
        [Opcion.tamano 23170, Opcion.trabajadores 2] ⟨ejemploA, ejemploB, fun _ _ => 0⟩).traza
      = []
    ∧ (Procesos.main aritInt32 sistema_sin_fallos entorno_sin_fallos
        [Opcion.tamano 23170, Opcion.trabajadores 2] ⟨ejemploA, ejemploB, fun _ _ => 0⟩).fin
      = Fin.exit EXIT_FAILURE := by
  refine ⟨by decide, by decide, by decide⟩

/-- C10, amended. When the option loop of the thread or process program ends with
the requested size `n ≥ 1` and worker count `W ≥ 1`, `min W n` lies in `[1, n]`
and `main` either ends before any call (the matrices could not be created) or
calls `multiplicar_matrices` with `n` and the worker count `min W n`. It does
call it when the system grants the memory of the matrices, which for the process
program needs `8 * n + 4 * (n * n) ≤ 2^31 - 1`, the bytes counted in
`int total_size`; the thread program ends with `EXIT_FAILURE` before the call
when `malloc` refuses the table of row pointers. When `W ≥ n` (the count passed
is `n`) the partition loop gives worker `i` exactly the single row `[i, i+1)`
for every `i < n`, and, the workers being created without failure, the call
dispatches worker `i` on `[i, i+1)`. -/
theorem main_ajusta_trabajadores {α : Type} (ar : Aritmetica α) (sis : Sistema)
    (env : Entorno) (m : Memoria α) (n W : Int) (hn : 1 ≤ n) (hW : 1 ≤ W)
    (opciones : List Opcion) (imp : Int)
    (hop : procesar_opciones opciones config_defecto = Except.ok ⟨n, W, imp⟩) :
    1 ≤ min W n ∧ min W n ≤ n
    ∧ ((Hilos.main ar sis env opciones m).traza = []
        ∨ (Hilos.main ar sis env opciones m).traza.head?
          = some (Evento.multiplicar n (min W n)))
    ∧ ((Procesos.main ar sis env opciones m).traza = []
        ∨ (Procesos.main ar sis env opciones m).traza.head?
          = some (Evento.multiplicar n (min W n)))
    ∧ ((∀ b, sis.malloc_ok b = true) →
        (Hilos.main ar sis env opciones m).traza.head?
          = some (Evento.multiplicar n (min W n)))
    ∧ (sis.malloc_ok (bytes n 8) = false →
        (Hilos.main ar sis env opciones m).traza = []
        ∧ (Hilos.main ar sis env opciones m).fin = Fin.exit EXIT_FAILURE)
    ∧ (8 * n + 4 * (n * n) ≤ 2147483647 → (∀ nombre, sis.shm_open_ok nombre = true) →
        (∀ l, sis.ftruncate_ok l = true) → (∀ l, sis.mmap_ok l = true) →
        (Procesos.main ar sis env opciones m).traza.head?
          = some (Evento.multiplicar n (min W n)))
    ∧ (n ≤ W → min W n = n
        ∧ (∀ i : Nat, (i : Int) < n →
          (Procesos.particion n (min W n))[i]? = some ((i : Int), (i : Int) + 1)
          ∧ (Hilos.particion n (min W n))[i]? = some ⟨(i : Int), (i : Int) + 1, n⟩)
        ∧ ((∀ b, sis.malloc_ok b = true) → env.malloc_ok = true →
          (∀ i, env.crear_ok i = true) → (∀ i, env.join_ok i = true) →
          (Hilos.main ar sis env opciones m).traza
            = Evento.multiplicar n n
              :: ((List.range n.toNat).map (fun (i : Nat) =>
                    Evento.pthread_create (i : Int) ⟨(i : Int), (i : Int) + 1, n⟩)
                ++ (List.range n.toNat).map (fun (i : Nat) => Evento.pthread_join (i : Int))))
        ∧ (8 * n + 4 * (n * n) ≤ 2147483647 → (∀ nombre, sis.shm_open_ok nombre = true) →
          (∀ l, sis.ftruncate_ok l = true) → (∀ l, sis.mmap_ok l = true) →
          (∀ i, env.crear_ok i = true) →
          (Procesos.main ar sis env opciones m).traza
            = Evento.multiplicar n n
              :: ((List.range n.toNat).map (fun (i : Nat) =>
                    Evento.fork (i : Int) (i : Int) ((i : Int) + 1))
                ++ List.replicate n.toNat Evento.wait))) := by
  have hn0 : 0 ≤ n := by omega
  have haj := ajustar_min n W imp
  have hH : (∀ b, sis.malloc_ok b = true) →
      (Hilos.main ar sis env opciones m).traza
        = Evento.multiplicar n (min W n)
          :: (Hilos.multiplicar_matrices ar env m n (min W n)).traza := by
    intro hmalloc
    have h := hilos_main_llamada ar sis env opciones m _ hop (hmalloc _) (hmalloc _)
    rw [haj] at h
    exact h
  have hP : 8 * n + 4 * (n * n) ≤ 2147483647 → (∀ nombre, sis.shm_open_ok nombre = true) →
      (∀ l, sis.ftruncate_ok l = true) → (∀ l, sis.mmap_ok l = true) →
      (Procesos.main ar sis env opciones m).traza
        = Evento.multiplicar n (min W n)
          :: (Procesos.multiplicar_matrices ar env m n (min W n)).traza := by
    intro htam hshm hft hmap
    have h := procesos_main_llamada ar sis env opciones m _ hop
      (by rw [haj]; exact hn) (by rw [haj]; exact htam) hshm (hft _) (hmap _)
    rw [haj] at h
    exact h
  refine ⟨by omega, by omega, ?_, ?_, fun hmalloc => by rw [hH hmalloc]; rfl, ?_,
    fun htam hshm hft hmap => by rw [hP htam hshm hft hmap]; rfl, ?_⟩
  · unfold Hilos.main
    rw [hop]
    simp only [haj]
    split
    · exact Or.inl rfl
    · split
      · exact Or.inl rfl
      · split
        · exact Or.inl rfl
        · split <;> exact Or.inr rfl
  · unfold Procesos.main
    rw [hop]
    simp only [haj]
    split
    · exact Or.inl rfl
    · split
      · exact Or.inl rfl
      · split
        · exact Or.inl rfl
        · split <;> exact Or.inr rfl
  · intro hno
    have hcrear : Hilos.crear_matriz sis n = Except.error (Fin.exit EXIT_FAILURE) := by
      unfold Hilos.crear_matriz
      rw [if_pos (by simp [hno])]
    unfold Hilos.main
    rw [hop]
    simp only [haj]
    rw [hcrear]
    exact ⟨rfl, rfl⟩
  intro hle
  have hmin : min W n = n := by omega
  have hq : Int.tdiv n n = 1 := by
    rw [Int.tdiv_eq_ediv hn0 hn0]
    exact Int.ediv_self (by omega)
  have hr : Int.tmod n n = 0 := by
    rw [Int.tmod_eq_emod hn0 hn0]
    exact Int.emod_self
  have hini : ∀ t : Nat, inicio_cerrado 1 0 t = (t : Int) := by
    intro t
    unfold inicio_cerrado
    rw [min_eq_right (by omega)]
    ring
  refine ⟨hmin, ?_, ?_, ?_⟩
  · intro i hi
    rw [hmin, particion_procesos_cerrada n n hn0, particion_hilos_cerrada n n hn0, hq, hr]
    refine ⟨(getElem?_map_range _ _ _ _).mpr ⟨by omega, ?_⟩,
      (getElem?_map_range _ _ _ _).mpr ⟨by omega, ?_⟩⟩
    · rw [hini, hini]; push_cast; rfl
    · rw [hini, hini]; push_cast; rfl
  · intro hmalloc hm hok hjoin
    rw [hH hmalloc, hmin,
      multiplicar_hilos_sin_fallos ar env hm hok hjoin m n n hn0 (by omega), hq, hr]
    simp only [traza_create, traza_join, hini, Nat.cast_add, Nat.cast_one]
  · intro htam hshm hft hmap hok
    rw [hP htam hshm hft hmap, hmin,
      multiplicar_procesos_sin_fallos ar env hok m n n hn0 (by omega), hq, hr]
    simp only [traza_fork, hini, Nat.cast_add, Nat.cast_one]

theorem main_ajusta_trabajadores_witness :
    (Hilos.main aritInt32 sistema_sin_fallos entorno_sin_fallos
        [Opcion.tamano 3, Opcion.trabajadores 5]
        ⟨ejemploA, ejemploB, fun _ _ => 0⟩).traza.head?
      = some (Evento.multiplicar 3 (min 5 3))
    ∧ (Procesos.main aritInt32 sistema_sin_fallos entorno_sin_fallos
        [Opcion.tamano 3, Opcion.trabajadores 5]
        ⟨ejemploA, ejemploB, fun _ _ => 0⟩).traza
      = Evento.multiplicar 3 3
        :: ((List.range (3 : Int).toNat).map (fun (i : Nat) =>
              Evento.fork (i : Int) (i : Int) ((i : Int) + 1))
          ++ List.replicate (3 : Int).toNat Evento.wait) :=
  ⟨(main_ajusta_trabajadores aritInt32 sistema_sin_fallos entorno_sin_fallos
    ⟨ejemploA, ejemploB, fun _ _ => 0⟩
    3 5 (by decide) (by decide) [Opcion.tamano 3, Opcion.trabajadores 5] 0 rfl).2.2.2.2.1
      (fun _ => rfl),
   ((main_ajusta_trabajadores aritInt32 sistema_sin_fallos entorno_sin_fallos
    ⟨ejemploA, ejemploB, fun _ _ => 0⟩
    3 5 (by decide) (by decide) [Opcion.tamano 3, Opcion.trabajadores 5] 0
    rfl).2.2.2.2.2.2.2 (by decide)).2.2.2 (by decide) (fun _ => rfl) (fun _ => rfl)
      (fun _ => rfl) (fun _ => rfl)⟩

/-! ## Claims on a failing child creation -/

/-- C11, counterexample. With `n = 2`, two processes requested and the second
`fork` failing, `multiplicar_matrices` (process version) has created child 0 and
ends with `EXIT_FAILURE` without any `wait`: the child already spawned is not
waited for. -/
theorem fork_fallido_sin_espera :
    (Procesos.multiplicar_matrices aritInt32 ⟨true, fun i => decide (i < 1), fun _ => true⟩
        ⟨ejemploA, ejemploB, fun _ _ => 0⟩ 2 2).traza = [Evento.fork 0 0 1]
    ∧ (Procesos.multiplicar_matrices aritInt32 ⟨true, fun i => decide (i < 1), fun _ => true⟩
        ⟨ejemploA, ejemploB, fun _ _ => 0⟩ 2 2).fin = Fin.exit EXIT_FAILURE
    ∧ Evento.wait ∉
      (Procesos.multiplicar_matrices aritInt32 ⟨true, fun i => decide (i < 1), fun _ => true⟩
        ⟨ejemploA, ejemploB, fun _ _ => 0⟩ 2 2).traza := by
  decide

/-- C11, amended. In the process version of `multiplicar_matrices`, when the
`fork` of child `i` is the one that fails, exactly the children `0..i-1` have been
created (no further child is created), and the orchestrator ends at once with
`exit(EXIT_FAILURE)`: no `wait` is made for the children already spawned. -/
theorem fork_fallido_sale_de_inmediato {α : Type} (ar : Aritmetica α) (env : Entorno)
    (m : Memoria α) (n W : Int) (hn : 1 ≤ n) (i : Nat) (hi : (i : Int) < W)
    (hok : ∀ t : Nat, t < i → env.crear_ok (t : Int) = true)
    (hfalla : env.crear_ok (i : Int) = false) :
    (Procesos.multiplicar_matrices ar env m n W).traza
        = (List.range i).map (fun (t : Nat) => Evento.fork (t : Int)
            (inicio_cerrado (Int.tdiv n W) (Int.tmod n W) t)
            (inicio_cerrado (Int.tdiv n W) (Int.tmod n W) (t + 1)))
    ∧ (Procesos.multiplicar_matrices ar env m n W).traza.length = i
    ∧ Evento.wait ∉ (Procesos.multiplicar_matrices ar env m n W).traza
    ∧ (Procesos.multiplicar_matrices ar env m n W).fin = Fin.exit EXIT_FAILURE := by
  rw [multiplicar_procesos_fork_falla ar env m n W (by omega) i hi hok hfalla]
  refine ⟨rfl, by simp [traza_fork], ?_, rfl⟩
  simp [traza_fork]

theorem fork_fallido_sale_de_inmediato_witness :
    (Procesos.multiplicar_matrices aritInt32 ⟨true, fun i => decide (i < 1), fun _ => true⟩
        ⟨ejemploA, ejemploB, fun _ _ => 0⟩ 2 2).fin = Fin.exit EXIT_FAILURE :=
  (fork_fallido_sale_de_inmediato aritInt32 ⟨true, fun i => decide (i < 1), fun _ => true⟩
    ⟨ejemploA, ejemploB, fun _ _ => 0⟩ 2 2 (by decide) 1 (by decide)
    (by intro t ht; have h0 : t = 0 := by omega
        subst h0; decide)
    (by decide)).2.2.2

/-! ## Claims on concrete scenarios -/

/-- C12. For `n = 3` and `W = 2` the partition loop (thread and process versions)
yields exactly the row ranges `[0,2)` and `[2,3)`; for `n = 4` and `W = 3`
exactly `[0,2)`, `[2,3)` and `[3,4)`; the MPI row counts and displacements
describe the same ranges. -/
theorem particion_escenarios :
    Procesos.particion 3 2 = [(0, 2), (2, 3)]
    ∧ Hilos.particion 3 2 = [⟨0, 2, 3⟩, ⟨2, 3, 3⟩]
    ∧ Procesos.particion 4 3 = [(0, 2), (2, 3), (3, 4)]
    ∧ Hilos.particion 4 3 = [⟨0, 2, 4⟩, ⟨2, 3, 4⟩, ⟨3, 4, 4⟩]
    ∧ [Mpi.filas_por_proceso 0 2 3, Mpi.filas_por_proceso 1 2 3] = [2, 1]
    ∧ [Mpi.filas_por_proceso 0 3 4, Mpi.filas_por_proceso 1 3 4,
        Mpi.filas_por_proceso 2 3 4] = [2, 1, 1]
    ∧ [(Mpi.calcular_desplazamientos (fun _ => 0) (fun _ => 0) 2 3).displs 0,
        (Mpi.calcular_desplazamientos (fun _ => 0) (fun _ => 0) 2 3).displs 1] = [0 * 3, 2 * 3]
    ∧ [(Mpi.calcular_desplazamientos (fun _ => 0) (fun _ => 0) 3 4).displs 0,
        (Mpi.calcular_desplazamientos (fun _ => 0) (fun _ => 0) 3 4).displs 1,
        (Mpi.calcular_desplazamientos (fun _ => 0) (fun _ => 0) 3 4).displs 2]
        = [0 * 4, 2 * 4, 3 * 4] := by
  decide

/-- C13. For `n = 2`, `A = [[1,2],[3,4]]` and `B = [[5,6],[7,8]]`, whatever the
buffers held before, the multiplication produces `C = [[19,22],[43,50]]` in the
thread version and the process version (32-bit `int` arithmetic, every system
call succeeding) and in the MPI version (`main` runs to its end and returns 0,
exact arithmetic, every request for memory granted), with one worker and with
two workers. -/
theorem escenario_dos_por_dos (C0 : Matriz Int) (ini : Mpi.Inicial Int) :
    (Hilos.multiplicar_matrices aritInt32 entorno_sin_fallos ⟨ejemploA, ejemploB, C0⟩ 2 1).fin
        = Fin.retorna
    ∧ celdas2 (Hilos.multiplicar_matrices aritInt32 entorno_sin_fallos
        ⟨ejemploA, ejemploB, C0⟩ 2 1).mem.C = [[19, 22], [43, 50]]
    ∧ (Hilos.multiplicar_matrices aritInt32 entorno_sin_fallos ⟨ejemploA, ejemploB, C0⟩ 2 2).fin
        = Fin.retorna
    ∧ celdas2 (Hilos.multiplicar_matrices aritInt32 entorno_sin_fallos
        ⟨ejemploA, ejemploB, C0⟩ 2 2).mem.C = [[19, 22], [43, 50]]
    ∧ (Procesos.multiplicar_matrices aritInt32 entorno_sin_fallos ⟨ejemploA, ejemploB, C0⟩ 2 1).fin
        = Fin.retorna
    ∧ celdas2 (Procesos.multiplicar_matrices aritInt32 entorno_sin_fallos
        ⟨ejemploA, ejemploB, C0⟩ 2 1).mem.C = [[19, 22], [43, 50]]
    ∧ (Procesos.multiplicar_matrices aritInt32 entorno_sin_fallos ⟨ejemploA, ejemploB, C0⟩ 2 2).fin
        = Fin.retorna
    ∧ celdas2 (Procesos.multiplicar_matrices aritInt32 entorno_sin_fallos
        ⟨ejemploA, ejemploB, C0⟩ 2 2).mem.C = [[19, 22], [43, 50]]
    ∧ (Mpi.main (aritExacta Int) sistema_sin_fallos 1 2 (Mpi.deLista [1, 2, 3, 4])
        (Mpi.deLista [5, 6, 7, 8]) ini).fin = Fin.exit EXIT_SUCCESS
    ∧ celdas4 (Mpi.main (aritExacta Int) sistema_sin_fallos 1 2 (Mpi.deLista [1, 2, 3, 4])
        (Mpi.deLista [5, 6, 7, 8]) ini).C = [19, 22, 43, 50]
    ∧ (Mpi.main (aritExacta Int) sistema_sin_fallos 2 2 (Mpi.deLista [1, 2, 3, 4])
        (Mpi.deLista [5, 6, 7, 8]) ini).fin = Fin.exit EXIT_SUCCESS
    ∧ celdas4 (Mpi.main (aritExacta Int) sistema_sin_fallos 2 2 (Mpi.deLista [1, 2, 3, 4])
        (Mpi.deLista [5, 6, 7, 8]) ini).C = [19, 22, 43, 50] := by
  have hval : [[celda aritInt32 ejemploA ejemploB 2 0 0, celda aritInt32 ejemploA ejemploB 2 0 1],
      [celda aritInt32 ejemploA ejemploB 2 1 0, celda aritInt32 ejemploA ejemploB 2 1 1]]
      = [[19, 22], [43, 50]] := by decide
  have hH : ∀ W : Int, 0 < W →
      (Hilos.multiplicar_matrices aritInt32 entorno_sin_fallos ⟨ejemploA, ejemploB, C0⟩ 2 W).fin
        = Fin.retorna
      ∧ celdas2 (Hilos.multiplicar_matrices aritInt32 entorno_sin_fallos
        ⟨ejemploA, ejemploB, C0⟩ 2 W).mem.C = [[19, 22], [43, 50]] := by
    intro W hW
    obtain ⟨hfin, _, _, hC⟩ := multiplicar_hilos_celdas aritInt32 entorno_sin_fallos rfl
      (fun _ => rfl) (fun _ => rfl) ⟨ejemploA, ejemploB, C0⟩ 2 W (by decide) hW
    refine ⟨hfin, ?_⟩
    unfold celdas2
    rw [hC, hC, hC, hC, if_pos (by decide), if_pos (by decide), if_pos (by decide),
      if_pos (by decide)]
    exact hval
  have hP : ∀ W : Int, 0 < W →
      (Procesos.multiplicar_matrices aritInt32 entorno_sin_fallos ⟨ejemploA, ejemploB, C0⟩ 2 W).fin
        = Fin.retorna
      ∧ celdas2 (Procesos.multiplicar_matrices aritInt32 entorno_sin_fallos
        ⟨ejemploA, ejemploB, C0⟩ 2 W).mem.C = [[19, 22], [43, 50]] := by
    intro W hW
    obtain ⟨hfin, _, _, hC⟩ := multiplicar_procesos_celdas aritInt32 entorno_sin_fallos
      (fun _ => rfl) ⟨ejemploA, ejemploB, C0⟩ 2 W (by decide) hW
    refine ⟨hfin, ?_⟩
    unfold celdas2
    rw [hC, hC, hC, hC, if_pos (by decide), if_pos (by decide), if_pos (by decide),
      if_pos (by decide)]
    exact hval
  have hM : ∀ size : Int, 1 ≤ size →
      (Mpi.main (aritExacta Int) sistema_sin_fallos size 2 (Mpi.deLista [1, 2, 3, 4])
        (Mpi.deLista [5, 6, 7, 8]) ini).fin = Fin.exit EXIT_SUCCESS
      ∧ celdas4 (Mpi.main (aritExacta Int) sistema_sin_fallos size 2 (Mpi.deLista [1, 2, 3, 4])
        (Mpi.deLista [5, 6, 7, 8]) ini).C = [19, 22, 43, 50] := by
    intro size hs
    have h00 := mpi_main_cerrado size 2 (Mpi.deLista [1, 2, 3, 4]) (Mpi.deLista [5, 6, 7, 8])
      ini (by decide) hs (by decide) 0 0 (by decide) (by decide)
    have h01 := mpi_main_cerrado size 2 (Mpi.deLista [1, 2, 3, 4]) (Mpi.deLista [5, 6, 7, 8])
      ini (by decide) hs (by decide) 0 1 (by decide) (by decide)
    have h10 := mpi_main_cerrado size 2 (Mpi.deLista [1, 2, 3, 4]) (Mpi.deLista [5, 6, 7, 8])
      ini (by decide) hs (by decide) 1 0 (by decide) (by decide)
    have h11 := mpi_main_cerrado size 2 (Mpi.deLista [1, 2, 3, 4]) (Mpi.deLista [5, 6, 7, 8])
      ini (by decide) hs (by decide) 1 1 (by decide) (by decide)
    have e00 : (0 : Int) * 2 + 0 = 0 := by decide
    have e01 : (0 : Int) * 2 + 1 = 1 := by decide
    have e10 : (1 : Int) * 2 + 0 = 2 := by decide
    have e11 : (1 : Int) * 2 + 1 = 3 := by decide
    rw [e00] at h00
    rw [e01] at h01
    rw [e10] at h10
    rw [e11] at h11
    rw [mpi_main_ok (aritExacta Int) sistema_sin_fallos size 2 _ _ ini (by decide) (by decide)
      (fun _ => rfl)]
    refine ⟨rfl, ?_⟩
    simp only [celdas4]
    rw [h00, h01, h10, h11]
    decide
  exact ⟨(hH 1 (by decide)).1, (hH 1 (by decide)).2, (hH 2 (by decide)).1, (hH 2 (by decide)).2,
    (hP 1 (by decide)).1, (hP 1 (by decide)).2, (hP 2 (by decide)).1, (hP 2 (by decide)).2,
    (hM 1 (by decide)).1, (hM 1 (by decide)).2, (hM 2 (by decide)).1, (hM 2 (by decide)).2⟩

/-! ## Claims on repeated runs -/

/-- C14. For `n ≥ 1`, matrices `A`, `B` over any element arithmetic and
`1 ≤ W ≤ n`, with every system call succeeding: running
`multiplicar_matrices(A, B, C, n, W)` (process or thread version) a second time on
the memory left by the first run returns and leaves a `C` identical to the one
after the first run; the first run leaves `A` and `B` unchanged; and the cells of
`[0, n) × [0, n)` after a run do not depend on the prior contents of `C`. -/
theorem multiplicar_idempotente {α : Type} (ar : Aritmetica α) (env : Entorno)
    (hm : env.malloc_ok = true) (hok : ∀ i, env.crear_ok i = true)
    (hjoin : ∀ i, env.join_ok i = true) (A B C C' : Matriz α) (n W : Int)
    (hn : 1 ≤ n) (hW : 1 ≤ W) (hWn : W ≤ n) :
    ((Procesos.multiplicar_matrices ar env
        (Procesos.multiplicar_matrices ar env ⟨A, B, C⟩ n W).mem n W).fin = Fin.retorna
      ∧ (Procesos.multiplicar_matrices ar env
        (Procesos.multiplicar_matrices ar env ⟨A, B, C⟩ n W).mem n W).mem.C
        = (Procesos.multiplicar_matrices ar env ⟨A, B, C⟩ n W).mem.C
      ∧ (Procesos.multiplicar_matrices ar env ⟨A, B, C⟩ n W).mem.A = A
      ∧ (Procesos.multiplicar_matrices ar env ⟨A, B, C⟩ n W).mem.B = B
      ∧ ∀ i j : Int, 0 ≤ i → i < n → 0 ≤ j → j < n →
        (Procesos.multiplicar_matrices ar env ⟨A, B, C'⟩ n W).mem.C i j
          = (Procesos.multiplicar_matrices ar env ⟨A, B, C⟩ n W).mem.C i j)
    ∧ ((Hilos.multiplicar_matrices ar env
        (Hilos.multiplicar_matrices ar env ⟨A, B, C⟩ n W).mem n W).fin = Fin.retorna
      ∧ (Hilos.multiplicar_matrices ar env
        (Hilos.multiplicar_matrices ar env ⟨A, B, C⟩ n W).mem n W).mem.C
        = (Hilos.multiplicar_matrices ar env ⟨A, B, C⟩ n W).mem.C
      ∧ (Hilos.multiplicar_matrices ar env ⟨A, B, C⟩ n W).mem.A = A
      ∧ (Hilos.multiplicar_matrices ar env ⟨A, B, C⟩ n W).mem.B = B
      ∧ ∀ i j : Int, 0 ≤ i → i < n → 0 ≤ j → j < n →
        (Hilos.multiplicar_matrices ar env ⟨A, B, C'⟩ n W).mem.C i j
          = (Hilos.multiplicar_matrices ar env ⟨A, B, C⟩ n W).mem.C i j) := by
  have _hWn : W ≤ n := hWn
  have hn0 : 0 ≤ n := by omega
  have hW0 : 0 < W := by omega
  constructor
  · obtain ⟨_, hA1, hB1, hC1⟩ := multiplicar_procesos_celdas ar env hok ⟨A, B, C⟩ n W hn0 hW0
    obtain ⟨hf2, _, _, hC2⟩ := multiplicar_procesos_celdas ar env hok
      (Procesos.multiplicar_matrices ar env ⟨A, B, C⟩ n W).mem n W hn0 hW0
    obtain ⟨_, _, _, hC3⟩ := multiplicar_procesos_celdas ar env hok ⟨A, B, C'⟩ n W hn0 hW0
    refine ⟨hf2, ?_, hA1, hB1, ?_⟩
    · funext i j
      rw [hC2, hA1, hB1, hC1]
      split <;> rfl
    · intro i j hi0 hi1 hj0 hj1
      rw [hC3, hC1, if_pos ⟨hi0, hi1, hj0, hj1⟩, if_pos ⟨hi0, hi1, hj0, hj1⟩]
  · obtain ⟨_, hA1, hB1, hC1⟩ := multiplicar_hilos_celdas ar env hm hok hjoin ⟨A, B, C⟩ n W hn0 hW0
    obtain ⟨hf2, _, _, hC2⟩ := multiplicar_hilos_celdas ar env hm hok hjoin
      (Hilos.multiplicar_matrices ar env ⟨A, B, C⟩ n W).mem n W hn0 hW0
    obtain ⟨_, _, _, hC3⟩ := multiplicar_hilos_celdas ar env hm hok hjoin ⟨A, B, C'⟩ n W hn0 hW0
    refine ⟨hf2, ?_, hA1, hB1, ?_⟩
    · funext i j
      rw [hC2, hA1, hB1, hC1]
      split <;> rfl
    · intro i j hi0 hi1 hj0 hj1
      rw [hC3, hC1, if_pos ⟨hi0, hi1, hj0, hj1⟩, if_pos ⟨hi0, hi1, hj0, hj1⟩]

theorem multiplicar_idempotente_witness :
    (Procesos.multiplicar_matrices aritInt32 entorno_sin_fallos
        (Procesos.multiplicar_matrices aritInt32 entorno_sin_fallos
          ⟨ejemploA, ejemploB, fun _ _ => 7⟩ 2 2).mem 2 2).mem.C
      = (Procesos.multiplicar_matrices aritInt32 entorno_sin_fallos
          ⟨ejemploA, ejemploB, fun _ _ => 7⟩ 2 2).mem.C :=
  (multiplicar_idempotente aritInt32 entorno_sin_fallos rfl (fun _ => rfl) (fun _ => rfl)
    ejemploA ejemploB (fun _ _ => 7) (fun _ _ => 9) 2 2 (by decide) (by decide) (by decide)).1.2.1

/-! ## Claims on the numeric behaviour -/

/-- C15. For any element arithmetic `ar` (no law is assumed of its addition), every
cell `(i, j)` a kernel computes holds the chain
`(((0 + A[i][0]*B[0][j]) + A[i][1]*B[1][j]) + …) + A[i][n-1]*B[n-1][j]`, built from
left to right for `k = 0, 1, …, n-1`: in `multiplicar_matrices_proceso` and
`multiplicar_matrices_hilo` on their row range, in the sequential reference, in
the OpenMP kernel whatever the order in which the rows are scheduled, and in the
local computation of the MPI version. -/
theorem acumulacion_ascendente {α : Type} (ar : Aritmetica α) :
    (∀ (m : Memoria α) (n r0 r1 i j : Int), r0 ≤ i → i < r1 → 0 ≤ j → j < n →
        (Procesos.multiplicar_matrices_proceso ar m n r0 r1).C i j
          = suma_ascendente ar (fun k => ar.prod (m.A i (k : Int)) (m.B (k : Int) j)) n.toNat
        ∧ (Hilos.multiplicar_matrices_hilo ar m ⟨r0, r1, n⟩).C i j
          = suma_ascendente ar (fun k => ar.prod (m.A i (k : Int)) (m.B (k : Int) j)) n.toNat)
    ∧ (∀ (m : Memoria α) (n i j : Int), 0 ≤ i → i < n → 0 ≤ j → j < n →
        (Secuencial.multiplicar_matrices ar m n n n).C i j
          = suma_ascendente ar (fun k => ar.prod (m.A i (k : Int)) (m.B (k : Int) j)) n.toNat)
    ∧ (∀ (m : Memoria α) (n num_hilos : Int) (orden : List Int) (i j : Int),
        orden.Perm ((List.range n.toNat).map (fun (t : Nat) => (t : Int))) →
        0 ≤ i → i < n → 0 ≤ j → j < n →
        (Openmp.multiplicar_matrices_openmp ar orden m n num_hilos).C i j
          = suma_ascendente ar (fun k => ar.prod (m.A i (k : Int)) (m.B (k : Int) j)) n.toNat)
    ∧ (∀ (A_local B_local C_local : Mpi.Buffer α) (filas_local N i j : Int),
        0 ≤ i → i < filas_local → 0 ≤ j → j < N →
        Mpi.calculo_local ar A_local B_local C_local filas_local N (i * N + j)
          = suma_ascendente ar
              (fun k => ar.prod (A_local (i * N + (k : Int))) (B_local ((k : Int) * N + j)))
              N.toNat) := by
  refine ⟨?_, ?_, ?_, ?_⟩
  · intro m n r0 r1 i j hi0 hi1 hj0 hj1
    rw [proceso_eq_triple, hilo_eq_triple, (triple_bucle_cerrado _ _ _ _ _ _).2.2,
      if_pos ⟨hi0, hi1, hj0, hj1⟩, celda_suma_ascendente]
    exact ⟨rfl, rfl⟩
  · intro m n i j hi0 hi1 hj0 hj1
    rw [secuencial_celda ar m n i j ⟨hi0, hi1⟩ ⟨hj0, hj1⟩, celda_suma_ascendente]
  · intro m n num_hilos orden i j hperm hi0 hi1 hj0 hj1
    rw [openmp_eq_procesos, ejecutar_procesos_completo ar n _ m ?_ i j ⟨hi0, hi1⟩ ⟨hj0, hj1⟩,
      celda_suma_ascendente]
    intro fila hf
    refine ⟨(fila, fila + 1), ?_, le_refl _, by simp⟩
    rw [List.mem_map]
    refine ⟨fila, hperm.mem_iff.mpr ?_, rfl⟩
    rw [List.mem_map]
    exact ⟨fila.toNat, List.mem_range.mpr (by omega), by omega⟩
  · intro A_local B_local C_local filas_local N i j hi0 hi1 hj0 hj1
    rw [calculo_local_cerrado ar A_local B_local C_local filas_local N (by omega) i j
      ⟨hi0, hi1⟩ ⟨hj0, hj1⟩]
    exact bucle_suma_ascendente ar
      (fun k => ar.prod (A_local (i * N + k)) (B_local (k * N + j))) N

theorem acumulacion_ascendente_witness :
    (Openmp.multiplicar_matrices_openmp aritInt32 [1, 0] ⟨ejemploA, ejemploB, fun _ _ => 7⟩
        2 4).C 1 0
      = suma_ascendente aritInt32
          (fun k => aritInt32.prod (ejemploA 1 (k : Int)) (ejemploB (k : Int) 0)) (2 : Int).toNat :=
  (acumulacion_ascendente aritInt32).2.2.1 ⟨ejemploA, ejemploB, fun _ _ => 7⟩ 2 4 [1, 0] 1 0
    (by decide) (by decide) (by decide) (by decide) (by decide)

/-! ## Claims on the MPI partition and on addressing -/

/-- C16, counterexample. With `N = 46341` and `size = 46342` the running
displacement overflows: `calcular_desplazamientos` stores
`displs[46341] = -2147479015`, not `min(46341, N) * N = 2147488281`. -/
theorem desplazamiento_sin_filas_desborda :
    (Mpi.calcular_desplazamientos (fun _ => 0) (fun _ => 0) 46342 46341).displs 46341
      = -2147479015
    ∧ min (46341 : Int) 46341 * 46341 = 2147488281 := by
  refine ⟨?_, by decide⟩
  have h := (counts_displs_wrap (fun _ => 0) (fun _ => 0) 46342 46341 (by decide) 46341
    (by decide)).2
  rw [show ((46341 : Nat) : Int) = 46341 from rfl] at h
  rw [h]
  decide

/-- C16, amended. For an `int` `N ≥ 1` and `size > N`,
`filas_por_proceso(rank, size, N)` is 1 for every `rank < N` and 0 for every
`N ≤ rank < size`, and `calcular_desplazamientos` still produces counts that sum
to `N * N`; `displs[i]` is the 32-bit value of `min(i, N) * N` for every
`i < size`, which is `min(i, N) * N` itself when `N * N ≤ 2^31 - 1`. -/
theorem procesos_sin_filas (counts displs : Mpi.Buffer Int) (size N : Int)
    (hN : 1 ≤ N) (hint : N ≤ 2147483647) (hs : N < size) :
    (∀ rank : Int, rank < N → Mpi.filas_por_proceso rank size N = 1)
    ∧ (∀ rank : Int, N ≤ rank → rank < size → Mpi.filas_por_proceso rank size N = 0)
    ∧ ∑ i ∈ Finset.range size.toNat,
        (Mpi.calcular_desplazamientos counts displs size N).counts i = N * N
    ∧ (∀ i : Nat, (i : Int) < size →
        (Mpi.calcular_desplazamientos counts displs size N).displs i
          = wrap32 (min (i : Int) N * N))
    ∧ (N * N ≤ 2147483647 → ∀ i : Nat, (i : Int) < size →
        (Mpi.calcular_desplazamientos counts displs size N).displs i = min (i : Int) N * N) := by
  have hN0 : 0 ≤ N := by omega
  have hs0 : 0 ≤ size := by omega
  have hq : Int.tdiv N size = 0 := by
    rw [Int.tdiv_eq_ediv hN0 hs0]
    exact Int.ediv_eq_zero_of_lt hN0 hs
  have hr : Int.tmod N size = N := by
    rw [Int.tmod_eq_emod hN0 hs0]
    exact Int.emod_eq_of_lt hN0 hs
  obtain ⟨hc, _⟩ := calcular_desplazamientos_cerrado counts displs size N
  have hfilas : ∀ rank : Int, Mpi.filas_por_proceso rank size N = if rank < N then 1 else 0 := by
    intro rank
    unfold Mpi.filas_por_proceso
    simp only [hq, hr, zero_add]
  have hdispl : ∀ i : Nat, (i : Int) < size →
      (Mpi.calcular_desplazamientos counts displs size N).displs i
        = wrap32 (min (i : Int) N * N) := by
    intro i hi
    rw [(counts_displs_wrap counts displs size N hN0 i hi).2, hq, hr]
    unfold inicio_cerrado
    rw [zero_mul, zero_add]
  refine ⟨?_, ?_, ?_, hdispl, ?_⟩
  · intro rank h
    rw [hfilas, if_pos h]
  · intro rank h _
    rw [hfilas, if_neg (not_lt.mpr h)]
  · have hsum : ∑ i ∈ Finset.range size.toNat,
        (Mpi.calcular_desplazamientos counts displs size N).counts i
        = (∑ i ∈ Finset.range size.toNat, Mpi.filas_por_proceso (i : Int) size N) * N := by
      rw [Finset.sum_mul]
      apply Finset.sum_congr rfl
      intro t ht
      rw [Finset.mem_range] at ht
      rw [hc, if_pos (by omega), hfilas]
      split
      · rw [one_mul]; exact wrap32_en_rango _ (by omega)
      · rw [zero_mul]; rfl
    rw [hsum, suma_filas_por_proceso size N hN0, inicio_cerrado_total N size (by omega)]
  · intro hNN i hi
    rw [hdispl i hi]
    exact wrap32_producto_acotado _ N (by omega) hNN

theorem procesos_sin_filas_witness :
    Mpi.filas_por_proceso 2 3 2 = 0
    ∧ (Mpi.calcular_desplazamientos (fun _ => 0) (fun _ => 0) 3 2).displs (2 : Nat)
      = min ((2 : Nat) : Int) 2 * 2 :=
  ⟨(procesos_sin_filas (fun _ => 0) (fun _ => 0) 3 2 (by decide) (by decide) (by decide)).2.1 2
    (by decide) (by decide),
   (procesos_sin_filas (fun _ => 0) (fun _ => 0) 3 2 (by decide) (by decide)
    (by decide)).2.2.2.2 (by decide) 2 (by decide)⟩

/-- C17, counterexample. Evaluated in `int`, the addressing `row * n + col` is not
injective for `n = 131072`: the cells `(32768, 0)` and `(0, 0)` both get offset 0;
and for `n = 46341` the cell `(46340, 46340)` gets the offset `-2147479016`,
outside `[0, n * n)`. -/
theorem direccionamiento_desborda :
    Mpi.indice 131072 32768 0 = Mpi.indice 131072 0 0
    ∧ Mpi.indice 46341 46340 46340 = -2147479016 := by
  decide

/-- C17, amended. For `n ≥ 1` with `n * n ≤ 2^31 - 1`, the addressing
`(row, col) ↦ row * n + col` of the flat MPI matrices, evaluated in `int`, sends
`[0, n) × [0, n)` into `[0, n * n)` injectively: two cells with the same offset
are the same cell, so cells of distinct rows have distinct offsets. The row
pointers of `crear_matriz_compartida` give the same address `matriz[row] + col`
whenever the function can create the matrix, that is when moreover the number of
bytes `8 * n + 4 * (n * n)` of `int total_size` is at most `2^31 - 1` and the
system calls succeed. -/
theorem direccionamiento_inyectivo (n : Int) (hn : 1 ≤ n) (hnn : n * n ≤ 2147483647) :
    (∀ row col : Int, 0 ≤ row → row < n → 0 ≤ col → col < n →
        Mpi.indice n row col = row * n + col
        ∧ 0 ≤ Mpi.indice n row col ∧ Mpi.indice n row col < n * n)
    ∧ (∀ row col row' col' : Int, 0 ≤ row → row < n → 0 ≤ col → col < n →
        0 ≤ row' → row' < n → 0 ≤ col' → col' < n →
        Mpi.indice n row col = Mpi.indice n row' col' → row = row' ∧ col = col')
    ∧ (∀ row col row' col' : Int, 0 ≤ row → row < n → 0 ≤ col → col < n →
        0 ≤ row' → row' < n → 0 ≤ col' → col' < n →
        row ≠ row' → Mpi.indice n row col ≠ Mpi.indice n row' col')
    ∧ (∀ (sis : Sistema) (nombre : Nombre) (matriz : Mpi.Buffer Int),
        8 * n + 4 * (n * n) ≤ 2147483647 → sis.shm_open_ok nombre = true →
        sis.ftruncate_ok (8 * n + 4 * (n * n)) = true →
        sis.mmap_ok (8 * n + 4 * (n * n)) = true →
        ∃ tabla : Mpi.Buffer Int,
          Procesos.crear_matriz_compartida sis n nombre matriz = Except.ok tabla
          ∧ ∀ row col : Int, 0 ≤ row → row < n → 0 ≤ col → col < n →
            tabla row + col = Mpi.indice n row col) := by
  have hiny : ∀ row col row' col' : Int, 0 ≤ row → row < n → 0 ≤ col → col < n →
      0 ≤ row' → row' < n → 0 ≤ col' → col' < n →
      Mpi.indice n row col = Mpi.indice n row' col' → row = row' ∧ col = col' := by
    intro row col row' col' h0 h1 h2 h3 h4 h5 h6 h7 h
    rw [(indice_exacto n row col hnn ⟨h0, h1⟩ ⟨h2, h3⟩).1,
      (indice_exacto n row' col' hnn ⟨h4, h5⟩ ⟨h6, h7⟩).1] at h
    exact indice_inyectivo n row col row' col' ⟨h2, h3⟩ ⟨h6, h7⟩ h
  refine ⟨?_, hiny, ?_, ?_⟩
  · intro row col h0 h1 h2 h3
    have h := indice_exacto n row col hnn ⟨h0, h1⟩ ⟨h2, h3⟩
    rw [h.1]
    exact ⟨rfl, h.2.1, h.2.2⟩
  · intro row col row' col' h0 h1 h2 h3 h4 h5 h6 h7 hne h
    exact hne (hiny row col row' col' h0 h1 h2 h3 h4 h5 h6 h7 h).1
  · intro sis nombre matriz htam hshm hft hmap
    obtain ⟨tabla, hok, htabla⟩ := crear_matriz_compartida_cerrado sis n nombre matriz hn htam
      hshm hft hmap
    refine ⟨tabla, hok, ?_⟩
    intro row col h0 h1 h2 h3
    rw [htabla row h0 h1, (indice_exacto n row col hnn ⟨h0, h1⟩ ⟨h2, h3⟩).1]

theorem direccionamiento_inyectivo_witness :
    (Mpi.indice 3 2 1 = 2 * 3 + 1 ∧ 0 ≤ Mpi.indice 3 2 1 ∧ Mpi.indice 3 2 1 < 3 * 3)
    ∧ ∃ tabla : Mpi.Buffer Int,
        Procesos.crear_matriz_compartida sistema_sin_fallos 3 Nombre.matriz_A (fun _ => 0)
          = Except.ok tabla
        ∧ ∀ row col : Int, 0 ≤ row → row < 3 → 0 ≤ col → col < 3 →
          tabla row + col = Mpi.indice 3 row col :=
  ⟨(direccionamiento_inyectivo 3 (by decide) (by decide)).1 2 1
    (by decide) (by decide) (by decide) (by decide),
   (direccionamiento_inyectivo 3 (by decide) (by decide)).2.2.2 sistema_sin_fallos
    Nombre.matriz_A (fun _ => 0) (by decide) rfl rfl rfl⟩

/-- C18, counterexample. With `n = 65536` and `W = 2` the partition loop gives
worker 1 the rows `[32768, 65536)`, but `calcular_desplazamientos` stores
`displs[1] = -2147483648`, which is not `n` times the start row
(`65536 * 32768 = 2147483648`). -/
theorem desplazamiento_no_es_fila_inicial :
    (Procesos.particion 65536 2)[1]? = some (32768, 65536)
    ∧ (Mpi.calcular_desplazamientos (fun _ => 0) (fun _ => 0) 2 65536).displs 1 = -2147483648
    ∧ (65536 : Int) * 32768 = 2147483648 := by
  decide

/-- C18, amended. For `n ≥ 0`, `W ≥ 1` and a worker index `i < W`, the partition
loop of `multiplicar_matrices` (thread and process versions) gives worker `i` the
row count `filas_por_proceso(i, W, n)` and the start row
`Σ_{j<i} filas_por_proceso(j, W, n)`: in rows, the thread/process partition and
the MPI partition are the same. In the MPI version `counts[i]` and `displs[i]` are
the 32-bit values of `n * row count` and `n * start row`, which are
`n * row count` and `n * start row` themselves when `n * n ≤ 2^31 - 1`. -/
theorem particion_iterativa_igual_cerrada (counts displs : Mpi.Buffer Int) (n W : Int)
    (hn : 0 ≤ n) (hW : 1 ≤ W) (i : Nat) (hi : (i : Int) < W) :
    ∃ p : Int × Int, (Procesos.particion n W)[i]? = some p
      ∧ (Hilos.particion n W)[i]? = some ⟨p.1, p.2, n⟩
      ∧ p.2 - p.1 = Mpi.filas_por_proceso i W n
      ∧ p.1 = ∑ j ∈ Finset.range i, Mpi.filas_por_proceso (j : Int) W n
      ∧ (Mpi.calcular_desplazamientos counts displs W n).counts i = wrap32 (n * (p.2 - p.1))
      ∧ (Mpi.calcular_desplazamientos counts displs W n).displs i = wrap32 (n * p.1)
      ∧ (n * n ≤ 2147483647 →
        (Mpi.calcular_desplazamientos counts displs W n).counts i = n * (p.2 - p.1)
        ∧ (Mpi.calcular_desplazamientos counts displs W n).displs i = n * p.1) := by
  have hiW : i < W.toNat := by omega
  obtain ⟨hcw, hdw⟩ := counts_displs_wrap counts displs W n hn i hi
  refine ⟨(inicio_cerrado (Int.tdiv n W) (Int.tmod n W) i,
    inicio_cerrado (Int.tdiv n W) (Int.tmod n W) (i + 1)), ?_, ?_, ?_, ?_, ?_, ?_, ?_⟩
  · rw [particion_procesos_cerrada n W hn]
    exact (getElem?_map_range _ _ _ _).mpr ⟨hiW, rfl⟩
  · rw [particion_hilos_cerrada n W hn]
    exact (getElem?_map_range _ _ _ _).mpr ⟨hiW, rfl⟩
  · rw [filas_por_proceso_paso]
  · rw [suma_filas_por_proceso W n hn]
  · rw [hcw, mul_comm]
  · rw [hdw, mul_comm]
  · intro hnn
    obtain ⟨hc, hd⟩ := counts_displs_inicio counts displs W n hn (by omega) hnn i hi
    rw [hc, hd]
    exact ⟨by ring, by ring⟩

theorem particion_iterativa_igual_cerrada_witness :
    ∃ p : Int × Int, (Procesos.particion 7 3)[1]? = some p
      ∧ (Hilos.particion 7 3)[1]? = some ⟨p.1, p.2, 7⟩
      ∧ p.2 - p.1 = Mpi.filas_por_proceso (1 : Nat) 3 7
      ∧ p.1 = ∑ j ∈ Finset.range 1, Mpi.filas_por_proceso (j : Int) 3 7
      ∧ (Mpi.calcular_desplazamientos (fun _ => 0) (fun _ => 0) 3 7).counts (1 : Nat)
          = wrap32 (7 * (p.2 - p.1))
      ∧ (Mpi.calcular_desplazamientos (fun _ => 0) (fun _ => 0) 3 7).displs (1 : Nat)
          = wrap32 (7 * p.1)
      ∧ ((7 : Int) * 7 ≤ 2147483647 →
        (Mpi.calcular_desplazamientos (fun _ => 0) (fun _ => 0) 3 7).counts (1 : Nat)
          = 7 * (p.2 - p.1)
        ∧ (Mpi.calcular_desplazamientos (fun _ => 0) (fun _ => 0) 3 7).displs (1 : Nat)
          = 7 * p.1) :=
  particion_iterativa_igual_cerrada (fun _ => 0) (fun _ => 0) 7 3 (by decide) (by decide) 1
    (by decide)

/-- C19. For `n ≥ 1` with `81 * n ≤ 2^31 - 1` and matrices `A`, `B` whose entries
in `[0, n) × [0, n)` lie in `[0, 9]` (which is what `llenar_matriz_aleatoria`
writes), in the `int` kernel with 32-bit arithmetic: the content of `C[i][j]`
after any number `t ≤ n` of iterations of the `k` loop lies in `[0, 81 * n]` and
is the exact partial sum; the product and the sum formed in each iteration, taken
exactly, lie in `[0, 81 * n]`, so no operation overflows; and the final cell of
`multiplicar_matrices_proceso` and `multiplicar_matrices_hilo` is the exact
integer sum, the value the kernel gives with exact integers. -/
theorem acumulacion_sin_desborde (n : Int) (hn : 1 ≤ n) (h81 : 81 * n ≤ 2147483647)
    (A B C : Matriz Int)
    (hA : ∀ f c : Int, 0 ≤ f → f < n → 0 ≤ c → c < n → 0 ≤ A f c ∧ A f c ≤ 9)
    (hB : ∀ f c : Int, 0 ≤ f → f < n → 0 ≤ c → c < n → 0 ≤ B f c ∧ B f c ≤ 9)
    (i j : Int) (hi0 : 0 ≤ i) (hi1 : i < n) (hj0 : 0 ≤ j) (hj1 : j < n) :
    (∀ t : Nat, (t : Int) ≤ n →
        0 ≤ celda_tras aritInt32 ⟨A, B, C⟩ i j t
        ∧ celda_tras aritInt32 ⟨A, B, C⟩ i j t ≤ 81 * n
        ∧ celda_tras aritInt32 ⟨A, B, C⟩ i j t
          = ∑ k ∈ Finset.range t, A i (k : Int) * B (k : Int) j)
    ∧ (∀ t : Nat, (t : Int) < n →
        0 ≤ A i (t : Int) * B (t : Int) j ∧ A i (t : Int) * B (t : Int) j ≤ 81 * n
        ∧ 0 ≤ celda_tras aritInt32 ⟨A, B, C⟩ i j t + A i (t : Int) * B (t : Int) j
        ∧ celda_tras aritInt32 ⟨A, B, C⟩ i j t + A i (t : Int) * B (t : Int) j ≤ 81 * n)
    ∧ (∀ r0 r1 : Int, r0 ≤ i → i < r1 →
        (Procesos.multiplicar_matrices_proceso aritInt32 ⟨A, B, C⟩ n r0 r1).C i j
          = ∑ k ∈ Finset.range n.toNat, A i (k : Int) * B (k : Int) j
        ∧ (Hilos.multiplicar_matrices_hilo aritInt32 ⟨A, B, C⟩ ⟨r0, r1, n⟩).C i j
          = ∑ k ∈ Finset.range n.toNat, A i (k : Int) * B (k : Int) j
        ∧ (Procesos.multiplicar_matrices_proceso aritInt32 ⟨A, B, C⟩ n r0 r1).C i j
          = (Procesos.multiplicar_matrices_proceso (aritExacta Int) ⟨A, B, C⟩ n r0 r1).C i j
        ∧ 0 ≤ (Procesos.multiplicar_matrices_proceso aritInt32 ⟨A, B, C⟩ n r0 r1).C i j
        ∧ (Procesos.multiplicar_matrices_proceso aritInt32 ⟨A, B, C⟩ n r0 r1).C i j ≤ 81 * n)
    ∧ (∀ (rand : Nat → Int) (matriz : Matriz Int) (llamadas : Nat), (∀ c, 0 ≤ rand c) →
        ∀ f c : Int, 0 ≤ f → f < n → 0 ≤ c → c < n →
          0 ≤ (llenar_matriz_aleatoria rand matriz n llamadas).1 f c
          ∧ (llenar_matriz_aleatoria rand matriz n llamadas).1 f c ≤ 9) := by
  have hAi : ∀ k : Int, 0 ≤ k → k < n → 0 ≤ A i k ∧ A i k ≤ 9 :=
    fun k h0 h1 => hA i k hi0 hi1 h0 h1
  have hBj : ∀ k : Int, 0 ≤ k → k < n → 0 ≤ B k j ∧ B k j ≤ 9 :=
    fun k h0 h1 => hB k j h0 h1 hj0 hj1
  have hparcial : ∀ t : Nat, (t : Int) ≤ n →
      celda_tras aritInt32 ⟨A, B, C⟩ i j t
        = ∑ k ∈ Finset.range t, A i (k : Int) * B (k : Int) j := by
    intro t ht
    have hb := suma_parcial_acotada n A B i j hAi hBj t ht
    rw [celda_tras_eq_celda, celda_int32, Int.toNat_ofNat]
    dsimp only
    exact wrap32_en_rango _ (by omega)
  refine ⟨?_, ?_, ?_, ?_⟩
  · intro t ht
    have hb := suma_parcial_acotada n A B i j hAi hBj t ht
    rw [hparcial t ht]
    exact ⟨hb.1, by omega, rfl⟩
  · intro t ht
    have hb := suma_parcial_acotada n A B i j hAi hBj (t + 1) (by push_cast; omega)
    have hp := producto_acotado (A i (t : Int)) (B (t : Int) j)
      (hAi t (by omega) ht) (hBj t (by omega) ht)
    rw [hparcial t (by omega)]
    rw [Finset.sum_range_succ] at hb
    push_cast at hb
    exact ⟨hp.1, by omega, hb.1, by omega⟩
  · intro r0 r1 hr0 hr1
    have hcond : r0 ≤ i ∧ i < r1 ∧ 0 ≤ j ∧ j < n := ⟨hr0, hr1, hj0, hj1⟩
    have hb := suma_parcial_acotada n A B i j hAi hBj n.toNat (by omega)
    have hcast : ((n.toNat : Nat) : Int) = n := by omega
    rw [hcast] at hb
    have hP : (Procesos.multiplicar_matrices_proceso aritInt32 ⟨A, B, C⟩ n r0 r1).C i j
        = ∑ k ∈ Finset.range n.toNat, A i (k : Int) * B (k : Int) j := by
      rw [proceso_eq_triple, (triple_bucle_cerrado _ _ _ _ _ _).2.2, if_pos hcond, celda_int32]
      dsimp only
      exact wrap32_en_rango _ (by omega)
    have hH : (Hilos.multiplicar_matrices_hilo aritInt32 ⟨A, B, C⟩ ⟨r0, r1, n⟩).C i j
        = ∑ k ∈ Finset.range n.toNat, A i (k : Int) * B (k : Int) j := by
      rw [hilo_eq_triple, (triple_bucle_cerrado _ _ _ _ _ _).2.2, if_pos hcond, celda_int32]
      dsimp only
      exact wrap32_en_rango _ (by omega)
    have hE : (Procesos.multiplicar_matrices_proceso (aritExacta Int) ⟨A, B, C⟩ n r0 r1).C i j
        = ∑ k ∈ Finset.range n.toNat, A i (k : Int) * B (k : Int) j := by
      rw [proceso_eq_triple, (triple_bucle_cerrado _ _ _ _ _ _).2.2, if_pos hcond, celda_exacta]
    refine ⟨hP, hH, by rw [hP, hE], by rw [hP]; exact hb.1, by rw [hP]; omega⟩
  · intro rand matriz llamadas hrand f c hf0 hf1 hc0 hc1
    exact llenar_matriz_aleatoria_rango rand hrand matriz n llamadas f c ⟨hf0, hf1⟩ ⟨hc0, hc1⟩

theorem acumulacion_sin_desborde_witness :
    (Procesos.multiplicar_matrices_proceso aritInt32 ⟨ejemploA, ejemploB, fun _ _ => 7⟩ 2 0 2).C 1 0
      = ∑ k ∈ Finset.range (2 : Int).toNat, ejemploA 1 (k : Int) * ejemploB (k : Int) 0 :=
  ((acumulacion_sin_desborde 2 (by decide) (by decide) ejemploA ejemploB (fun _ _ => 7)
    (by
      intro f c h0 h1 h2 h3
      have hf : f = 0 ∨ f = 1 := by omega
      have hc : c = 0 ∨ c = 1 := by omega
      rcases hf with rfl | rfl <;> rcases hc with rfl | rfl <;> decide)
    (by
      intro f c h0 h1 h2 h3
      have hf : f = 0 ∨ f = 1 := by omega
      have hc : c = 0 ∨ c = 1 := by omega
      rcases hf with rfl | rfl <;> rcases hc with rfl | rfl <;> decide)
    1 0 (by decide) (by decide) (by decide) (by decide)).2.2.1 0 2 (by decide) (by decide)).1

end Matrices
